import Mathlib

/-!
Shallow embedding of the core of the liquid-css-variables extension
(`src/extension.js`): the Liquid expression evaluator and filter chain,
the condition evaluators, the Liquid block interpreter, the
template-to-CSS transform, the hex/rem/px value helpers, the settings
resolver, and the structural CSS-variable extractor, together with
theorems settling the specification claims about them.

Strings are modelled as Lean `String`s, manipulated through their
underlying `List Char`.  JavaScript numbers are modelled as exact
rationals (`ℚ`), with `NaN`/`Infinity` carried explicitly where the
source can produce them.  JavaScript exceptions (the source can throw
`TypeError` by dereferencing `undefined`) are modelled by the `JsOut`
result type.  Global regexes are modelled by specialised scanners that
realise each concrete pattern's matching semantics.
-/

abbrev Chars := List Char

/-- Left brace character, written via its code point. -/
def lbr : Char := '\x7b'

/-- Right brace character, written via its code point. -/
def rbr : Char := '\x7d'

/-- Single quote character. -/
def sqc : Char := '\x27'

/-- Double quote character. -/
def dqc : Char := '"'

/-- JS whitespace (`\s`) restricted to the ASCII range (space, tab,
LF, CR, VT, FF — code points 32, 9, 10, 13, 11, 12); the source text
never contains non-ASCII whitespace. -/
def jsWs (c : Char) : Bool :=
  c.toNat = 32 || c.toNat = 9 || c.toNat = 10 || c.toNat = 13 || c.toNat = 11 || c.toNat = 12

/-- JS line terminators, which the regex `.` never matches (LF and CR;
like `jsWs` this is restricted to the ASCII range — the source text
contains no U+2028/U+2029). -/
def lineTermC (c : Char) : Bool := c.toNat = 10 || c.toNat = 13

/-- Decimal digit test (`0`-`9`, code points 48-57). -/
def digitChar (c : Char) : Bool := 48 ≤ c.toNat && c.toNat ≤ 57

/-- JS `\w` character class, `[A-Za-z0-9_]` (code points 97-122,
65-90, 48-57, 95). -/
def wordChar (c : Char) : Bool :=
  (97 ≤ c.toNat && c.toNat ≤ 122) || (65 ≤ c.toNat && c.toNat ≤ 90) || digitChar c || c.toNat = 95

/-- Character class `[\w-]` used by the CSS-variable-name regexes. -/
def wordDash (c : Char) : Bool := wordChar c || c = '-'

/-- Hexadecimal digit test (`0-9`, `a-f`, `A-F`). -/
def hexChar (c : Char) : Bool :=
  digitChar c || (97 ≤ c.toNat && c.toNat ≤ 102) || (65 ≤ c.toNat && c.toNat ≤ 70)

/-- Value of a decimal digit. -/
def digitVal (c : Char) : Nat := c.toNat - '0'.toNat

/-- Lower-casing restricted to ASCII letters (enough for the `/i`
regex flags of the source, whose literals are ASCII). -/
def lowerC (c : Char) : Char :=
  if 'A' ≤ c && c ≤ 'Z' then Char.ofNat (c.toNat + 32) else c

/-- Character comparison, optionally case-insensitive (`ci`). -/
def chEq (ci : Bool) (a b : Char) : Bool :=
  if ci then lowerC a = lowerC b else a = b

/-- Matches the literal `lit` at the head of `cs`, returning the rest.
`ci` selects case-insensitive matching (regex `/i` flag). -/
def matchLit (ci : Bool) : Chars → Chars → Option Chars
  | [], cs => some cs
  | _ :: _, [] => none
  | l :: ls, c :: cs => if chEq ci l c then matchLit ci ls cs else none

/-- Does `pat` occur as a contiguous substring of `cs`? -/
def containsSub (pat : Chars) : Chars → Bool
  | [] => (matchLit false pat []).isSome
  | c :: cs => (matchLit false pat (c :: cs)).isSome || containsSub pat cs

/-- Index of the first occurrence of `pat` in `cs`, if any
(case-insensitivity selectable). -/
def findSubCI (ci : Bool) (pat : Chars) : Chars → Option Nat
  | [] => if (matchLit ci pat ([] : Chars)).isSome then some 0 else none
  | c :: cs =>
    if (matchLit ci pat (c :: cs)).isSome then some 0
    else (findSubCI ci pat cs).map (· + 1)

/-- Index of the first occurrence of `pat` (case-sensitive). -/
def findSub (pat : Chars) (cs : Chars) : Option Nat := findSubCI false pat cs

/-- Drop leading characters satisfying `p` (used for `\s*` runs). -/
def dropRun (p : Char → Bool) : Chars → Chars
  | [] => []
  | c :: cs => if p c then dropRun p cs else c :: cs

/-- Take the maximal leading run satisfying `p`. -/
def takeRun (p : Char → Bool) : Chars → Chars
  | [] => []
  | c :: cs => if p c then c :: takeRun p cs else []

/-- JS `String.prototype.trim` (ASCII whitespace suffices here). -/
def jsTrim (cs : Chars) : Chars :=
  (dropRun jsWs ((dropRun jsWs cs.reverse).reverse))

/-- Trim as a `String → String` helper. -/
def trimS (s : String) : String := ⟨jsTrim s.data⟩

/-- JS `String.prototype.split` with a non-empty literal separator:
splits at each non-overlapping occurrence, scanning left to right.
`fuel` bounds the recursion (callers pass the text length + 1). -/
def splitSubF (sep : Chars) : Nat → Chars → List Chars
  | 0, cs => [cs]
  | _ + 1, [] => [[]]
  | fuel + 1, c :: cs =>
    match matchLit false sep (c :: cs) with
    | some rest => [] :: splitSubF sep fuel rest
    | none =>
      match splitSubF sep fuel cs with
      | [] => [[c]]
      | p :: ps => (c :: p) :: ps

/-- JS `split` on a string separator (the empty separator splits into
single characters, as in JS). -/
def jsSplit (sep : Chars) (cs : Chars) : List Chars :=
  if sep.isEmpty then cs.map (fun c => [c])
  else splitSubF sep (cs.length + 1) cs

/-- Replace the first occurrence of `pat` (non-empty) by `repl`. -/
def replaceFirstSub (pat repl : Chars) : Chars → Chars
  | [] => []
  | c :: cs =>
    match matchLit false pat (c :: cs) with
    | some rest => repl ++ rest
    | none => c :: replaceFirstSub pat repl cs

/-- Replace every (non-overlapping, left-to-right) occurrence of the
non-empty `pat` by `repl`; fuelled by text length. -/
def replaceAllSubF (pat repl : Chars) : Nat → Chars → Chars
  | 0, cs => cs
  | _ + 1, [] => []
  | fuel + 1, c :: cs =>
    match matchLit false pat (c :: cs) with
    | some rest => repl ++ replaceAllSubF pat repl fuel rest
    | none => c :: replaceAllSubF pat repl fuel cs

/-- Replace every occurrence of `pat` by `repl` (JS
`replace(new RegExp(escapedLiteral, 'g'), repl)`); an empty pattern
matches at every position, interleaving `repl` between all characters
as JS does. -/
def replaceAllSub (pat repl cs : Chars) : Chars :=
  if pat.isEmpty then repl ++ (cs.map (fun c => c :: repl)).flatten
  else replaceAllSubF pat repl (cs.length + 1) cs

/-- Generic engine for a `/g` regex `exec` loop: `try1` attempts a
match at the head of the text, returning captures plus the rest of the
text after the match (every pattern in this file consumes at least one
character); on failure the scan advances one character, matching the
left-to-right search of `RegExp.prototype.exec`. -/
def scanAllF {α : Type} (try1 : Chars → Option (α × Chars)) : Nat → Chars → List α
  | 0, _ => []
  | _ + 1, [] => []
  | fuel + 1, c :: cs =>
    match try1 (c :: cs) with
    | some (a, rest) => a :: scanAllF try1 fuel rest
    | none => scanAllF try1 fuel cs

/-- Generic engine for a global `String.prototype.replace`: each match
is rewritten by the string the matcher returns; unmatched characters
are copied. -/
def replaceScanF (try1 : Chars → Option (Chars × Chars)) : Nat → Chars → Chars
  | 0, cs => cs
  | _ + 1, [] => []
  | fuel + 1, c :: cs =>
    match try1 (c :: cs) with
    | some (out, rest) => out ++ replaceScanF try1 fuel rest
    | none => c :: replaceScanF try1 fuel cs

/-- Runs a replace scan with the standard fuel (text length + 1). -/
def replaceScan (try1 : Chars → Option (Chars × Chars)) (cs : Chars) : Chars :=
  replaceScanF try1 (cs.length + 1) cs

/-- Runs an exec-all scan with the standard fuel. -/
def scanAll {α : Type} (try1 : Chars → Option (α × Chars)) (cs : Chars) : List α :=
  scanAllF try1 (cs.length + 1) cs

/-! ## JavaScript numbers

Numbers are exact rationals, with `NaN` and the infinities explicit.
All numbers the evaluator can actually produce are rationals whose
denominator divides a power of ten, so decimal printing is exact. -/

/-- JS number: `NaN`, the two infinities, or a finite rational. -/
inductive JsNumV where
  | nan
  | inf
  | ninf
  | fin (q : ℚ)
deriving DecidableEq, Repr

/-- Parses a maximal run of decimal digits, returning value, digit
count, and the rest. -/
def parseDigits : Chars → Nat × Nat × Chars
  | [] => (0, 0, [])
  | c :: cs =>
    if digitChar c then
      let (v, n, rest) := parseDigits cs
      (digitVal c * 10 ^ n + v, n + 1, rest)
    else (0, 0, c :: cs)

/-- Optional exponent part `e|E [+|-] digits`; a malformed exponent is
left unconsumed, as in JS `parseFloat`. -/
def parseExpPart (cs : Chars) : Int × Chars :=
  match cs with
  | c :: rest =>
    if c = 'e' || c = 'E' then
      match rest with
      | '+' :: r2 =>
        let (v, n, r3) := parseDigits r2
        if n = 0 then (0, cs) else ((v : Int), r3)
      | '-' :: r2 =>
        let (v, n, r3) := parseDigits r2
        if n = 0 then (0, cs) else (-(v : Int), r3)
      | r2 =>
        let (v, n, r3) := parseDigits r2
        if n = 0 then (0, cs) else ((v : Int), r3)
    else (0, cs)
  | [] => (0, [])

/-- Ten to an integer power, as a rational. -/
def pow10Z (e : Int) : ℚ :=
  if e ≥ 0 then ((10 ^ e.toNat : Nat) : ℚ) else 1 / ((10 ^ (-e).toNat : Nat) : ℚ)

/-- Unsigned part of JS `parseFloat`: `Infinity`, or
`digits [. digits*] [exp]`, or `. digits+ [exp]`; `NaN` when no digits
are found. -/
def parseFloatUnsigned (cs : Chars) : JsNumV :=
  match matchLit false ("Infinity".data) cs with
  | some _ => .inf
  | none =>
    let (ip, ic, r1) := parseDigits cs
    if ic > 0 then
      match r1 with
      | '.' :: r2 =>
        let (fp, fc, r3) := parseDigits r2
        let (e, _r4) := parseExpPart r3
        .fin (((ip : ℚ) + (fp : ℚ) / ((10 ^ fc : Nat) : ℚ)) * pow10Z e)
      | _ =>
        let (e, _r4) := parseExpPart r1
        .fin ((ip : ℚ) * pow10Z e)
    else
      match cs with
      | '.' :: r2 =>
        let (fp, fc, r3) := parseDigits r2
        if fc = 0 then .nan
        else
          let (e, _r4) := parseExpPart r3
          .fin ((fp : ℚ) / ((10 ^ fc : Nat) : ℚ) * pow10Z e)
      | _ => .nan

/-- JS `parseFloat` on a character string: leading whitespace skipped,
optional sign, then the longest numeric-literal prefix; `NaN` when no
prefix parses. -/
def parseFloatJs (cs : Chars) : JsNumV :=
  let t := dropRun jsWs cs
  match t with
  | '+' :: r => parseFloatUnsigned r
  | '-' :: r =>
    match parseFloatUnsigned r with
    | .fin q => .fin (-q)
    | .inf => .ninf
    | v => v
  | r => parseFloatUnsigned r

/-- JS `parseFloat` collapsed to `Option ℚ` (`none` = `NaN`); the
`Infinity` results, which the evaluator's filter arithmetic never
receives from real templates, are collapsed to `none` as well and are
modelled exactly only where comparisons are involved (`JsNumV`). -/
def parseFloatQ (cs : Chars) : Option ℚ :=
  match parseFloatJs cs with
  | .fin q => some q
  | _ => none

/-- JS `parseInt(s, 10)`: whitespace, optional sign, maximal decimal
digit prefix; `none` = `NaN`. -/
def parseIntDec (cs : Chars) : Option Int :=
  let t := dropRun jsWs cs
  let core : Chars → Option Nat := fun u =>
    let (v, n, _) := parseDigits u
    if n = 0 then none else some v
  match t with
  | '+' :: r => (core r).map (fun v => (v : Int))
  | '-' :: r => (core r).map (fun v => -(v : Int))
  | r => (core r).map (fun v => (v : Int))

/-- Parses a maximal run of hex digits, returning value, count, rest. -/
def parseHexDigits : Chars → Nat × Nat × Chars
  | [] => (0, 0, [])
  | c :: cs =>
    if hexChar c then
      let (v, n, rest) := parseHexDigits cs
      (hexDigitNat c * 16 ^ n + v, n + 1, rest)
    else (0, 0, c :: cs)
where
  /-- Value of one hex digit. -/
  hexDigitNat (c : Char) : Nat :=
    if digitChar c then digitVal c
    else if 'a' ≤ c && c ≤ 'f' then c.toNat - 'a'.toNat + 10
    else c.toNat - 'A'.toNat + 10

/-- JS `parseInt(s, 16)`: whitespace, optional sign, optional `0x`
marker, maximal hex digit prefix; `none` = `NaN`. -/
def parseIntHexJs (cs : Chars) : Option Int :=
  let t := dropRun jsWs cs
  let core : Chars → Option Nat := fun u =>
    let u2 := match u with
      | '0' :: x :: r => if x = 'x' || x = 'X' then r else u
      | _ => u
    let (v, n, _) := parseHexDigits u2
    if n = 0 then none else some v
  match t with
  | '+' :: r => (core r).map (fun v => (v : Int))
  | '-' :: r => (core r).map (fun v => -(v : Int))
  | r => (core r).map (fun v => (v : Int))

/-- Decimal digit characters of a natural number (most significant
first). -/
def natDigits (n : Nat) : Chars := Nat.toDigits 10 n

/-- Renders the integer `N` with exactly `k` of its trailing digits
behind a decimal point (padding with leading zeros when `N` has fewer
than `k+1` digits); `k = 0` renders plain digits. -/
def fixedDigits (N : Nat) (k : Nat) : Chars :=
  if k = 0 then natDigits N
  else
    let ds := natDigits N
    let ds := if ds.length < k + 1 then List.replicate (k + 1 - ds.length) '0' ++ ds else ds
    ds.take (ds.length - k) ++ '.' :: ds.drop (ds.length - k)

/-- Smallest `k ≤ 40` with `d ∣ 10^k`, when one exists. -/
def pow10Mult (d : Nat) : Option Nat :=
  (List.range 41).find? (fun k => 10 ^ k % d = 0)

/-- JS `ToString` for a finite number.  Exact for rationals whose
denominator divides a power of ten — every number the exercised code
paths produce.  The JS exponential forms (`|x| ≥ 1e21` or `< 1e-6`)
and the shortest-round-trip printing of other denominators are
approximated by plain positional decimals; no theorem below evaluates
those corners. -/
def qToString (q : ℚ) : Chars :=
  if q = 0 then ['0']
  else
    let sgn : Chars := if q < 0 then ['-'] else []
    let n := q.num.natAbs
    let d := q.den
    match pow10Mult d with
    | some k => sgn ++ fixedDigits (n * 10 ^ k / d) k
    | none =>
      let cs := fixedDigits (n * 10 ^ 17 / d) 17
      sgn ++ (match cs.reverse with
        | '0' :: _ =>
          let r := dropRun (· = '0') cs.reverse
          (match r with | '.' :: r2 => r2 | _ => r).reverse
        | _ => cs)

/-- ECMA `Number.prototype.toFixed(f)`: sign split off, then the
integer `n` minimising `|n/10^f − x|` with ties to the larger `n`
(i.e. `⌊x·10^f + ½⌋` on the magnitude); `NaN`/infinite inputs print
their names; magnitudes at or above `10^21` fall back to `ToString`. -/
def jsToFixed (x : JsNumV) (f : Nat) : Chars :=
  match x with
  | .nan => "NaN".data
  | .inf => "Infinity".data
  | .ninf => "-Infinity".data
  | .fin q =>
    if |q| ≥ (10 ^ 21 : ℚ) then qToString q
    else
      let sgn : Chars := if q < 0 then ['-'] else []
      let n : Nat := (⌊|q| * ((10 ^ f : Nat) : ℚ) + 1 / 2⌋).toNat
      sgn ++ fixedDigits n f

/-- The `replace(/\.?0+$/, '')` trim applied by `remToPx`/`pxToRem`:
the leftmost-longest suffix of the form "optional dot then one or more
zeros" is removed — all trailing zeros, plus the dot if it immediately
precedes them. -/
def stripFixedZeros (cs : Chars) : Chars :=
  match cs.reverse with
  | '0' :: _ =>
    let r := dropRun (· = '0') cs.reverse
    (match r with | '.' :: r2 => r2 | _ => r).reverse
  | _ => cs

/-- Multiplication of a JS number by a finite rational
(`numValue * baseFontSize`). -/
def numVMulQ (x : JsNumV) (b : ℚ) : JsNumV :=
  match x with
  | .nan => .nan
  | .inf => if b > 0 then .inf else if b < 0 then .ninf else .nan
  | .ninf => if b > 0 then .ninf else if b < 0 then .inf else .nan
  | .fin q => .fin (q * b)

/-- Division of a JS number by a finite rational
(`numValue / baseFontSize`), with the JS signed-infinity results for a
zero divisor. -/
def numVDivQ (x : JsNumV) (b : ℚ) : JsNumV :=
  match x with
  | .nan => .nan
  | .inf => if b ≥ 0 then .inf else .ninf
  | .ninf => if b ≥ 0 then .ninf else .inf
  | .fin q =>
    if b = 0 then (if q > 0 then .inf else if q < 0 then .ninf else .nan)
    else .fin (q / b)

/-- JS `<` on numbers (`NaN` compares false). -/
def numVLtB : JsNumV → JsNumV → Bool
  | .nan, _ => false
  | _, .nan => false
  | .inf, _ => false
  | .ninf, .ninf => false
  | .ninf, _ => true
  | .fin _, .inf => true
  | .fin _, .ninf => false
  | .fin a, .fin b => decide (a < b)

/-- JS `<=` on numbers (`NaN` compares false). -/
def numVLeB : JsNumV → JsNumV → Bool
  | .nan, _ => false
  | _, .nan => false
  | .ninf, _ => true
  | .inf, .inf => true
  | .inf, _ => false
  | .fin _, .inf => true
  | .fin _, .ninf => false
  | .fin a, .fin b => decide (a ≤ b)

/-- JS `==` on two numbers. -/
def numVEqB : JsNumV → JsNumV → Bool
  | .fin a, .fin b => decide (a = b)
  | .inf, .inf => true
  | .ninf, .ninf => true
  | _, _ => false

/-! ## JavaScript values -/

/-- The dynamic value universe the evaluator works over: strings,
(finite) numbers, booleans, arrays, plain objects (ordered field
lists, mirroring JS insertion order), and `undefined`. -/
inductive JsValue where
  | str (s : String)
  | num (q : ℚ)
  | bool (b : Bool)
  | arr (xs : List JsValue)
  | obj (fields : List (String × JsValue))
  | undefined

/-- Result of running a piece of JS: a value, a thrown `TypeError`
(the only exception the modelled code can raise, by dereferencing
`undefined`), or exhaustion of the recursion fuel. -/
inductive JsOut (α : Type) where
  | ok (a : α)
  | thrown
  | noFuel
deriving DecidableEq

/-- Bind for `JsOut`. -/
def JsOut.bind {α β : Type} : JsOut α → (α → JsOut β) → JsOut β
  | .ok a, f => f a
  | .thrown, _ => .thrown
  | .noFuel, _ => .noFuel

mutual

/-- JS `ToString` on a value; arrays join their elements with commas
(`undefined` elements print as nothing), objects print the usual
placeholder. -/
def jsToString : JsValue → String
  | .str s => s
  | .num q => ⟨qToString q⟩
  | .bool b => if b then "true" else "false"
  | .undefined => "undefined"
  | .obj _ => "[object Object]"
  | .arr xs => ⟨List.intercalate [','] (jsArrParts xs)⟩

/-- String pieces of an array's `toString`. -/
def jsArrParts : List JsValue → List Chars
  | [] => []
  | x :: xs =>
    (match x with
      | .undefined => []
      | v => (jsToString v).data) :: jsArrParts xs

end

/-- JS `ToBoolean` (`!!value`): `undefined`, the empty string, `false`
and `0` are falsy; everything else (including any array or object) is
truthy.  The model has no `NaN`-valued `JsValue`s. -/
def jsToBoolean : JsValue → Bool
  | .undefined => false
  | .str s => decide (s ≠ "")
  | .bool b => b
  | .num q => decide (q ≠ 0)
  | .arr _ => true
  | .obj _ => true

/-- JS `ToNumber` of a full string: trimmed, empty → `0`, hex literals
and `Infinity` accepted, otherwise the whole string must be a decimal
literal (`NaN` when it is not). -/
def toNumberStr (cs : Chars) : JsNumV :=
  let t := jsTrim cs
  if t.isEmpty then .fin 0
  else
    let hex : Option JsNumV :=
      match t with
      | '0' :: x :: r =>
        if x = 'x' || x = 'X' then
          let (v, n, rest) := parseHexDigits r
          if n > 0 && rest.isEmpty then some (.fin (v : ℚ)) else some .nan
        else none
      | _ => none
    match hex with
    | some v => v
    | none =>
      match t with
      | '+' :: r => toNumberDecFull r
      | '-' :: r =>
        match toNumberDecFull r with
        | .fin q => .fin (-q)
        | .inf => .ninf
        | v => v
      | r => toNumberDecFull r
where
  /-- Unsigned full-string decimal literal (or `Infinity`). -/
  toNumberDecFull (cs : Chars) : JsNumV :=
    match matchLit false ("Infinity".data) cs with
    | some rest => if rest.isEmpty then .inf else .nan
    | none =>
      let (ip, ic, r1) := parseDigits cs
      if ic > 0 then
        match r1 with
        | '.' :: r2 =>
          let (fp, fc, r3) := parseDigits r2
          let (e, r4) := parseExpPart r3
          if r4.isEmpty then .fin (((ip : ℚ) + (fp : ℚ) / ((10 ^ fc : Nat) : ℚ)) * pow10Z e)
          else .nan
        | _ =>
          let (e, r4) := parseExpPart r1
          if r4.isEmpty then .fin ((ip : ℚ) * pow10Z e) else .nan
      else
        match cs with
        | '.' :: r2 =>
          let (fp, fc, r3) := parseDigits r2
          if fc = 0 then .nan
          else
            let (e, r4) := parseExpPart r3
            if r4.isEmpty then .fin ((fp : ℚ) / ((10 ^ fc : Nat) : ℚ) * pow10Z e) else .nan
        | _ => .nan

/-- ToPrimitive for equality/relational operators: arrays and objects
collapse to their string form, primitives are unchanged. -/
def toPrim (v : JsValue) : JsValue :=
  match v with
  | .arr xs => .str (jsToString (.arr xs))
  | .obj fs => .str (jsToString (.obj fs))
  | v => v

/-- ToNumber of an already-primitive value. -/
def primToNum : JsValue → JsNumV
  | .num q => .fin q
  | .bool b => .fin (if b then 1 else 0)
  | .str s => toNumberStr s.data
  | .undefined => .nan
  | v => toNumberStr (jsToString v).data

/-- Loose equality on primitives (after `toPrim`). -/
def primLooseEq : JsValue → JsValue → Bool
  | .str s, .str t => decide (s = t)
  | .num p, .num q => decide (p = q)
  | .bool x, .bool y => decide (x = y)
  | .bool x, y => numVEqB (.fin (if x then 1 else 0)) (primToNum y)
  | x, .bool y => numVEqB (.fin (if y then 1 else 0)) (primToNum x)
  | .num q, .str s => numVEqB (.fin q) (toNumberStr s.data)
  | .str s, .num q => numVEqB (.fin q) (toNumberStr s.data)
  | _, _ => false

/-- JS `==` (abstract loose equality) on the modelled values.
Array-to-array and object-to-object comparisons are by reference in
JS; distinct evaluations always yield distinct references, so they are
modelled as unequal (the self-referential `a == a` case over one
object binding is outside this value model). -/
def jsLooseEq (a b : JsValue) : Bool :=
  match a, b with
  | .undefined, .undefined => true
  | .undefined, _ => false
  | _, .undefined => false
  | .arr _, .arr _ => false
  | .arr _, .obj _ => false
  | .obj _, .arr _ => false
  | .obj _, .obj _ => false
  | a, b => primLooseEq (toPrim a) (toPrim b)

/-- Code-point lexicographic `<` on strings (JS string relational
comparison). -/
def lexLtB : Chars → Chars → Bool
  | [], [] => false
  | [], _ :: _ => true
  | _ :: _, [] => false
  | a :: as, b :: bs =>
    if a.toNat < b.toNat then true
    else if b.toNat < a.toNat then false
    else lexLtB as bs

/-- JS `<` on values: both operands to primitives; string/string
compares lexicographically, otherwise numerically (`NaN` false). -/
def jsLtB (a b : JsValue) : Bool :=
  match toPrim a, toPrim b with
  | .str s, .str t => lexLtB s.data t.data
  | pa, pb => numVLtB (primToNum pa) (primToNum pb)

/-- JS `<=` on values (`a <= b` is the negation of `b < a` except that
an undefined — `NaN` — comparison is false). -/
def jsLeB (a b : JsValue) : Bool :=
  match toPrim a, toPrim b with
  | .str s, .str t => !lexLtB t.data s.data
  | pa, pb => numVLeB (primToNum pa) (primToNum pb)

/-! ## rem/px conversion helpers (extension.js lines 66-79) -/

/-- Converts rem to px: `parseFloat`, `NaN → null`, otherwise
`(numValue * baseFontSize).toFixed(2)` with the trailing-zero trim. -/
def remToPx (remValue : String) (baseFontSize : ℚ := 16) : Option String :=
  match parseFloatJs remValue.data with
  | .nan => none
  | v => some ⟨stripFixedZeros (jsToFixed (numVMulQ v baseFontSize) 2)⟩

/-- Converts px to rem: `parseFloat`, `NaN → null`, otherwise
`(numValue / baseFontSize).toFixed(4)` with the trailing-zero trim. -/
def pxToRem (pxValue : String) (baseFontSize : ℚ := 16) : Option String :=
  match parseFloatJs pxValue.data with
  | .nan => none
  | v => some ⟨stripFixedZeros (jsToFixed (numVDivQ v baseFontSize) 4)⟩

/-! ## hexToRgba (extension.js lines 155-184) -/

/-- Decoded color record; `none` channels model the `NaN` a failed
`parseInt` produces, `a = none` models a `NaN` alpha. -/
structure Rgba where
  r : Option Int
  g : Option Int
  b : Option Int
  a : Option ℚ
deriving DecidableEq, Repr

/-- Converts a hex color to an rgba record.  The memoization cache of
the source (a pure-function memo keyed by `hex` and `alpha`) is
modelled as a scan-state field further below; it never changes the
value returned here.  Mirrors the source: falsy input → `null`; the
first `#` removed; length 3 doubles each character; lengths other than
6 or 8 → `null`; channels via `parseInt(·, 16)` on 2-character slices;
an 8th-length string's final byte becomes `a` divided by 255,
otherwise `a` is the `alpha` argument (default 1). -/
def hexToRgba (hex : String) (alpha : ℚ := 1) : Option Rgba :=
  if hex = "" then none
  else
    let h0 := stripFirstHash hex.data
    let h := if h0.length = 3 then (h0.map (fun c => [c, c])).flatten else h0
    if h.length = 6 ∨ h.length = 8 then
      let r := parseIntHexJs (h.take 2)
      let g := parseIntHexJs ((h.drop 2).take 2)
      let b := parseIntHexJs ((h.drop 4).take 2)
      let a : Option ℚ :=
        if h.length = 8 then (parseIntHexJs ((h.drop 6).take 2)).map (fun n => (n : ℚ) / 255)
        else some alpha
      some ⟨r, g, b, a⟩
    else none
where
  /-- `hex.replace('#', '')`: removes the first `#` only. -/
  stripFirstHash (cs : Chars) : Chars := replaceFirstSub ['#'] [] cs

/-! ## Settings resolver (extension.js lines 186-310, 1139-1171) -/

/-- The two settings sources: the cached `settings_data.json` `current`
object (`shopifySettings`) and the flattened `settings_schema.json`
defaults (`shopifySettingsSchema`); `none` models a failed load
(`null`). -/
structure SettingsCtx where
  shopifySettings : Option (List (String × JsValue))
  shopifySettingsSchema : Option (List (String × JsValue))

/-- Empty settings context (both documents unavailable). -/
def emptyCtx : SettingsCtx := ⟨none, none⟩

/-- JS object property read on a field list (`undefined` if absent). -/
def objGet (fields : List (String × JsValue)) (k : String) : JsValue :=
  match fields.find? (fun f => f.1 = k) with
  | some f => f.2
  | none => .undefined

/-- JS property read `v[k]` on an object-like value: object fields,
array `length`, and canonical array indices; anything else is
`undefined`. -/
def jsGetProp (v : JsValue) (k : String) : JsValue :=
  match v with
  | .obj fs => objGet fs k
  | .arr xs =>
    if k = "length" then .num xs.length
    else
      match k.data with
      | [] => .undefined
      | c :: cs =>
        if (c :: cs).all digitChar && (c ≠ '0' || cs = []) then
          let i := (parseDigits (c :: cs)).1
          match xs.get? i with
          | some x => x
          | none => .undefined
        else .undefined
  | _ => .undefined

/-- Is the value object-typed in JS (`typeof v === 'object'`)?  Arrays
are objects; primitives are not (the model has no `null`). -/
def isObjLike : JsValue → Bool
  | .obj _ => true
  | .arr _ => true
  | _ => false

/-- The dotted-path descent of `getSettingValue`: each step requires a
truthy object; a failing step yields `undefined` and stops. -/
def walkPathUndef : JsValue → List String → JsValue
  | v, [] => v
  | v, k :: ks =>
    if jsToBoolean v && isObjLike v then walkPathUndef (jsGetProp v k) ks
    else .undefined

/-- The dotted-path descent of `resolveLiquidVariable`: a failing step
keeps the current value (the loop `break`s without clearing it). -/
def walkPathKeep : JsValue → List String → JsValue
  | v, [] => v
  | v, k :: ks =>
    if jsToBoolean v && isObjLike v then walkPathKeep (jsGetProp v k) ks
    else v

/-- Splits a dotted path into its segments. -/
def dotSegs (cs : Chars) : List String :=
  (jsSplit ['.'] cs).map (fun p => (⟨p⟩ : String))

/-- Gets a setting value (extension.js lines 1141-1171), without the
`settingValueCache` memo: the memo is scan-scoped write-through state
(modelled in the scan-state section below) and never changes the value
a fresh scan observes.  Direct key read first; dotted keys instead
walk the path from the root settings object; `undefined` results fall
back to the schema defaults under the full key. -/
def getSettingValue (ctx : SettingsCtx) (settingKey : String) : JsValue :=
  let direct : JsValue :=
    match ctx.shopifySettings with
    | none => .undefined
    | some fields => objGet fields settingKey
  let v1 : JsValue :=
    if containsSub ['.'] settingKey.data then
      walkPathUndef
        (match ctx.shopifySettings with
          | none => .undefined
          | some f => .obj f)
        (dotSegs settingKey.data)
    else direct
  match v1, ctx.shopifySettingsSchema with
  | .undefined, some schema => objGet schema settingKey
  | v, _ => v

/-- Formats a setting value (extension.js lines 285-310): numbers and
booleans via their string form, strings verbatim, objects (and arrays,
which are objects to `typeof`) as the `[object]` placeholder, anything
else through `String(·)`. -/
def formatSettingValue (value : JsValue) (_varName : String) : String :=
  match value with
  | .num q => ⟨qToString q⟩
  | .bool b => if b then "true" else "false"
  | .str s => s
  | .obj _ => "[object]"
  | .arr _ => "[object]"
  | .undefined => "undefined"

/-- Gets the first color scheme (extension.js lines 189-198):
`Object.keys(schemes)[0]`, with the JS falsy checks on the settings
and the `color_schemes` property. -/
def getFirstColorScheme (ctx : SettingsCtx) : Option JsValue :=
  match ctx.shopifySettings with
  | none => none
  | some fields =>
    let cs := objGet fields "color_schemes"
    if jsToBoolean cs then
      match cs with
      | .obj [] => none
      | .obj (f :: _) => some f.2
      | .arr [] => none
      | .arr (x :: _) => some x
      | .str s =>
        match s.data with
        | [] => none
        | c :: _ => some (.str ⟨[c]⟩)
      | _ => none
    else none

/-- First-match searcher: applies `f` at every suffix, left to right. -/
def findFirstMap {α : Type} (f : Chars → Option α) : Chars → Option α
  | [] => f []
  | c :: cs =>
    match f (c :: cs) with
    | some a => some a
    | none => findFirstMap f cs

/-- Match of `\{\{\s*scheme\.settings\.([\w.]+)\s*\}\}` at the head of
the text, returning the captured path. -/
def schemeSettingsRefAt (cs : Chars) : Option Chars := do
  let r1 ← matchLit false [lbr, lbr] cs
  let r2 := dropRun jsWs r1
  let r3 ← matchLit false ("scheme.settings.".data) r2
  let (path, r4) := r3.span (fun c => wordChar c || c = '.')
  if path.isEmpty then none
  else
    let r5 := dropRun jsWs r4
    let _ ← matchLit false [rbr, rbr] r5
    some path

/-- Match of `\{\{\s*settings\.([\w.]+)\s*\}\}` at the head of the
text, returning the captured path. -/
def settingsRefAt (cs : Chars) : Option Chars := do
  let r1 ← matchLit false [lbr, lbr] cs
  let r2 := dropRun jsWs r1
  let r3 ← matchLit false ("settings.".data) r2
  let (path, r4) := r3.span (fun c => wordChar c || c = '.')
  if path.isEmpty then none
  else
    let r5 := dropRun jsWs r4
    let _ ← matchLit false [rbr, rbr] r5
    some path

/-- Renders one integer channel of an rgba record (`NaN` when the
parse failed). -/
def chanS : Option Int → Chars
  | none => "NaN".data
  | some i => if i < 0 then '-' :: natDigits i.natAbs else natDigits i.natAbs

/-- Renders the alpha channel. -/
def alphaS : Option ℚ → Chars
  | none => "NaN".data
  | some q => qToString q

/-- Resolves `{{ settings.* }}` / `{{ scheme.settings.* }}` output
markup (extension.js lines 204-280).  Scheme references navigate the
first color scheme's `settings`; `#`-prefixed string values render as
`r, g, b, a` (or `r g b` under a `.rgb` tail); plain references walk
the current settings then the schema defaults, falling back to a
`[path]` placeholder. -/
def resolveLiquidVariable (ctx : SettingsCtx) (liquidVar : String) : String :=
  match findFirstMap schemeSettingsRefAt liquidVar.data with
  | some path =>
    let firstScheme := getFirstColorScheme ctx
    let schemeSettings : JsValue :=
      match firstScheme with
      | none => .undefined
      | some sv => jsGetProp sv "settings"
    match firstScheme with
    | none => "[scheme." ++ ⟨path⟩ ++ "]"
    | some _ =>
      if jsToBoolean schemeSettings = false then "[scheme." ++ ⟨path⟩ ++ "]"
      else
        let varPath := dotSegs path
        let value := walkPathKeep schemeSettings varPath
        match value with
        | .str s =>
          if s.data.head? = some '#' then
            let lastProp := varPath.getLast? |>.getD ""
            match hexToRgba s with
            | some c =>
              if lastProp = "rgba" then
                ⟨chanS c.r ++ ", ".data ++ chanS c.g ++ ", ".data ++ chanS c.b ++ ", ".data ++ alphaS c.a⟩
              else if lastProp = "rgb" then
                ⟨chanS c.r ++ [' '] ++ chanS c.g ++ [' '] ++ chanS c.b⟩
              else
                ⟨chanS c.r ++ ", ".data ++ chanS c.g ++ ", ".data ++ chanS c.b ++ ", ".data ++ alphaS c.a⟩
            | none => s
          else formatSettingValue (.str s) (varPath.headD "")
        | v => formatSettingValue v (varPath.headD "")
  | none =>
    match findFirstMap settingsRefAt liquidVar.data with
    | none => liquidVar
    | some path =>
      let varPath := dotSegs path
      let varName := varPath.headD ""
      let fromData : JsValue :=
        match ctx.shopifySettings with
        | none => .undefined
        | some fields => objGet fields varName
      match fromData with
      | .undefined =>
        match ctx.shopifySettingsSchema with
        | some schema =>
          match objGet schema varName with
          | .undefined => "[" ++ ⟨path⟩ ++ "]"
          | v => formatSettingValue v varName
        | none => "[" ++ ⟨path⟩ ++ "]"
      | v0 => formatSettingValue (walkPathKeep v0 varPath.tail) varName

/-! ## Liquid expression evaluator (extension.js lines 674-882) -/

/-- Variable bindings of one interpreter run (a JS object; assignment
shadows, lookup sees the latest binding). -/
abbrev Bindings := List (String × JsValue)

/-- Reads a binding (`undefined` when absent). -/
def lookupVar (vars : Bindings) (k : String) : JsValue :=
  match vars.find? (fun f => f.1 = k) with
  | some f => f.2
  | none => .undefined

/-- Binds a variable (newest binding wins on lookup). -/
def setVar (vars : Bindings) (k : String) (v : JsValue) : Bindings :=
  (k, v) :: vars

/-- The quote-aware pipe splitter of `evaluateLiquidExpression`
(lines 675-703): walks the expression character by character tracking
single/double-quote state (a quote preceded by a backslash does not
toggle), splitting on unquoted `|`; each part is trimmed, and a
non-empty trailing accumulator is flushed at the end. -/
def splitPipesGo : Chars → Option Char → Chars → Bool → Option Char → List Chars → List Chars
  | [], _prev, current, _inQ, _qc, acc =>
    if current.isEmpty then acc else acc ++ [jsTrim current]
  | c :: rest, prev, current, inQ, qc, acc =>
    if (c = sqc || c = dqc) && prev ≠ some '\\' then
      if !inQ then splitPipesGo rest (some c) (current ++ [c]) true (some c) acc
      else if some c = qc then splitPipesGo rest (some c) (current ++ [c]) false none acc
      else splitPipesGo rest (some c) (current ++ [c]) inQ qc acc
    else if c = '|' && !inQ then
      splitPipesGo rest (some c) [] inQ qc (acc ++ [jsTrim current])
    else splitPipesGo rest (some c) (current ++ [c]) inQ qc acc

/-- Splits an expression into base part and filter parts. -/
def splitPipes (expr : Chars) : List Chars :=
  splitPipesGo expr none [] false none []

/-- Anchored match of `REGEX.arrayAccess = ^([\w_]+)\[([^\]]+)\]$`. -/
def matchArrayAccess (cs : Chars) : Option (Chars × Chars) :=
  let (name, r1) := cs.span wordChar
  if name.isEmpty then none
  else
    match r1 with
    | '[' :: r2 =>
      match r2.reverse with
      | ']' :: innerRev =>
        let inner := innerRev.reverse
        if !inner.isEmpty && inner.all (fun c => c ≠ ']') then some (name, inner) else none
      | _ => none
    | _ => none

/-- Anchored match of `REGEX.propAccess = ^([\w_]+)\.([\w_]+)$`. -/
def matchPropAccess (cs : Chars) : Option (Chars × Chars) :=
  let (name, r1) := cs.span wordChar
  if name.isEmpty then none
  else
    match r1 with
    | '.' :: r2 => if !r2.isEmpty && r2.all wordChar then some (name, r2) else none
    | _ => none

/-- Anchored match of `REGEX.numericLiteral = ^\d+(\.\d+)?$`. -/
def isNumericLit (cs : Chars) : Bool :=
  let (d1, r) := cs.span digitChar
  if d1.isEmpty then false
  else
    match r with
    | [] => true
    | '.' :: r2 => !r2.isEmpty && r2.all digitChar
    | _ => false

/-- Anchored match of `^[\w_]+$`. -/
def isIdent (cs : Chars) : Bool := !cs.isEmpty && cs.all wordChar

/-- Head match of the placeholder pattern `'?\[([^\]]+)\]'?`,
returning the matched text and the rest. -/
def placeholderAt (cs : Chars) : Option (Chars × Chars) :=
  let core : Chars → Option (Chars × Chars) := fun u =>
    match u with
    | '[' :: r =>
      let (inner, r2) := r.span (fun c => c ≠ ']')
      if inner.isEmpty then none
      else
        match r2 with
        | ']' :: r3 =>
          match r3 with
          | q :: r4 => if q = sqc then some ('[' :: inner ++ [']', sqc], r4) else some ('[' :: inner ++ [']'], r3)
          | [] => some ('[' :: inner ++ [']'], [])
        | _ => none
    | _ => none
  match cs with
  | c :: r =>
    if c = sqc then
      match core r with
      | some (m, rest) => some (sqc :: m, rest)
      | none => none
    else core cs
  | [] => none

/-- Strips the quote/bracket characters of a matched placeholder
(`placeholder.replace(/['"\[\]]/g, '')`). -/
def stripQuoteBrackets (cs : Chars) : Chars :=
  cs.filter (fun c => !(c = sqc || c = dqc || c = '[' || c = ']'))

/-- Anchored match of `^['"].*['"]$` (a quoted-looking text of length
at least 2; `.` vs newline is immaterial for single-line filters). -/
def looksQuoted (cs : Chars) : Bool :=
  match cs with
  | a :: (b :: rest) =>
    (a = sqc || a = dqc) &&
      (match (b :: rest).reverse with
        | z :: _ => z = sqc || z = dqc
        | [] => false)
  | _ => false

/-- Strips one leading and one trailing quote character
(`replace(/^['"]|['"]$/g, '')`). -/
def stripEdgeQuotes (cs : Chars) : Chars :=
  let s1 := match cs with
    | c :: r => if c = sqc || c = dqc then r else cs
    | [] => []
  match s1.reverse with
  | c :: r => if c = sqc || c = dqc then r.reverse else s1
  | [] => []

/-- Head match of the filter shape `^([\w_]+)(?::\s*(.+))?$`: name,
then optionally a colon and the argument text.  A lone colon with
nothing after it fails the whole match (the optional group needs at
least one character and the anchor then fails), so such a filter is
passed through untouched by `applyLiquidFilter`. -/
def filterShape (cs : Chars) : Option (Chars × Option Chars) :=
  let (name, r) := cs.span wordChar
  if name.isEmpty then none
  else
    match r with
    | [] => some (name, none)
    | ':' :: r2 =>
      match dropRun jsWs r2 with
      | [] =>
        -- backtracking leaves the last (whitespace) character to `(.+)`;
        -- unreachable from trimmed filter parts
        (match r2.reverse with
          | c :: _ => some (name, some [c])
          | [] => none)
      | arg => some (name, some arg)
    | _ => none

/-- First match of `/['"]([^'"]*)['"]\s*,\s*(.+)/` at the head of the
text: quoted search string, comma, then the (non-empty) remainder as
the replacement expression. -/
def replaceArgsAt (cs : Chars) : Option (Chars × Chars) :=
  match cs with
  | q1 :: r =>
    if q1 = sqc || q1 = dqc then
      let (inner, r2) := r.span (fun c => !(c = sqc || c = dqc))
      match r2 with
      | _q2 :: r3 =>
        match dropRun jsWs r3 with
        | ',' :: r4 =>
          let rest := dropRun jsWs r4
          let rest := if rest.isEmpty then (match r4.reverse with | c :: _ => [c] | [] => []) else rest
          if rest.isEmpty then none else some (inner, rest)
        | _ => none
      | [] => none
    else none
  | [] => none

/-- SameValueZero equality used by `new Set` deduplication: primitives
by value, arrays/objects by reference (always distinct here). -/
def svzEq : JsValue → JsValue → Bool
  | .str s, .str t => decide (s = t)
  | .num p, .num q => decide (p = q)
  | .bool x, .bool y => decide (x = y)
  | .undefined, .undefined => true
  | _, _ => false

/-- Dedupe preserving first occurrences (`[...new Set(value)]`). -/
def dedupeSvz (xs : List JsValue) : List JsValue :=
  xs.foldl (fun acc x => if acc.any (fun y => svzEq y x) then acc else acc ++ [x]) []

/-- Natural (numeric-aware) comparison approximating
`localeCompare` with the `numeric` collation option: digit runs compare
by value, letters case-insensitively with lowercase first on ties.
Collation details of ICU beyond this are not modelled; no claim
exercises `sort_natural`. -/
def naturalLeBF : Nat → Chars → Chars → Bool
  | 0, _, _ => true
  | _ + 1, [], _ => true
  | _ + 1, _ :: _, [] => false
  | fuel + 1, a :: as, b :: bs =>
    if digitChar a && digitChar b then
      let (da, ra) := (a :: as).span digitChar
      let (db, rb) := (b :: bs).span digitChar
      let va := (parseDigits da).1
      let vb := (parseDigits db).1
      if va < vb then true
      else if vb < va then false
      else naturalLeBF fuel ra rb
    else
      let la := lowerC a
      let lb := lowerC b
      if la.toNat < lb.toNat then true
      else if lb.toNat < la.toNat then false
      else if a = b then naturalLeBF fuel as bs
      else a.toNat > b.toNat

/-- Natural comparison entry point. -/
def naturalLeB (x y : Chars) : Bool := naturalLeBF (x.length + y.length + 1) x y

/-- JS `in` operator on an object-like value (own or index
properties; `length` for arrays). -/
def hasProp (v : JsValue) (k : String) : Bool :=
  match v with
  | .obj fs => fs.any (fun f => f.1 = k)
  | .arr xs =>
    k = "length" ||
      (match k.data with
        | [] => false
        | c :: cs =>
          ((c :: cs).all digitChar && (c ≠ '0' || cs = [])) &&
            (parseDigits (c :: cs)).1 < xs.length)
  | _ => false

/-- `Math.round(x * 100000) / 100000`, the 5-decimal rounding of the
`times`/`divided_by` filters (`Math.round` is `⌊x + ½⌋`). -/
def round5 (x : ℚ) : ℚ := ((⌊x * 100000 + 1 / 2⌋ : ℤ) : ℚ) / 100000

mutual

/-- Evaluates a Liquid expression with filters (extension.js lines
674-778).  The expression is split into pipe-separated parts; the
first part resolves to the base value (quoted literal, bracket access,
dotted property, bare identifier, numeric literal, or the raw text
with bracketed placeholders substituted); the remaining parts are
applied in order as filters.  `fuel` bounds the recursion through
sub-expression evaluation; the empty expression leaves `parts` empty,
so `value = parts[0]` is `undefined` and the subsequent
`value.startsWith` call throws a `TypeError` (modelled as `.thrown`). -/
def evaluateLiquidExpression (fuel : Nat) (ctx : SettingsCtx) (expr : String) (vars : Bindings) : JsOut JsValue :=
  match fuel with
  | 0 => .noFuel
  | fuel + 1 =>
    match splitPipes expr.data with
    | [] => .thrown
    | p0 :: filters =>
      let base : JsOut JsValue :=
        if (p0.head? = some sqc && p0.getLast? = some sqc) ||
            (p0.head? = some dqc && p0.getLast? = some dqc) then
          .ok (.str ⟨(p0.drop 1).dropLast⟩)
        else if p0.contains '[' then
          match matchArrayAccess p0 with
          | some (objectName, indexExpr) =>
            if objectName = ("settings".data) then
              (evaluateLiquidExpression fuel ctx ⟨indexExpr⟩ vars).bind fun settingKey =>
                match getSettingValue ctx (jsToString settingKey) with
                | .undefined => .ok (.str "")
                | sv => .ok sv
            else
              let array := lookupVar vars ⟨objectName⟩
              (evaluateLiquidExpression fuel ctx ⟨indexExpr⟩ vars).bind fun idx =>
                match array with
                | .arr xs =>
                  (match parseIntDec (jsToString idx).data with
                    | some i =>
                      if i < 0 then .ok .undefined
                      else .ok ((xs.get? i.toNat).getD .undefined)
                    | none => .ok .undefined)
                | _ => .ok (.str "")
          | none => .ok (.str ⟨p0⟩)
        else if p0.contains '.' then
          match matchPropAccess p0 with
          | some (objectName, propertyName) =>
            if objectName = ("settings".data) then
              match getSettingValue ctx ⟨propertyName⟩ with
              | .undefined => .ok (.str "")
              | sv => .ok sv
            else
              let obj := lookupVar vars ⟨objectName⟩
              if jsToBoolean obj && isObjLike obj && hasProp obj ⟨propertyName⟩ then
                .ok (jsGetProp obj ⟨propertyName⟩)
              else .ok (.str ⟨p0⟩)
          | none =>
            -- mirrored from the source: an `^[\w_]+$` test that cannot
            -- succeed on a dotted text
            if isIdent p0 then
              (match lookupVar vars ⟨p0⟩ with
                | .undefined => .ok (.str ⟨p0⟩)
                | v => .ok v)
            else .ok (.str ⟨p0⟩)
        else if isIdent p0 then
          (match lookupVar vars ⟨p0⟩ with
            | .undefined => .ok (.str ⟨p0⟩)
            | v => .ok v)
        else if isNumericLit p0 then
          .ok (.num (match parseFloatJs p0 with | .fin q => q | _ => 0))
        else
          let ms := scanAll placeholderAt p0
          .ok (.str ⟨ms.foldl (fun v m =>
            let varName := stripQuoteBrackets m
            let varValue : JsValue :=
              match lookupVar vars ⟨varName⟩ with
              | .undefined => .str ""
              | x => x
            replaceFirstSub m (jsToString varValue).data v) p0⟩)
      filters.foldl (fun acc f => acc.bind fun v => applyLiquidFilter fuel ctx v ⟨f⟩ vars) base

/-- Applies one Liquid filter to a value (extension.js lines 783-882).
An unparseable filter shape or an unknown filter name passes the value
through; a `replace` filter invoked without any argument dereferences
`undefined` (`filterArg.match`) and throws.  One unit of fuel is
consumed on entry so that the mutual recursion is structural. -/
def applyLiquidFilter (fuel : Nat) (ctx : SettingsCtx) (value : JsValue) (filter : String) (vars : Bindings) : JsOut JsValue :=
  match fuel with
  | 0 => .noFuel
  | fuel + 1 =>
  match filterShape filter.data with
  | none => .ok value
  | some (filterNameC, filterArg) =>
    let filterName : String := ⟨filterNameC⟩
    if filterName = "split" then
      let splitBy : Chars :=
        match filterArg with
        | none => [',']
        | some a => stripEdgeQuotes (jsTrim a)
      .ok (.arr ((jsSplit splitBy (jsToString value).data).map (fun p => .str ⟨p⟩)))
    else if filterName = "replace" then
      match filterArg with
      | none => .thrown
      | some a =>
        match findFirstMap replaceArgsAt a with
        | none => .ok value
        | some (search, repl) =>
          let replaceValueExpr := jsTrim repl
          (evaluateLiquidExpression fuel ctx ⟨replaceValueExpr⟩ vars).bind fun rv0 =>
            let rv :=
              if (match rv0 with | .str s => s.data = replaceValueExpr | _ => false) &&
                  looksQuoted replaceValueExpr then
                JsValue.str ⟨stripEdgeQuotes replaceValueExpr⟩
              else rv0
            -- the `$`-substitution patterns of JS string replacement are
            -- not modelled (no template uses `$` in a replacement)
            .ok (.str ⟨replaceAllSub search (jsToString rv).data (jsToString value).data⟩)
    else if filterName = "append" then
      match filterArg with
      | none => .ok (.str (jsToString value))
      | some a =>
        (evaluateLiquidExpression fuel ctx ⟨a⟩ vars).bind fun av =>
          .ok (.str (jsToString value ++ jsToString av))
    else if filterName = "times" then
      let multOut : JsOut (Option ℚ) :=
        match filterArg with
        | none => .ok (some 1)
        | some a =>
          (evaluateLiquidExpression fuel ctx ⟨a⟩ vars).bind fun av =>
            .ok (parseFloatQ (jsToString av).data)
      multOut.bind fun mult =>
        match parseFloatQ (jsToString value).data, mult with
        | some x, some m => .ok (.num (round5 (x * m)))
        | _, _ => .ok (.num 0)
    else if filterName = "divided_by" then
      let divOut : JsOut (Option ℚ) :=
        match filterArg with
        | none => .ok (some 1)
        | some a =>
          (evaluateLiquidExpression fuel ctx ⟨a⟩ vars).bind fun av =>
            .ok (parseFloatQ (jsToString av).data)
      divOut.bind fun divisor =>
        match divisor with
        | some d =>
          if d = 0 then .ok (.num 0)
          else
            match parseFloatQ (jsToString value).data with
            | some x => .ok (.num (round5 (x / d)))
            | none => .ok (.num 0)
        | none => .ok (.num 0)
    else if filterName = "minus" then
      let argOut : JsOut (Option ℚ) :=
        match filterArg with
        | none => .ok (some 0)
        | some a =>
          (evaluateLiquidExpression fuel ctx ⟨a⟩ vars).bind fun av =>
            .ok (parseFloatQ (jsToString av).data)
      argOut.bind fun sub =>
        match parseFloatQ (jsToString value).data, sub with
        | some x, some y => .ok (.num (x - y))
        | _, _ => .ok (.num 0)
    else if filterName = "plus" then
      let argOut : JsOut (Option ℚ) :=
        match filterArg with
        | none => .ok (some 0)
        | some a =>
          (evaluateLiquidExpression fuel ctx ⟨a⟩ vars).bind fun av =>
            .ok (parseFloatQ (jsToString av).data)
      argOut.bind fun add =>
        match parseFloatQ (jsToString value).data, add with
        | some x, some y => .ok (.num (x + y))
        | _, _ => .ok (.num 0)
    else if filterName = "uniq" then
      match value with
      | .arr xs => .ok (.arr (dedupeSvz xs))
      | v => .ok v
    else if filterName = "sort_natural" then
      match value with
      | .arr xs =>
        .ok (.arr (xs.mergeSort (fun a b => naturalLeB (jsToString a).data (jsToString b).data)))
      | v => .ok v
    else if filterName = "find_index" then
      let searchOut : JsOut JsValue :=
        match filterArg with
        | none => .ok (.str "")
        | some a => evaluateLiquidExpression fuel ctx ⟨a⟩ vars
      searchOut.bind fun sv =>
        match value with
        | .arr xs =>
          let searchStr := jsToString sv
          (match xs.findIdx? (fun v => match v with | .str s => s = searchStr | _ => false) with
            | some i => .ok (.num i)
            | none =>
              match parseFloatQ searchStr.data with
              | some sn =>
                (match xs.findIdx? (fun v => parseFloatQ (jsToString v).data = some sn) with
                  | some i => .ok (.num i)
                  | none => .ok (.num (-1)))
              | none => .ok (.num (-1)))
        | _ => .ok (.num (-1))
    else .ok value

end

/-! ## Liquid condition evaluator (extension.js lines 484-522) -/

/-- The five comparison operators of `evaluateLiquidCondition`'s
regex, in its alternation order `>=|<=|>|<|==`. -/
inductive CmpOp where
  | ge
  | le
  | gt
  | lt
  | eq
deriving DecidableEq, Repr

/-- Length of an operator's spelling. -/
def opLen : CmpOp → Nat
  | .ge => 2
  | .le => 2
  | .gt => 1
  | .lt => 1
  | .eq => 2

/-- The tail `\s*(.+)` of the comparison regex at `r`, returning the
`(.+)` capture: the greedy `\s*` consumes the whitespace run, `(.+)`
then takes the maximal run of characters `.` can match (no line
terminators); when the whitespace run reaches the end of the text,
`\s*` backtracks to the last character `.` can still match, which the
capture then consists of. -/
def rightFrom (r : Chars) : Option Chars :=
  match dropRun jsWs r with
  | [] =>
    match r.reverse.dropWhile (fun c => lineTermC c) with
    | [] => none
    | c :: _ => some [c]
  | rest => some (rest.takeWhile (fun c => !lineTermC c))

/-- One alternative of the operator alternation `>=|<=|>|<|==`: its
literal must match, and the trailing `\s*(.+)` must succeed on the
rest (else the regex backtracks into the next alternative). -/
def opTryF (op : CmpOp) (lit : Chars) (cs : Chars) : Option (CmpOp × Chars) :=
  match matchLit false lit cs with
  | some r =>
    match rightFrom r with
    | some right => some (op, right)
    | none => none
  | none => none

/-- The operator alternation `>=|<=|>|<|==` with its right-hand tail,
in regex order (so a trailing `>=` falls back to `>` with `=` opening
the right operand, exactly as the regex backtracks). -/
def opHereF (cs : Chars) : Option (CmpOp × Chars) :=
  ((((opTryF .ge ['>', '='] cs).orElse fun _ =>
    opTryF .le ['<', '='] cs).orElse fun _ =>
    opTryF .gt ['>'] cs).orElse fun _ =>
    opTryF .lt ['<'] cs).orElse fun _ =>
    opTryF .eq ['=', '='] cs

/-- The part of the comparison regex after the lazy left capture,
`\s*(>=|<=|>|<|==)\s*(.+)`: the greedy first `\s*` takes the maximal
whitespace run, and since no alternative of the operator begins with a
whitespace character, backtracking that run shorter can never help —
the run's end is the only position the operator can match at. -/
def cmpTailHere (cs : Chars) : Option (CmpOp × Chars) :=
  opHereF (dropRun jsWs cs)

/-- One start position of `(.+?)\s*(>=|<=|>|<|==)\s*(.+)`: the lazy
`(.+?)` grows the left capture one character at a time — stopping at a
line terminator, which `.` cannot match — and after each character the
rest of the regex is tried. -/
def cmpFromStart (left : Chars) : Chars → Option (Chars × CmpOp × Chars)
  | [] => none
  | c :: rest =>
    if lineTermC c then none
    else
      match cmpTailHere rest with
      | some (op, right) => some (left ++ [c], op, right)
      | none => cmpFromStart (left ++ [c]) rest

/-- Realisation of the unanchored comparison regex
`(.+?)\s*(>=|<=|>|<|==)\s*(.+)` of `evaluateLiquidCondition`: start
positions are tried left to right, and the first position with a match
wins; the captures are the left and right operand groups exactly as
the engine produces them (the caller trims both). -/
def comparisonSplit : Chars → Option (Chars × CmpOp × Chars)
  | [] => none
  | c :: rest =>
    match cmpFromStart [] (c :: rest) with
    | some m => some m
    | none => comparisonSplit rest

/-- One alternative of the operator alternation with the simplified
right-hand check that is valid in the absence of line terminators: a
non-empty rest.  Proof-side reference for the lemmas below. -/
def opTry (op : CmpOp) (lit : Chars) (cs : Chars) : Option (CmpOp × Chars) :=
  match matchLit false lit cs with
  | some r => if !r.isEmpty then some (op, r) else none
  | none => none

/-- The operator alternation with the simplified right-hand check
(valid without line terminators), in regex order. -/
def opHere (cs : Chars) : Option (CmpOp × Chars) :=
  ((((opTry .ge ['>', '='] cs).orElse fun _ =>
    opTry .le ['<', '='] cs).orElse fun _ =>
    opTry .gt ['>'] cs).orElse fun _ =>
    opTry .lt ['<'] cs).orElse fun _ =>
    opTry .eq ['=', '='] cs

/-- Accumulator walk of the comparison split as it behaves on texts
without line terminators (where the lazy `(.+?)` can reach every
position): the leftmost operator occurrence with a character on each
side wins, and the untrimmed segments around the operator are
returned.  Proof-side reference, compared with the faithful
`comparisonSplit` in the lemmas below. -/
def noTermSplitAux (left : Chars) : Chars → Option (Chars × CmpOp × Chars)
  | [] => none
  | c :: rest =>
    match opHere (c :: rest) with
    | some (op, after) => some (left, op, after)
    | none => noTermSplitAux (left ++ [c]) rest

/-- The first-operator-occurrence split (the comparison regex as it
behaves without line terminators).  Proof-side reference. -/
def noTermSplit (cs : Chars) : Option (Chars × CmpOp × Chars) :=
  match cs with
  | [] => none
  | c :: rest => noTermSplitAux [c] rest

/-- Numeric comparison arm of the condition evaluator:
`parseFloat` both sides, compare with `NaN → false`. -/
def numCompare (op : CmpOp) (l r : JsNumV) : Bool :=
  match op with
  | .ge => numVLeB r l
  | .le => numVLeB l r
  | .gt => numVLtB r l
  | .lt => numVLtB l r
  | .eq => numVEqB l r

/-- Evaluates a Liquid condition (extension.js lines 484-522): a
`contains` test when the text contains the spaced keyword, otherwise
a comparison split by the first-match regex (ordering operators
compare after `parseFloat` coercion, `==` uses loose equality),
otherwise the truthiness of the evaluated expression. -/
def evaluateLiquidCondition (fuel : Nat) (ctx : SettingsCtx) (condition : String) (vars : Bindings) : JsOut Bool :=
  if containsSub (" contains ".data) condition.data then
    let parts := (jsSplit (" contains ".data) condition.data).map jsTrim
    let left : Chars := parts.getD 0 []
    let right : Chars := parts.getD 1 []
    (evaluateLiquidExpression fuel ctx ⟨left⟩ vars).bind fun lv =>
      (evaluateLiquidExpression fuel ctx ⟨right⟩ vars).bind fun rv =>
        .ok (containsSub (jsToString rv).data (jsToString lv).data)
  else
    match comparisonSplit condition.data with
    | some (l, op, r) =>
      (evaluateLiquidExpression fuel ctx ⟨jsTrim l⟩ vars).bind fun lv =>
        (evaluateLiquidExpression fuel ctx ⟨jsTrim r⟩ vars).bind fun rv =>
          if op ≠ .eq then
            .ok (numCompare op (parseFloatJs (jsToString lv).data) (parseFloatJs (jsToString rv).data))
          else .ok (jsLooseEq lv rv)
    | none =>
      (evaluateLiquidExpression fuel ctx condition vars).bind fun v =>
        .ok (jsToBoolean v)

/-! ## Liquid block interpreter (extension.js lines 404-669)

No theorem below quantifies over the interpreter's fuel: each call
site passes a fuel that is amply sufficient for its input (execution
consumes at least one fuel unit per processed line or nested
evaluation), and the theorems that touch the interpreter only run it
on concrete inputs. -/

/-- Fuel ample for evaluating one expression text. -/
def exprFuel (cs : Chars) : Nat := 2 * cs.length + 16

/-- Unanchored first match of `tag ++ \s+(.+)`, returning the capture
(e.g. `/if\s+(.+)/`, `/elsif\s+(.+)/`, `/unless\s+(.+)/`). -/
def tagCondAt (tag : Chars) (cs : Chars) : Option Chars := do
  let r ← matchLit false tag cs
  match r with
  | c :: rest =>
    if jsWs c then
      match dropRun jsWs rest with
      | [] =>
        -- backtracking of `\s+` against `(.+)` leaves the last
        -- whitespace character; unreachable from trimmed lines
        (match rest.reverse with
          | c2 :: _ => some [c2]
          | [] => some [c])
      | r2 => some r2
    else none
  | [] => none

/-- Head match of `assign\s+([\w_]+)\s*=\s*(.+)`, returning the
variable name and the raw expression text. -/
def assignAt (cs : Chars) : Option (Chars × Chars) := do
  let r ← matchLit false ("assign".data) cs
  match r with
  | c :: rest =>
    if jsWs c then
      let r2 := dropRun jsWs rest
      let (name, r3) := r2.span wordChar
      if name.isEmpty then none
      else
        match dropRun jsWs r3 with
        | '=' :: r4 =>
          match dropRun jsWs r4 with
          | [] =>
            (match r4.reverse with
              | c2 :: _ => some (name, [c2])
              | [] => none)
          | rest2 => some (name, rest2)
        | _ => none
    else none
  | [] => none

/-- Head match of `for\s+([\w_]+)\s+in\s+([\w_]+)`, returning the
item and array variable names. -/
def forHeadAt (cs : Chars) : Option (Chars × Chars) := do
  let r ← matchLit false ("for".data) cs
  match r with
  | c :: rest =>
    if jsWs c then
      let r2 := dropRun jsWs rest
      let (item, r3) := r2.span wordChar
      if item.isEmpty then none
      else
        match r3 with
        | c2 :: rest3 =>
          if jsWs c2 then
            let r4 := dropRun jsWs rest3
            match matchLit false ("in".data) r4 with
            | some r5 =>
              match r5 with
              | c3 :: rest5 =>
                if jsWs c3 then
                  let r6 := dropRun jsWs rest5
                  let (arrv, _r7) := r6.span wordChar
                  if arrv.isEmpty then none else some (item, arrv)
                else none
              | [] => none
            | none => none
          else none
        | [] => none
    else none
  | [] => none

/-- Prefix test on a `String` line. -/
def lineStarts (pat : String) (l : String) : Bool :=
  (matchLit false pat.data l.data).isSome

/-- The `find endfor`/`find endunless` scan of the interpreter: from
index `i`, collect lines into the body with a depth counter for the
nesting `startPat`/`endPat` pair; returns the body and the index of
the terminator (or of the end of the lines). -/
def collectDepth (startPat endPat : String) : Nat → List String → Nat → Nat → List String × Nat
  | 0, _, i, _ => ([], i)
  | fuel + 1, lines, i, depth =>
    match lines.get? i with
    | none => ([], i)
    | some l =>
      let d1 := if lineStarts startPat l then depth + 1 else depth
      if lineStarts endPat l then
        if d1 - 1 = 0 then ([], i)
        else
          let (b, j) := collectDepth startPat endPat fuel lines (i + 1) (d1 - 1)
          (l :: b, j)
      else
        let (b, j) := collectDepth startPat endPat fuel lines (i + 1) d1
        (l :: b, j)

/-- Runs the `echo`/`assign` line sequence of a winning branch or an
`unless` body; any other line is ignored there. -/
def execBranchLines (ctx : SettingsCtx) : List String → Bindings → String → JsOut (String × Bindings)
  | [], vars, out => .ok (out, vars)
  | l :: ls, vars, out =>
    if lineStarts "echo " l then
      (evaluateLiquidExpression (exprFuel l.data) ctx (trimS ⟨l.data.drop 5⟩) vars).bind fun v =>
        execBranchLines ctx ls vars (out ++ jsToString v)
    else if lineStarts "assign " l then
      match findFirstMap assignAt l.data with
      | some (name, exprC) =>
        (evaluateLiquidExpression (exprFuel exprC) ctx (trimS ⟨exprC⟩) vars).bind fun v =>
          execBranchLines ctx ls (setVar vars ⟨name⟩ v) out
      | none => execBranchLines ctx ls vars out
    else execBranchLines ctx ls vars out

/-- One collected branch of an `if`/`elsif`/`else` block: whether its
condition was met at collection time, and its lines. -/
structure IfBranch where
  met : Bool
  lns : List String

/-- Branch collection loop of `processIfBlockInLoop` (lines 430-457):
walks with a depth counter, evaluating each depth-1 `elsif` condition
as it is encountered (short-circuited when an earlier branch already
matched); `else` at depth 1 opens a branch met exactly when none
before it was. -/
def collectIf (ctx : SettingsCtx) : Nat → List String → Nat → Bindings → Bool →
    List IfBranch → IfBranch → Nat → JsOut (List IfBranch × Nat)
  | 0, _, _, _, _, _, _, _ => .noFuel
  | fuel + 1, lines, i, vars, conditionMet, done, cur, depth =>
    match lines.get? i with
    | none => .ok (done ++ [cur], i)
    | some line =>
      if lineStarts "if " line then
        collectIf ctx fuel lines (i + 1) vars conditionMet done
          { cur with lns := cur.lns ++ [line] } (depth + 1)
      else if lineStarts "endif" line then
        if depth - 1 = 0 then .ok (done ++ [cur], i)
        else
          collectIf ctx fuel lines (i + 1) vars conditionMet done
            { cur with lns := cur.lns ++ [line] } (depth - 1)
      else if lineStarts "elsif " line && depth = 1 then
        match findFirstMap (tagCondAt ("elsif".data)) line.data with
        | some condC =>
          let condOut : JsOut Bool :=
            if conditionMet then .ok false
            else evaluateLiquidCondition (exprFuel condC) ctx (trimS ⟨condC⟩) vars
          condOut.bind fun elsifMet =>
            collectIf ctx fuel lines (i + 1) vars (conditionMet || elsifMet)
              (done ++ [cur]) ⟨elsifMet, []⟩ depth
        | none => collectIf ctx fuel lines (i + 1) vars conditionMet done cur depth
      else if lineStarts "else" line && depth = 1 then
        collectIf ctx fuel lines (i + 1) vars conditionMet
          (done ++ [cur]) ⟨!conditionMet, []⟩ depth
      else
        collectIf ctx fuel lines (i + 1) vars conditionMet done
          { cur with lns := cur.lns ++ [line] } depth

/-- Processes an `if`/`elsif`/`else`/`endif` block inside a loop body
(extension.js lines 412-479): collects the branches, executes the
`echo`/`assign` lines of the first branch whose condition was met, and
returns the produced output together with the index one past the
closing `endif` and the updated bindings.  An out-of-range start index
models the `undefined.match` throw of the source. -/
def processIfBlockInLoop (ctx : SettingsCtx) (lines : List String) (startIndex : Nat) (vars : Bindings) : JsOut (String × Nat × Bindings) :=
  match lines.get? startIndex with
  | none => .thrown
  | some ifLine =>
    match findFirstMap (tagCondAt ("if".data)) ifLine.data with
    | none => .ok ("", startIndex + 1, vars)
    | some condC =>
      (evaluateLiquidCondition (exprFuel condC) ctx (trimS ⟨condC⟩) vars).bind fun met =>
        (collectIf ctx (lines.length + 2) lines (startIndex + 1) vars met [] ⟨met, []⟩ 1).bind
          fun (branches, endIdx) =>
            match branches.find? (fun b => b.met) with
            | some b =>
              (execBranchLines ctx b.lns vars "").bind fun (out, vars2) =>
                .ok (out, endIdx + 1, vars2)
            | none => .ok ("", endIdx + 1, vars)

/-- Processing of a `for` body (extension.js lines 590-614): `echo`,
`assign`, and nested `if` blocks (delegated to
`processIfBlockInLoop`); any other line advances. -/
def processForBody (ctx : SettingsCtx) : Nat → List String → Nat → Bindings → String → JsOut (String × Bindings)
  | 0, _, _, _, _ => .noFuel
  | fuel + 1, forBody, k, vars, out =>
    match forBody.get? k with
    | none => .ok (out, vars)
    | some bodyLine =>
      if lineStarts "echo " bodyLine then
        (evaluateLiquidExpression (exprFuel bodyLine.data) ctx (trimS ⟨bodyLine.data.drop 5⟩) vars).bind fun v =>
          processForBody ctx fuel forBody (k + 1) vars (out ++ jsToString v)
      else if lineStarts "assign " bodyLine then
        match findFirstMap assignAt bodyLine.data with
        | some (name, exprC) =>
          (evaluateLiquidExpression (exprFuel exprC) ctx (trimS ⟨exprC⟩) vars).bind fun v =>
            processForBody ctx fuel forBody (k + 1) (setVar vars ⟨name⟩ v) out
        | none => processForBody ctx fuel forBody (k + 1) vars out
      else if lineStarts "if " bodyLine then
        (processIfBlockInLoop ctx forBody k vars).bind fun (o2, nxt, vars2) =>
          processForBody ctx fuel forBody nxt vars2 (out ++ o2)
      else processForBody ctx fuel forBody (k + 1) vars out

/-- Iterates a `for` loop over its array (extension.js lines
585-615): per element, binds the item variable and the 1-based
`forloop.index` object, then runs the body. -/
def runForLoop (ctx : SettingsCtx) (forBody : List String) (itemVar : String) :
    List JsValue → Nat → Bindings → String → JsOut (String × Bindings)
  | [], _, vars, out => .ok (out, vars)
  | x :: xs, j, vars, out =>
    let vars1 := setVar (setVar vars itemVar x) "forloop" (.obj [("index", .num (j + 1))])
    (processForBody ctx (forBody.length + 2) forBody 0 vars1 "").bind fun (o2, vars2) =>
      runForLoop ctx forBody itemVar xs (j + 1) vars2 (out ++ o2)

/-- Main statement loop of `executeLiquidBlock` (extension.js lines
527-669): comment skipping, `assign`, `for`, `unless`, `echo`; any
other line (including a top-level `if`) is ignored. -/
def execMain (ctx : SettingsCtx) : Nat → List String → Nat → Bindings → Bool → String → JsOut String
  | 0, _, _, _, _, _ => .noFuel
  | fuel + 1, lines, i, vars, skipMode, output =>
    match lines.get? i with
    | none => .ok output
    | some line =>
      if line = "comment" || lineStarts "comment " line then
        execMain ctx fuel lines (i + 1) vars true output
      else if line = "endcomment" then
        execMain ctx fuel lines (i + 1) vars false output
      else if skipMode then
        execMain ctx fuel lines (i + 1) vars skipMode output
      else if lineStarts "assign " line then
        match findFirstMap assignAt line.data with
        | some (name, exprC) =>
          (evaluateLiquidExpression (exprFuel exprC) ctx (trimS ⟨exprC⟩) vars).bind fun v =>
            execMain ctx fuel lines (i + 1) (setVar vars ⟨name⟩ v) skipMode output
        | none => execMain ctx fuel lines (i + 1) vars skipMode output
      else if lineStarts "for " line then
        match findFirstMap forHeadAt line.data with
        | none => execMain ctx fuel lines (i + 1) vars skipMode output
        | some (itemVar, arrayVar) =>
          let arrayV :=
            let v := lookupVar vars ⟨arrayVar⟩
            if jsToBoolean v then v else .arr []
          let (forBody, endIdx) := collectDepth "for " "endfor" (lines.length + 2) lines (i + 1) 1
          (match arrayV with
            | .arr xs => runForLoop ctx forBody ⟨itemVar⟩ xs 0 vars ""
            | _ => .ok ("", vars)).bind fun (o2, vars2) =>
            execMain ctx fuel lines (endIdx + 1) vars2 skipMode (output ++ o2)
      else if lineStarts "unless " line then
        match findFirstMap (tagCondAt ("unless".data)) line.data with
        | none => execMain ctx fuel lines (i + 1) vars skipMode output
        | some condC =>
          (evaluateLiquidCondition (exprFuel condC) ctx (trimS ⟨condC⟩) vars).bind fun met0 =>
            let conditionMet := !met0
            let (body, endIdx) := collectDepth "unless " "endunless" (lines.length + 2) lines (i + 1) 1
            (if conditionMet then execBranchLines ctx body vars ""
              else .ok ("", vars)).bind fun (o2, vars2) =>
              execMain ctx fuel lines (endIdx + 1) vars2 skipMode (output ++ o2)
      else if lineStarts "echo " line then
        (evaluateLiquidExpression (exprFuel line.data) ctx (trimS ⟨line.data.drop 5⟩) vars).bind fun v =>
          execMain ctx fuel lines (i + 1) vars skipMode (output ++ jsToString v)
      else execMain ctx fuel lines (i + 1) vars skipMode output

/-- Executes a `{% liquid %}` block's statement lines (extension.js
lines 527-669): lines are trimmed and blank lines dropped, then the
statement machine runs with fresh bindings, returning the concatenated
`echo` output. -/
def executeLiquidBlock (ctx : SettingsCtx) (liquidCode : String) : JsOut String :=
  let lines : List String :=
    (((jsSplit ['\n'] liquidCode.data).map jsTrim).filter (fun l => !l.isEmpty)).map
      (fun l => (⟨l⟩ : String))
  execMain ctx (lines.length + 2) lines 0 [] false ""

/-! ## Template-to-stylesheet transform (extension.js lines 887-954,
1034-1136) -/

/-- First index at which `marker` matches, splitting the text into
the part before the marker and the rest after the marker's match. -/
def splitAtMarker (marker : Chars → Option Chars) : Chars → Option (Chars × Chars)
  | [] =>
    match marker [] with
    | some rest => some ([], rest)
    | none => none
  | c :: cs =>
    match marker (c :: cs) with
    | some rest => some ([], rest)
    | none =>
      match splitAtMarker marker cs with
      | some (b, a) => some (c :: b, a)
      | none => none

/-- First index at which `marker` matches (without consuming it). -/
def findIdxWhere (marker : Chars → Option Chars) : Chars → Option Nat
  | [] => if (marker []).isSome then some 0 else none
  | c :: cs =>
    if (marker (c :: cs)).isSome then some 0
    else (findIdxWhere marker cs).map (· + 1)

/-- Marker `{%\s*word\s*%}` (word matched case-insensitively, per the
`/i` flags), returning the rest after the closing `%}`. -/
def tagMarkAt (word : String) (cs : Chars) : Option Chars := do
  let r1 ← matchLit false [lbr, '%'] cs
  let r2 := dropRun jsWs r1
  let r3 ← matchLit true word.data r2
  let r4 := dropRun jsWs r3
  matchLit false ['%', rbr] r4

/-- Marker `{%\s*word\s*%}` matched case-sensitively (the reducer's
`firstElseMatch` and `elseMatch` regexes carry no `/i` flag). -/
def tagMarkAtCS (word : String) (cs : Chars) : Option Chars := do
  let r1 ← matchLit false [lbr, '%'] cs
  let r2 := dropRun jsWs r1
  let r3 ← matchLit false word.data r2
  let r4 := dropRun jsWs r3
  matchLit false ['%', rbr] r4

/-- Open marker `{%\s*word` followed by at least one whitespace
character (the `\s+` of a condition tag), returning the rest after
that whitespace run. -/
def tagOpenAt (word : String) (cs : Chars) : Option Chars := do
  let r1 ← matchLit false [lbr, '%'] cs
  let r2 := dropRun jsWs r1
  let r3 ← matchLit true word.data r2
  match r3 with
  | c :: rest => if jsWs c then some (dropRun jsWs rest) else none
  | [] => none

/-- Head match of `REGEX.liquidBlock = {%-?\s*liquid\s+([\s\S]*?)%}`
(`/gi`): returns the captured statement text and the rest after the
closing `%}`. -/
def liquidBlockAt (cs : Chars) : Option (Chars × Chars) := do
  let r1 ← matchLit false [lbr, '%'] cs
  let r2 := match r1 with
    | '-' :: t => t
    | _ => r1
  let r3 := dropRun jsWs r2
  let r4 ← matchLit true ("liquid".data) r3
  match r4 with
  | c :: rest =>
    if jsWs c then
      let r5 := dropRun jsWs rest
      match findSub ['%', rbr] r5 with
      | some k => some (r5.take k, r5.drop (k + 2))
      | none => none
    else none
  | [] => none

/-- Step 0 of `liquidToCSS`: executes every `{% liquid %}` block and
substitutes its output (a thrown evaluation propagates, as the
exception would escape the `replace` callback). -/
def stepLiquidBlocks (ctx : SettingsCtx) : Nat → Chars → JsOut Chars
  | 0, _ => .noFuel
  | _ + 1, [] => .ok []
  | fuel + 1, c :: cs =>
    match liquidBlockAt (c :: cs) with
    | some (code, rest) =>
      (executeLiquidBlock ctx ⟨code⟩).bind fun out =>
        (stepLiquidBlocks ctx fuel rest).bind fun restOut => .ok (out.data ++ restOut)
    | none =>
      (stepLiquidBlocks ctx fuel cs).bind fun restOut => .ok (c :: restOut)

/-- Head match of `REGEX.forScheme`
(`{%\s*for\s+(\w+)\s+in\s+settings\.color_schemes\s*-%}([\s\S]*?){%\s*endfor\s*%}`,
`/gi`): returns the scheme variable name, the loop body, and the rest. -/
def forSchemeAt (cs : Chars) : Option ((Chars × Chars) × Chars) := do
  let r1 ← tagOpenAt "for" cs
  let (schemeVar, r2) := r1.span wordChar
  if schemeVar.isEmpty then none
  else
    match r2 with
    | c :: rest =>
      if jsWs c then
        let r3 := dropRun jsWs rest
        let r4 ← matchLit true ("in".data) r3
        match r4 with
        | c2 :: rest2 =>
          if jsWs c2 then
            let r5 := dropRun jsWs rest2
            let r6 ← matchLit true ("settings.color_schemes".data) r5
            let r7 := dropRun jsWs r6
            let r8 ← matchLit false ['-', '%', rbr] r7
            let (body, after) ← splitAtMarker (tagMarkAt "endfor") r8
            some ((schemeVar, body), after)
          else none
        | [] => none
      else none
    | [] => none

/-- The first key of `shopifySettings.color_schemes` (the scheme id
substituted for the loop variable), when one exists. -/
def firstColorSchemeKey (ctx : SettingsCtx) : Option String :=
  match ctx.shopifySettings with
  | none => none
  | some fields =>
    match objGet fields "color_schemes" with
    | .obj (f :: _) => some f.1
    | .arr (_ :: _) => some "0"
    | .str s => if s = "" then none else some "0"
    | _ => none

/-- Pattern `\{\{\s*VAR\.id\s*\}\}` for a concrete scheme variable
name (the dynamically built regex of step 1). -/
def schemeIdRefAt (schemeVar : Chars) (cs : Chars) : Option Chars := do
  let r1 ← matchLit false [lbr, lbr] cs
  let r2 := dropRun jsWs r1
  let r3 ← matchLit false (schemeVar ++ ".id".data) r2
  let r4 := dropRun jsWs r3
  matchLit false [rbr, rbr] r4

/-- Pattern `\{\{\s*forloop\.index\s*\}\}`. -/
def forloopIndexRefAt (cs : Chars) : Option Chars := do
  let r1 ← matchLit false [lbr, lbr] cs
  let r2 := dropRun jsWs r1
  let r3 ← matchLit false ("forloop.index".data) r2
  let r4 := dropRun jsWs r3
  matchLit false [rbr, rbr] r4

/-- Pattern `{%\s*if\s+forloop\.index\s*==\s*1\s*%}([\s\S]*?){%\s*endif\s*%}`
(`/gi`): returns the guarded content and the rest. -/
def forloopGuard1At (cs : Chars) : Option (Chars × Chars) := do
  let r1 ← tagOpenAt "if" cs
  let r2 ← matchLit false ("forloop.index".data) r1
  let r3 := dropRun jsWs r2
  let r4 ← matchLit false ['=', '='] r3
  let r5 := dropRun jsWs r4
  let r6 ← matchLit false ['1'] r5
  let r7 := dropRun jsWs r6
  let r8 ← matchLit false ['%', rbr] r7
  splitAtMarker (tagMarkAt "endif") r8

/-- Pattern `{%\s*if\s+forloop\.index\s*[^%]+%}[\s\S]*?{%\s*endif\s*%}`
(`/gi`): any other `forloop.index` guard, returning the rest after its
`endif`. -/
def forloopGuardOtherAt (cs : Chars) : Option Chars := do
  let r1 ← tagOpenAt "if" cs
  let r2 ← matchLit false ("forloop.index".data) r1
  let r3 := dropRun jsWs r2
  let (inner, r4) := r3.span (fun c => c ≠ '%')
  if inner.isEmpty then none
  else
    match r4 with
    | '%' :: x :: r5 =>
      if x = rbr then (splitAtMarker (tagMarkAt "endif") r5).map (·.2)
      else none
    | _ => none

/-- Step 1 of `liquidToCSS` (lines 895-914): reduces each
`{% for VAR in settings.color_schemes -%} ... {% endfor %}` loop to a
simulation of its first iteration: the scheme id replaces
`{{ VAR.id }}`, `{{ forloop.index }}` becomes `1`, `forloop.index == 1`
guards collapse to their content, and every other `forloop.index`
guard is removed. -/
def stepForScheme (ctx : SettingsCtx) (text : Chars) : Chars :=
  replaceScan
    (fun cs =>
      (forSchemeAt cs).map fun ((schemeVar, loopContent), rest) =>
        let schemeId : Chars :=
          match getFirstColorScheme ctx with
          | some _ => ((firstColorSchemeKey ctx).getD "undefined").data
          | none => "scheme-1".data
        let it1 := replaceScan (fun u => (schemeIdRefAt schemeVar u).map (fun r => (schemeId, r))) loopContent
        let it2 := replaceScan (fun u => (forloopIndexRefAt u).map (fun r => (['1'], r))) it1
        let it3 := replaceScan (fun u => (forloopGuard1At u).map (fun (inner, r) => (inner, r))) it2
        let it4 := replaceScan (fun u => (forloopGuardOtherAt u).map (fun r => (([] : Chars), r))) it3
        (it4, rest))
    text

/-- Head match of `REGEX.assign = {%\s*assign\s+[^%]+%}` (`/g`,
case-sensitive), returning the rest after the tag. -/
def assignTagAt (cs : Chars) : Option Chars := do
  let r1 ← matchLit false [lbr, '%'] cs
  let r2 := dropRun jsWs r1
  let r3 ← matchLit false ("assign".data) r2
  match r3 with
  | c :: rest =>
    if jsWs c then
      -- `\s+` keeps (at least) the first whitespace character `c`, and
      -- `[^%]+` then needs at least one further character before `%}`
      let (inner, r4) := rest.span (fun ch => ch ≠ '%')
      if inner.isEmpty then none
      else
        match r4 with
        | '%' :: x :: r5 => if x = rbr then some r5 else none
        | _ => none
    else none
  | [] => none

/-- Step 2 of `liquidToCSS`: strips `{% assign %}` tags. -/
def stepStripAssign (text : Chars) : Chars :=
  replaceScan (fun cs => (assignTagAt cs).map (fun r => (([] : Chars), r))) text

/-- Head match of the reducer's
`ifRegex = {%\s*if\s+([\s\S]*?)%}([\s\S]*?){%\s*endif\s*%}` (`/gi`):
returns the raw condition capture, the block content (up to the first
`endif` tag), and the rest. -/
def ifBlockAt (cs : Chars) : Option ((Chars × Chars) × Chars) := do
  let r1 ← tagOpenAt "if" cs
  match findSub ['%', rbr] r1 with
  | some k =>
    let condition := r1.take k
    let afterOpen := r1.drop (k + 2)
    let (blockContent, rest) ← splitAtMarker (tagMarkAt "endif") afterOpen
    some ((condition, blockContent), rest)
  | none => none

/-- Prefix marker `{%\s*elsif` used by the reducer's `firstElsifMatch`
search (that regex carries no `/i` flag, so the word is matched
case-sensitively). -/
def elsifOpenMark (cs : Chars) : Option Chars := do
  let r1 ← matchLit false [lbr, '%'] cs
  let r2 := dropRun jsWs r1
  matchLit false ("elsif".data) r2

/-- Lookahead `(?={%\s*(?:elsif|else|endif))` of the reducer's elsif
regex. -/
def elsifLookahead (cs : Chars) : Option Chars := do
  let r1 ← matchLit false [lbr, '%'] cs
  let r2 := dropRun jsWs r1
  match matchLit true ("elsif".data) r2 with
  | some _ => some cs
  | none =>
    match matchLit true ("else".data) r2 with
    | some _ => some cs
    | none =>
      match matchLit true ("endif".data) r2 with
      | some _ => some cs
      | none => none

/-- Head match of the reducer's elsif-branch regex
`{%\s*elsif\s+([\s\S]*?)%}([\s\S]*?)(?={%\s*(?:elsif|else|endif))`
(`/gi`): condition, branch content, and the rest starting at the
(unconsumed) lookahead position. -/
def elsifBranchAt (cs : Chars) : Option ((Chars × Chars) × Chars) := do
  let r1 ← tagOpenAt "elsif" cs
  match findSub ['%', rbr] r1 with
  | some k =>
    let condition := r1.take k
    let afterOpen := r1.drop (k + 2)
    match findIdxWhere elsifLookahead afterOpen with
    | some j => some ((condition, afterOpen.take j), afterOpen.drop j)
    | none => none
  | none => none

/-- The static comparison operators of `evaluateCondition`, in its
alternation order `==|!=|<=|>=|<|>`. -/
inductive StOp where
  | eq
  | ne
  | le
  | ge
  | lt
  | gt
deriving DecidableEq, Repr

/-- Operator alternation of the static condition regex. -/
def stOpAt (cs : Chars) : Option (StOp × Chars) :=
  match matchLit false ['=', '='] cs with
  | some r => some (.eq, r)
  | none =>
    match matchLit false ['!', '='] cs with
    | some r => some (.ne, r)
    | none =>
      match matchLit false ['<', '='] cs with
      | some r => some (.le, r)
      | none =>
        match matchLit false ['>', '='] cs with
        | some r => some (.ge, r)
        | none =>
          match cs with
          | '<' :: r => some (.lt, r)
          | '>' :: r => some (.gt, r)
          | _ => none

/-- Head match of the static comparison regex
`settings\.([\w.]+)\s*(==|!=|<=|>=|<|>)\s*(['"]?)(.+?)\3`: setting
key, operator, optional quote, and the compared text.  With a quote
the backreference `\3` closes at the first same-quote character; with
no quote the empty backreference matches immediately, so the lazy
`(.+?)` captures exactly one character — the source compares only the
first character of an unquoted right-hand side. -/
def settingsCmpAt (cs : Chars) : Option (Chars × StOp × Bool × Chars) := do
  let r1 ← matchLit false ("settings.".data) cs
  let (key, r2) := r1.span (fun c => wordChar c || c = '.')
  if key.isEmpty then none
  else
    let r3 := dropRun jsWs r2
    let (op, r4) ← stOpAt r3
    let r5 := dropRun jsWs r4
    match r5 with
    | q :: r6 =>
      if q = sqc || q = dqc then
        match findSub [q] r6 with
        | some j =>
          if j ≥ 1 then some (key, op, true, r6.take j)
          else
            -- empty quoted text: the quote group backtracks to empty
            -- and `(.+?)` captures the quote character itself
            (match r5 with
              | c :: _ => some (key, op, false, [c])
              | [] => none)
        | none =>
          (match r5 with
            | c :: _ => some (key, op, false, [c])
            | [] => none)
      else some (key, op, false, [q])
    | [] => none

/-- Evaluates a static settings condition (extension.js lines
1098-1136): a `settings.key OP value` comparison when the comparison
regex matches (loose equality for `==`/`!=`, JS relational comparison
otherwise; an unquoted value becomes a number when `isNaN` says it can),
else a truthiness test on a bare `settings.key` reference, else false. -/
def evaluateCondition (ctx : SettingsCtx) (condition : String) : Bool :=
  let cond := jsTrim condition.data
  match findFirstMap settingsCmpAt cond with
  | some (key, op, quoted, valueC) =>
    let actualValue := getSettingValue ctx ⟨key⟩
    let expectedValue : JsValue :=
      if quoted then .str ⟨valueC⟩
      else
        match toNumberStr valueC with
        | .nan => .str ⟨valueC⟩
        | .fin q => .num q
        | _ => .str ⟨valueC⟩
    match op with
    | .eq => jsLooseEq actualValue expectedValue
    | .ne => !jsLooseEq actualValue expectedValue
    | .lt => jsLtB actualValue expectedValue
    | .gt => jsLtB expectedValue actualValue
    | .le => jsLeB actualValue expectedValue
    | .ge => jsLeB expectedValue actualValue
  | none =>
    match findFirstMap (fun u => do
        let r1 ← matchLit false ("settings.".data) u
        let (key, _r2) := r1.span (fun c => wordChar c || c = '.')
        if key.isEmpty then none else some key) cond with
    | some key =>
      match getSettingValue ctx ⟨key⟩ with
      | .bool false => false
      | .undefined => false
      | .str "" => false
      | _ => true
    | none => false

/-- Processes the reducer's conditional blocks (extension.js lines
1034-1093): every `{% if %} ... {% endif %}` block is replaced by the
content of its first branch whose static condition holds (`else`
always holds; an elsif branch not followed by a further branch marker
inside the block content is dropped by the elsif regex's lookahead),
or by nothing when no branch matches. -/
def processConditionalBlocks (ctx : SettingsCtx) (text : String) : String :=
  ⟨replaceScan
    (fun cs =>
      (ifBlockAt cs).map fun ((condition, blockContent), rest) =>
        let firstElsif := findIdxWhere elsifOpenMark blockContent
        let firstElse := findIdxWhere (tagMarkAtCS "else") blockContent
        let firstEnd : Option Nat :=
          match firstElsif, firstElse with
          | some a, some b => some (min a b)
          | some a, none => some a
          | none, some b => some b
          | none, none => none
        let firstContent :=
          match firstEnd with
          | some k => blockContent.take k
          | none => blockContent
        let elsifBranches := scanAll elsifBranchAt blockContent
        let elseBranch : Option Chars :=
          (splitAtMarker (tagMarkAtCS "else") blockContent).map (·.2)
        let parts : List (Option Chars × Chars) :=
          (some condition, firstContent) ::
            elsifBranches.map (fun (c, t) => (some (jsTrim c), t)) ++
              (match elseBranch with
                | some t => [((none : Option Chars), t)]
                | none => [])
        let chosen : Option Chars :=
          parts.foldl
            (fun acc p =>
              match acc with
              | some r => some r
              | none =>
                match p.1 with
                | none => some p.2
                | some c => if evaluateCondition ctx ⟨c⟩ then some p.2 else none)
            none
        (chosen.getD [], rest))
    text.data⟩

/-- Head match of `REGEX.ifBlock`
(`{%\s*if\s+[\w.]+\s*[<>=!]+\s*\d+\s*%}([\s\S]*?)(?:{%\s*else\s*%}[\s\S]*?)?{%\s*endif\s*%}`,
`/gi`): a numeric-comparison `if` tag; the capture is the content up
to the first `else` tag before the first `endif` tag (or up to the
`endif`), the match extending through that `endif`. -/
def ifNumBlockAt (cs : Chars) : Option (Chars × Chars) := do
  let r1 ← tagOpenAt "if" cs
  let (w, r2) := r1.span (fun c => wordChar c || c = '.')
  if w.isEmpty then none
  else
    let r3 := dropRun jsWs r2
    let (ops, r4) := r3.span (fun c => c = '<' || c = '>' || c = '=' || c = '!')
    if ops.isEmpty then none
    else
      let r5 := dropRun jsWs r4
      let (ds, r6) := r5.span digitChar
      if ds.isEmpty then none
      else
        let r7 := dropRun jsWs r6
        let r8 ← matchLit false ['%', rbr] r7
        let (pre, afterEndif) ← splitAtMarker (tagMarkAt "endif") r8
        let thenContent :=
          match findIdxWhere (tagMarkAt "else") pre with
          | some j => pre.take j
          | none => pre
        some (thenContent, afterEndif)

/-- Step 4 of `liquidToCSS` (code comment "Step 4", lines 922-926):
optimistically keeps the "then" branch of any remaining
numeric-comparison `if` block. -/
def stepIfNumBlocks (text : String) : String :=
  ⟨replaceScan (fun cs => ifNumBlockAt cs) text.data⟩

/-- Optional `(?:\s*\|\s*append:\s*['"]([^'"]+)['"])?` suffix of the
settings output patterns. -/
def appendSuffixAt (cs : Chars) : Option (Chars × Chars) := do
  let r1 := dropRun jsWs cs
  match r1 with
  | '|' :: r2 =>
    let r3 := dropRun jsWs r2
    let r4 ← matchLit false ("append:".data) r3
    let r5 := dropRun jsWs r4
    match r5 with
    | q :: r6 =>
      if q = sqc || q = dqc then
        let (inner, r7) := r6.span (fun c => !(c = sqc || c = dqc))
        if inner.isEmpty then none
        else
          match r7 with
          | _q2 :: r8 => some (inner, r8)
          | [] => none
      else none
    | [] => none
  | _ => none

/-- Head match of `REGEX.schemeSettings`
(`\{\{\s*scheme\.settings\.([\w.]+)(?:append suffix)?\s*\}\}`, `/g`). -/
def schemeSettingsOutAt (cs : Chars) : Option ((Chars × Option Chars) × Chars) := do
  let r1 ← matchLit false [lbr, lbr] cs
  let r2 := dropRun jsWs r1
  let r3 ← matchLit false ("scheme.settings.".data) r2
  let (path, r4) := r3.span (fun c => wordChar c || c = '.')
  if path.isEmpty then none
  else
    match appendSuffixAt r4 with
    | some (av, r5) =>
      let r6 := dropRun jsWs r5
      match matchLit false [rbr, rbr] r6 with
      | some rest => some ((path, some av), rest)
      | none =>
        let r7 := dropRun jsWs r4
        (matchLit false [rbr, rbr] r7).map (fun rest => ((path, none), rest))
    | none =>
      let r7 := dropRun jsWs r4
      (matchLit false [rbr, rbr] r7).map (fun rest => ((path, none), rest))

/-- Head match of `REGEX.settings`
(`\{\{\s*settings\.([\w.]+)(?:append suffix)?\s*\}\}`, `/g`). -/
def settingsOutAt (cs : Chars) : Option ((Chars × Option Chars) × Chars) := do
  let r1 ← matchLit false [lbr, lbr] cs
  let r2 := dropRun jsWs r1
  let r3 ← matchLit false ("settings.".data) r2
  let (path, r4) := r3.span (fun c => wordChar c || c = '.')
  if path.isEmpty then none
  else
    match appendSuffixAt r4 with
    | some (av, r5) =>
      let r6 := dropRun jsWs r5
      match matchLit false [rbr, rbr] r6 with
      | some rest => some ((path, some av), rest)
      | none =>
        let r7 := dropRun jsWs r4
        (matchLit false [rbr, rbr] r7).map (fun rest => ((path, none), rest))
    | none =>
      let r7 := dropRun jsWs r4
      (matchLit false [rbr, rbr] r7).map (fun rest => ((path, none), rest))

/-- Head match of `REGEX.variable = \{\{\s*([\w_]+)\s*\}\}` (`/g`). -/
def variableOutAt (cs : Chars) : Option Chars := do
  let r1 ← matchLit false [lbr, lbr] cs
  let r2 := dropRun jsWs r1
  let (name, r3) := r2.span wordChar
  if name.isEmpty then none
  else
    let r4 := dropRun jsWs r3
    matchLit false [rbr, rbr] r4

/-- Head match of `REGEX.liquidTags = {%[^%]*%}` (`/g`). -/
def liquidTagAt (cs : Chars) : Option Chars := do
  let r1 ← matchLit false [lbr, '%'] cs
  let (inner, r2) := r1.span (fun c => c ≠ '%')
  let _ := inner
  match r2 with
  | '%' :: x :: r3 => if x = rbr then some r3 else none
  | _ => none

/-- Head match of `REGEX.liquidOutput = \{\{[^}]*\}\}` (`/g`). -/
def liquidOutputAt (cs : Chars) : Option Chars := do
  let r1 ← matchLit false [lbr, lbr] cs
  let (inner, r2) := r1.span (fun c => c ≠ rbr)
  let _ := inner
  match r2 with
  | x :: y :: r3 => if x = rbr && y = rbr then some r3 else none
  | _ => none

/-- The constructed reference text `{{ scheme.settings.PATH }}` the
step-5 callback hands to `resolveLiquidVariable`. -/
def schemeRefText (path : Chars) : String :=
  ⟨[lbr, lbr, ' '] ++ ("scheme.settings.".data) ++ path ++ [' ', rbr, rbr]⟩

/-- The constructed reference text `{{ settings.PATH }}` of step 6. -/
def settingsRefText (path : Chars) : String :=
  ⟨[lbr, lbr, ' '] ++ ("settings.".data) ++ path ++ [' ', rbr, rbr]⟩

/-- Emulates Liquid-to-CSS conversion (extension.js lines 887-954):
the ordered pipeline of `{% liquid %}` execution, first-scheme loop
reduction, assign stripping, the static conditional reducer, the
optimistic numeric-if reduction, scheme/settings output substitution
(honoring an `| append:` suffix when resolution succeeded), the fixed
`0.15` fallback for bare variable outputs, and the final tag/output
strips. -/
def liquidToCSS (ctx : SettingsCtx) (text : String) : JsOut String :=
  (stepLiquidBlocks ctx (text.data.length + 1) text.data).bind fun t0 =>
    let t1 := stepForScheme ctx t0
    let t2 := stepStripAssign t1
    let t3 := (processConditionalBlocks ctx ⟨t2⟩).data
    let t4 := (stepIfNumBlocks ⟨t3⟩).data
    let t5 := replaceScan
      (fun cs =>
        (schemeSettingsOutAt cs).map fun ((path, av), rest) =>
          let resolved := resolveLiquidVariable ctx (schemeRefText path)
          match av with
          | some a =>
            if resolved ≠ schemeRefText path then (resolved.data ++ a, rest)
            else (resolved.data, rest)
          | none => (resolved.data, rest))
      t4
    let t6 := replaceScan
      (fun cs =>
        (settingsOutAt cs).map fun ((path, av), rest) =>
          let resolved := resolveLiquidVariable ctx (settingsRefText path)
          match av with
          | some a =>
            if resolved ≠ settingsRefText path then (resolved.data ++ a, rest)
            else (resolved.data, rest)
          | none => (resolved.data, rest))
      t5
    let t7 := replaceScan (fun cs => (variableOutAt cs).map (fun r => ("0.15".data, r))) t6
    let t8 := replaceScan (fun cs => (liquidTagAt cs).map (fun r => (([] : Chars), r))) t7
    let t9 := replaceScan (fun cs => (liquidOutputAt cs).map (fun r => (([] : Chars), r))) t8
    .ok ⟨t9⟩

/-! ## Structural extractor (extension.js lines 382-399, 959-1029,
1177-1340) -/

/-- One registry entry: value, source file name and path, and the
media-query variants.  `media = none` models the entries of
`parseLiquidEchoVariables`, which the source creates without a `media`
field (pushing a variant onto such an entry would throw). -/
structure CssVarEntry where
  value : String
  file : String
  filePath : String
  media : Option (List (String × String))
deriving DecidableEq, Repr

/-- The CSS-variable registry (`cssVariables`): a JS `Map` in
insertion order, keyed by the `--name`. -/
abbrev Registry := List (String × CssVarEntry)

/-- Registry lookup (`cssVariables.get`/`has`). -/
def lookupReg (r : Registry) (n : String) : Option CssVarEntry :=
  match r.find? (fun f => f.1 = n) with
  | some f => some f.2
  | none => none

/-- In-place update of the (unique) entry with the given name. -/
def updateReg : Registry → String → CssVarEntry → Registry
  | [], _, _ => []
  | (k, v) :: rest, n, e =>
    if k = n then (k, e) :: rest
    else (k, v) :: updateReg rest n e

/-- `path.basename`: the final path segment. -/
def baseName (p : String) : String :=
  ⟨(jsSplit ['/'] p.data).getLastD []⟩

/-- Brace scan of `findMatchingBrace`: from a suffix, with the given
open depth, the count of characters up to and including the matching
closing brace. -/
def findBraceAux (depth : Nat) : Chars → Nat → Option Nat
  | [], _ => none
  | c :: cs, k =>
    if c = lbr then findBraceAux (depth + 1) cs (k + 1)
    else if c = rbr then
      if depth = 1 then some (k + 1)
      else findBraceAux (depth - 1) cs (k + 1)
    else findBraceAux depth cs (k + 1)

/-- Finds the matching closing brace (extension.js lines 382-399):
returns the index one past the closing brace, or `-1`. -/
def findMatchingBrace (text : String) (startIndex : Nat) : Int :=
  match findBraceAux 1 (text.data.drop startIndex) 0 with
  | some k => ((startIndex + k : Nat) : Int)
  | none => -1

/-- Head match of `REGEX.cssVariable = --([\w-]+)\s*:\s*([^;]+);`
(`/g`): the declaration name (with its `--` restored) and the trimmed
value, as the extraction loop computes them. -/
def cssVariableAt (cs : Chars) : Option ((String × String) × Chars) :=
  match cs with
  | '-' :: '-' :: r =>
    let (name, r2) := r.span wordDash
    if name.isEmpty then none
    else
      match dropRun jsWs r2 with
      | ':' :: r3 =>
        let r4 := dropRun jsWs r3
        let (value, r5) := r4.span (fun c => c ≠ ';')
        if value.isEmpty then
          -- when the whitespace run sits right before the `;`, the
          -- greedy `\s*` backtracks one step and `([^;]+)` keeps the
          -- run's last character; the stored (trimmed) value is empty
          match r5 with
          | ';' :: r6 =>
            if (takeRun jsWs r3).isEmpty then none
            else some ((⟨'-' :: '-' :: name⟩, ""), r6)
          | _ => none
        else
          match r5 with
          | ';' :: r6 => some ((⟨'-' :: '-' :: name⟩, ⟨jsTrim value⟩), r6)
          | _ => none
      | _ => none
  | _ => none

/-- All `--name: value;` declarations of a block, in order. -/
def scanCssDeclarations (content : Chars) : List (String × String) :=
  scanAll cssVariableAt content

/-- Fold with a fallible step. -/
def jsFoldM {α β : Type} (f : β → α → JsOut β) : List α → β → JsOut β
  | [], b => .ok b
  | a :: as, b => (f b a).bind (jsFoldM f as)

/-- Records one declaration (the body of the `parseVariablesInBlock`
loop, lines 1246-1264): a new name is inserted with the value as base
(and, under a media query, that query as its first variant); an
existing name keeps its entry untouched except that a media-scoped
declaration appends one `{query, value}` variant (throwing if the
entry has no `media` array — only echo-created entries lack one). -/
def addVar (filePath : String) (mediaQuery : Option String) (r : Registry) (d : String × String) : JsOut Registry :=
  match lookupReg r d.1 with
  | none =>
    .ok (r ++ [(d.1,
      { value := d.2
        file := baseName filePath
        filePath := filePath
        media := match mediaQuery with
          | some q => some [(q, d.2)]
          | none => some [] })])
  | some e =>
    match mediaQuery with
    | none => .ok r
    | some q =>
      match e.media with
      | some m => .ok (updateReg r d.1 { e with media := some (m ++ [(q, d.2)]) })
      | none => .thrown

/-- Parses the CSS variables of a block of text (extension.js lines
1241-1266): scans the declarations and records each one. -/
def parseVariablesInBlock (content : String) (filePath : String) (mediaQuery : Option String) (r : Registry) : JsOut Registry :=
  jsFoldM (addVar filePath mediaQuery) (scanCssDeclarations content.data) r

/-- Selector-list loop of `REGEX.rootBlock`
(`:root\s*(?:,\s*[.#][\w-]+\s*)*\{`): consumes comma-joined simple
selectors until the opening brace, returning the rest after it. -/
def rootSelLoop : Nat → Chars → Option Chars
  | 0, _ => none
  | fuel + 1, cs =>
    match cs with
    | c :: r =>
      if c = lbr then some r
      else if c = ',' then
        let r2 := dropRun jsWs r
        match r2 with
        | m :: r3 =>
          if m = '.' || m = '#' then
            let (nm, r4) := r3.span wordDash
            if nm.isEmpty then none
            else rootSelLoop fuel (dropRun jsWs r4)
          else none
        | [] => none
      else none
    | [] => none

/-- Head match of `REGEX.rootBlock`, returning the rest after the
opening brace. -/
def rootBlockAt (cs : Chars) : Option Chars := do
  let r1 ← matchLit false (":root".data) cs
  rootSelLoop (cs.length + 1) (dropRun jsWs r1)

/-- Position-aware exec-all scan (absolute start index of each
match). -/
def scanAllPosF {α : Type} (try1 : Chars → Option (α × Chars)) : Nat → Nat → Chars → List (Nat × α)
  | 0, _, _ => []
  | _ + 1, _, [] => []
  | fuel + 1, pos, c :: cs =>
    match try1 (c :: cs) with
    | some (a, rest) => (pos, a) :: scanAllPosF try1 fuel (pos + ((c :: cs).length - rest.length)) rest
    | none => scanAllPosF try1 fuel (pos + 1) cs

/-- Position-aware exec-all scan with standard fuel. -/
def scanAllPos {α : Type} (try1 : Chars → Option (α × Chars)) (cs : Chars) : List (Nat × α) :=
  scanAllPosF try1 (cs.length + 1) 0 cs

/-- The `:root` regions of a text, as `parseRootBlocks` walks them
(lines 1214-1236): per regex match, the brace-matched region content;
a region with no matching close brace is skipped, scanning continuing
right after the opening brace either way (the regex `lastIndex`). -/
def rootRegionsOf (text : Chars) : List Chars :=
  (scanAll
    (fun cs =>
      (rootBlockAt cs).map fun afterOpen =>
        match findBraceAux 1 afterOpen 0 with
        | some k => (some (afterOpen.take (k - 1)), afterOpen)
        | none => ((none : Option Chars), afterOpen))
    text).filterMap id

/-- The `@media` blocks of a region, as `parseMediaBlocks` walks them
(lines 1271-1291): trimmed query text plus brace-matched content. -/
def mediaBlocksOf (content : Chars) : List (String × Chars) :=
  (scanAll
    (fun cs =>
      match matchLit false ("@media".data) cs with
      | none => none
      | some r1 =>
        let r2 := dropRun jsWs r1
        let (q, r3) := r2.span (fun c => c ≠ lbr)
        if q.isEmpty then
          -- when the whitespace run sits right before the `{`, the
          -- greedy `\s*` backtracks one step and `([^{]+)` keeps the
          -- run's last character; the (trimmed) query is then empty
          if (takeRun jsWs r1).isEmpty then none
          else
            match r3 with
            | b :: after =>
              if b = lbr then
                some (match findBraceAux 1 after 0 with
                  | some k => (some (("" : String), after.take (k - 1)), after)
                  | none => (none, after))
              else none
            | [] => none
        else
          match r3 with
          | b :: after =>
            if b = lbr then
              some (match findBraceAux 1 after 0 with
                | some k => (some ((⟨jsTrim q⟩ : String), after.take (k - 1)), after)
                | none => (none, after))
            else none
          | [] => none)
    content).filterMap id

/-- Parses the `@media` blocks of a region (extension.js lines
1271-1291). -/
def parseMediaBlocks (content : String) (filePath : String) (r : Registry) : JsOut Registry :=
  jsFoldM
    (fun r qc => parseVariablesInBlock ⟨qc.2⟩ filePath (some qc.1) r)
    (mediaBlocksOf content.data) r

/-- Parses the `:root` blocks of a text (extension.js lines
1214-1236): per region, base variables first (scanning the whole
region text, nested `@media` bodies included), then the media blocks. -/
def parseRootBlocks (text : String) (filePath : String) (r : Registry) : JsOut Registry :=
  jsFoldM
    (fun r content =>
      (parseVariablesInBlock ⟨content⟩ filePath none r).bind fun r2 =>
        parseMediaBlocks ⟨content⟩ filePath r2)
    (rootRegionsOf text.data) r

/-- Class-block regions (`/\.[\w-]+\s*\{/gi` plus brace matching);
regions without a closing brace are skipped. -/
def classRegionsOf (text : Chars) : List Chars :=
  (scanAll
    (fun cs =>
      match cs with
      | '.' :: r =>
        let (nm, r2) := r.span wordDash
        if nm.isEmpty then none
        else
          match dropRun jsWs r2 with
          | b :: after =>
            if b = lbr then
              some (match findBraceAux 1 after 0 with
                | some k => (some (after.take (k - 1)), after)
                | none => ((none : Option Chars), after))
            else none
          | [] => none
      | _ => none)
    text).filterMap id

/-- Inserts a declaration only when the name is new (the class and
echo extractors never update existing entries). -/
def insertIfAbsent (filePath : String) (media : Option (List (String × String))) (r : Registry) (d : String × String) : Registry :=
  match lookupReg r d.1 with
  | none =>
    r ++ [(d.1,
      { value := d.2
        file := baseName filePath
        filePath := filePath
        media := media })]
  | some _ => r

/-- Parses class blocks (extension.js lines 1297-1340): per region,
line by line, skipping comment and `@media` lines, collecting
declarations; entries are created with an empty `media` array and
never updated. -/
def parseClassBlocks (text : String) (filePath : String) (r : Registry) : Registry :=
  (classRegionsOf text.data).foldl
    (fun r content =>
      (jsSplit ['\n'] content).foldl
        (fun r line =>
          let t := jsTrim line
          if (matchLit false ("/*".data) t).isSome || (matchLit false ("@media".data) t).isSome then r
          else (scanAll cssVariableAt line).foldl (insertIfAbsent filePath (some [])) r)
        r)
    r

/-- Head match of one `--name\s*:\s*value` group inside an echo text
(no trailing semicolon required). -/
def echoDeclAt (cs : Chars) : Option ((String × String) × Chars) :=
  match cs with
  | '-' :: '-' :: r =>
    let (name, r2) := r.span wordDash
    if name.isEmpty then none
    else
      match dropRun jsWs r2 with
      | ':' :: r3 =>
        let r4 := dropRun jsWs r3
        let (value, r5) := r4.span (fun c => c ≠ ';')
        if value.isEmpty then
          -- when the whitespace run reaches a `;` or the end, the
          -- greedy `\s*` backtracks one step and `([^;]+)` keeps the
          -- run's last character
          if (takeRun jsWs r3).isEmpty then none
          else some ((⟨'-' :: '-' :: name⟩, ⟨[(takeRun jsWs r3).getLastD ' ']⟩), r5)
        else some ((⟨'-' :: '-' :: name⟩, ⟨value⟩), r5)
      | _ => none
  | _ => none

/-- Does an echo capture hold a `--name\s*:` declaration with at
least one following character (the `[^'"]*--[\w-]+\s*:[^'"]+` core of
the echo regex)? -/
def echoInnerOk (inner : Chars) : Bool :=
  (findFirstMap
    (fun u =>
      match u with
      | '-' :: '-' :: r =>
        let (name, r2) := r.span wordDash
        if name.isEmpty then none
        else
          match dropRun jsWs r2 with
          | ':' :: r3 => if r3.isEmpty then none else some ()
          | _ => none
      | _ => none)
    inner).isSome

/-- Head match of the echo regex
`/echo\s+['"]([^'"]*--[\w-]+\s*:[^'"]+)['"]/g`: the quote-free capture
and the rest after the closing quote (either quote kind closes). -/
def echoVarAt (cs : Chars) : Option (Chars × Chars) := do
  let r1 ← matchLit false ("echo".data) cs
  match r1 with
  | c :: rest =>
    if jsWs c then
      let r2 := dropRun jsWs rest
      match r2 with
      | q :: r3 =>
        if q = sqc || q = dqc then
          let (inner, r4) := r3.span (fun ch => !(ch = sqc || ch = dqc))
          if echoInnerOk inner then
            match r4 with
            | _q2 :: rest2 => some (inner, rest2)
            | [] => none
          else none
        else none
      | [] => none
    else none
  | [] => none

/-- Bracketed interpolation residue `\[[\w-]+\]` cleaned to `...` in
echo values. -/
def bracketTokenAt (cs : Chars) : Option Chars :=
  match cs with
  | '[' :: r =>
    let (nm, r2) := r.span wordDash
    if nm.isEmpty then none
    else
      match r2 with
      | ']' :: r3 => some r3
      | _ => none
  | _ => none

/-- Parses Liquid echo commands for CSS variables (extension.js lines
1177-1208): quoted echo texts containing declarations are scanned;
values have bracketed tokens replaced by `...`; entries are created
(without a `media` field) only for new names. -/
def parseLiquidEchoVariables (text : String) (filePath : String) (r : Registry) : Registry :=
  (scanAll echoVarAt text.data).foldl
    (fun r inner =>
      (scanAll echoDeclAt inner).foldl
        (fun r d =>
          let cleaned : String :=
            ⟨replaceScan (fun u => (bracketTokenAt u).map (fun rest => ("...".data, rest))) (jsTrim d.2.data)⟩
          insertIfAbsent filePath none r (d.1, cleaned))
        r)
    r

/-- Style-block region match `{%\s*style\s*%}([\s\S]*?){%\s*endstyle\s*%}`
(`/gi`). -/
def styleTagBlockAt (word endWord : String) (cs : Chars) : Option (Chars × Chars) := do
  let r1 ← tagMarkAt word cs
  splitAtMarker (tagMarkAt endWord) r1

/-- Inline `<style ...> ... </style>` region match (`/gi`). -/
def htmlStyleBlockAt (cs : Chars) : Option (Chars × Chars) := do
  let r1 ← matchLit true ("<style".data) cs
  let (attrs, r2) := r1.span (fun c => c ≠ '>')
  let _ := attrs
  match r2 with
  | '>' :: r3 => splitAtMarker (fun u => matchLit true ("</style>".data) u) r3
  | _ => none

/-- Parses a file's text and extracts its CSS variables (extension.js
lines 959-1029): after the quick guards (empty or short text, or no
`:root` marker, record nothing), the style-block regions containing
`:root` are collected in source order, each one converted by
`liquidToCSS` and, when the result still holds `:root`, fed to the
echo, root-block, and (when `onlyRoot` is off) class-block
extractors. -/
def parseCssVariables (text : String) (filePath : String) (onlyRoot : Bool) (ctx : SettingsCtx) (r : Registry) : JsOut Registry :=
  if text = "" || text.data.length < 50 || !containsSub (":root".data) text.data then .ok r
  else
    let s1 := (scanAllPos (styleTagBlockAt "style" "endstyle") text.data).filter
      (fun b => containsSub (":root".data) b.2)
    let s2 := (scanAllPos (styleTagBlockAt "stylesheet" "endstylesheet") text.data).filter
      (fun b => containsSub (":root".data) b.2)
    let s3 := (scanAllPos htmlStyleBlockAt text.data).filter
      (fun b => containsSub (":root".data) b.2)
    let blocks := (s1 ++ s2 ++ s3).mergeSort (fun a b => a.1 ≤ b.1)
    jsFoldM
      (fun r b =>
        (liquidToCSS ctx ⟨b.2⟩).bind fun cleanCSS =>
          if !containsSub (":root".data) cleanCSS.data then .ok r
          else
            let r1 := parseLiquidEchoVariables cleanCSS filePath r
            (parseRootBlocks cleanCSS filePath r1).bind fun r2 =>
              .ok (if !onlyRoot then parseClassBlocks cleanCSS filePath r2 else r2))
      blocks r

/-! ## Module state and the rescan model (extension.js lines 5-11,
35-61, 315-322, 1141-1171) -/

/-- The cached extension configuration object. -/
structure ExtConfig where
  includePatterns : List String
  excludePatterns : List String
  remToPxConversion : Bool
  baseFontSize : ℚ
  onlyRoot : Bool
deriving DecidableEq, Repr

/-- The module-level mutable state of the extension: the variable
registry, the two memoization caches, the cached configuration, and
the two settings documents.  The hex cache key models the
`` `${hex}-${alpha}` `` string as the pair of its components. -/
structure ScanState where
  cssVariables : Registry
  settingValueCache : List (String × JsValue)
  hexToRgbaCache : List ((String × ℚ) × Rgba)
  cachedConfig : Option ExtConfig
  shopifySettings : Option (List (String × JsValue))
  shopifySettingsSchema : Option (List (String × JsValue))

/-- Invalidates all caches (extension.js lines 57-61): the config
cache and both memoization caches. -/
def invalidateConfigCache (s : ScanState) : ScanState :=
  { s with
    cachedConfig := none
    hexToRgbaCache := []
    settingValueCache := [] }

/-- The opening of `scanLiquidFiles` (extension.js lines 315-322),
with the freshly loaded settings documents passed in for the awaited
loads: the registry and the setting-value cache are cleared and the
settings replaced; nothing else — in particular not the hex-color
cache — is touched. -/
def scanLiquidFilesStart (s : ScanState)
    (newSettings newSchema : Option (List (String × JsValue))) : ScanState :=
  { s with
    cssVariables := []
    settingValueCache := []
    shopifySettings := newSettings
    shopifySettingsSchema := newSchema }

/-- The settings context a state exposes to the resolver. -/
def ScanState.ctx (s : ScanState) : SettingsCtx :=
  ⟨s.shopifySettings, s.shopifySettingsSchema⟩

/-- The memoized `getSettingValue` (extension.js lines 1141-1171):
serve from the cache when the key is present, otherwise compute the
pure lookup and record it. -/
def getSettingValueCached (s : ScanState) (settingKey : String) : JsValue × ScanState :=
  match s.settingValueCache.find? (fun f => f.1 = settingKey) with
  | some f => (f.2, s)
  | none =>
    let v := getSettingValue s.ctx settingKey
    (v, { s with settingValueCache := s.settingValueCache ++ [(settingKey, v)] })

/-- The memoized `hexToRgba` (extension.js lines 155-184): the falsy
guard runs before the cache probe, and only successful decodes are
recorded (the early `null` returns are not cached). -/
def hexToRgbaCached (s : ScanState) (hex : String) (alpha : ℚ) : Option Rgba × ScanState :=
  if hex = "" then (none, s)
  else
    match s.hexToRgbaCache.find? (fun f => f.1 = (hex, alpha)) with
    | some f => (some f.2, s)
    | none =>
      match hexToRgba hex alpha with
      | some res => (some res, { s with hexToRgbaCache := s.hexToRgbaCache ++ [((hex, alpha), res)] })
      | none => (none, s)

/-! ## Claim-side definitions

The following definitions restate, in the words of the specification
claims, the behaviour the theorems below compare against the
source-translated definitions above. -/

/-- Claim side (C7): the comparison operator found at position `i` of
the condition, trying `>=`, `<=`, `>`, `<`, `==` in the claim's listed
order; a position only counts when it splits the text into two
non-empty operands (an operator cannot begin the text nor end it). -/
def claimOpAt (cs : Chars) (i : Nat) : Option CmpOp :=
  if i = 0 then none
  else
    let t := cs.drop i
    if (matchLit false ['>', '='] t).isSome && i + 2 < cs.length then some .ge
    else if (matchLit false ['<', '='] t).isSome && i + 2 < cs.length then some .le
    else if (matchLit false ['>'] t).isSome && i + 1 < cs.length then some .gt
    else if (matchLit false ['<'] t).isSome && i + 1 < cs.length then some .lt
    else if (matchLit false ['=', '='] t).isSome && i + 2 < cs.length then some .eq
    else none

/-- Claim side (C7): scans candidate positions in order for the first
one holding an operator. -/
def claimScanIdxs (cs : Chars) : List Nat → Option (CmpOp × Nat)
  | [] => none
  | i :: is =>
    match claimOpAt cs i with
    | some op => some (op, i)
    | none => claimScanIdxs cs is

/-- The index list `[i, i+1, ..., i+n-1]`. -/
def idxFrom : Nat → Nat → List Nat
  | _, 0 => []
  | i, n + 1 => i :: idxFrom (i + 1) n

/-- Claim side (C7): the first occurrence of a comparison operator
splits the condition into left and right operands. -/
def claimFirstOpSplit (cs : Chars) : Option (Chars × CmpOp × Chars) :=
  (claimScanIdxs cs (idxFrom 0 cs.length)).map
    (fun p => (cs.take p.2, p.1, cs.drop (p.2 + opLen p.1)))

/-- Claim side (C7): absent, the empty string, `false`, and `0` are
the falsy values. -/
def claimFalsy (v : JsValue) : Bool :=
  match v with
  | .undefined => true
  | .str s => s.isEmpty
  | .bool b => !b
  | .num q => decide (q = 0)
  | .arr _ => false
  | .obj _ => false

/-- Claim side (C7): everything not falsy is truthy. -/
def claimTruthy (v : JsValue) : Bool := !claimFalsy v

/-- Claim side (C7): the condition semantics as the claim words them —
a stringified substring test when ` contains ` occurs (operands: the
first two segments), otherwise a split at the first comparison
operator with numeric coercion for the ordering operators and loose
equality for `==`, otherwise the truthiness of the evaluated
expression. -/
def claimLiquidCondition (fuel : Nat) (ctx : SettingsCtx) (condition : String) (vars : Bindings) : JsOut Bool :=
  if containsSub (" contains ".data) condition.data then
    let parts := (jsSplit (" contains ".data) condition.data).map jsTrim
    let left : Chars := parts.getD 0 []
    let right : Chars := parts.getD 1 []
    (evaluateLiquidExpression fuel ctx ⟨left⟩ vars).bind fun lv =>
      (evaluateLiquidExpression fuel ctx ⟨right⟩ vars).bind fun rv =>
        .ok (containsSub (jsToString rv).data (jsToString lv).data)
  else
    match claimFirstOpSplit condition.data with
    | some (l, op, r) =>
      (evaluateLiquidExpression fuel ctx ⟨jsTrim l⟩ vars).bind fun lv =>
        (evaluateLiquidExpression fuel ctx ⟨jsTrim r⟩ vars).bind fun rv =>
          match op with
          | .eq => .ok (jsLooseEq lv rv)
          | _ => .ok (numCompare op (parseFloatJs (jsToString lv).data) (parseFloatJs (jsToString rv).data))
    | none =>
      (evaluateLiquidExpression fuel ctx condition vars).bind fun v =>
        .ok (claimTruthy v)

/-- Claim side (C8): the claimed result shape — the product (or
quotient) truncated toward zero to `f` decimals, trailing zeros and a
then-dangling decimal point trimmed. -/
def truncFixedTrim (x : ℚ) (f : Nat) : String :=
  let sgn : Chars := if x < 0 then ['-'] else []
  ⟨stripFixedZeros (sgn ++ fixedDigits ((⌊|x| * ((10 ^ f : Nat) : ℚ)⌋).toNat) f)⟩

/-- Amended claim side (C8): the same shape but rounded half away
from zero, as `toFixed` actually behaves. -/
def roundFixedTrim (x : ℚ) (f : Nat) : String :=
  let sgn : Chars := if x < 0 then ['-'] else []
  ⟨stripFixedZeros (sgn ++ fixedDigits ((⌊|x| * ((10 ^ f : Nat) : ℚ) + 1 / 2⌋).toNat) f)⟩

/-! ## Supporting lemmas -/

/-- A successful (case-sensitive) literal match consumes exactly the
literal, leaving the corresponding drop. -/
theorem matchLit_spec {pat cs r : Chars} (h : matchLit false pat cs = some r) :
    r = cs.drop pat.length ∧ pat.length + r.length = cs.length := by
  induction pat generalizing cs with
  | nil =>
    simp only [matchLit] at h
    cases h
    simp
  | cons l ls ih =>
    cases cs with
    | nil => exact absurd h (by simp [matchLit])
    | cons c cs' =>
      by_cases hc : chEq false l c
      · have h' : matchLit false ls cs' = some r := by
          simpa [matchLit, hc] using h
        obtain ⟨h1, h2⟩ := ih h'
        refine ⟨by simpa using h1, ?_⟩
        simp only [List.length_cons]
        omega
      · exact absurd h (by simp [matchLit, hc])

/-- Taking the length of the left part of an append returns it. -/
theorem take_len_append {α : Type} (l₁ l₂ : List α) : (l₁ ++ l₂).take l₁.length = l₁ := by
  induction l₁ with
  | nil => simp
  | cons a t ih => simp [ih]

/-- Dropping past the left part of an append drops in the right part. -/
theorem drop_len_append {α : Type} (l₁ l₂ : List α) (n : Nat) :
    (l₁ ++ l₂).drop (l₁.length + n) = l₂.drop n := by
  induction l₁ with
  | nil => simp
  | cons a t ih =>
    simp [List.length_cons, Nat.succ_add, ih]

/-- A successful literal match means the text is the literal followed
by the rest. -/
theorem matchLit_decomp {pat cs r : Chars} (h : matchLit false pat cs = some r) :
    cs = pat ++ r := by
  induction pat generalizing cs with
  | nil =>
    simp only [matchLit] at h
    cases h
    rfl
  | cons l ls ih =>
    cases cs with
    | nil => exact absurd h (by simp [matchLit])
    | cons c cs' =>
      by_cases hc : chEq false l c
      · have h' : matchLit false ls cs' = some r := by
          simpa [matchLit, hc] using h
        have hlc : l = c := by simpa [chEq] using hc
        simp [← hlc, ih h']
      · exact absurd h (by simp [matchLit, hc])

/-- A successful alternation alternative: the literal matched with a
non-empty rest. -/
theorem opTry_some {op₀ : CmpOp} {lit u : Chars} {op : CmpOp} {r : Chars}
    (h : opTry op₀ lit u = some (op, r)) :
    op = op₀ ∧ matchLit false lit u = some r ∧ r ≠ [] := by
  unfold opTry at h
  cases hm : matchLit false lit u with
  | none => rw [hm] at h; exact absurd h (by simp)
  | some r' =>
    rw [hm] at h
    by_cases hr : r'.isEmpty
    · simp [hr] at h
    · simp only [hr, Bool.not_false, if_true] at h
      cases h
      exact ⟨rfl, rfl, by simpa [List.isEmpty_iff] using hr⟩

/-- At a valid interior position the claim-side operator test agrees
with the regex alternation: the claim's non-empty-operand proviso is
exactly the regex's leading lazy `(.+?)` (position at least 1) and its
trailing `(.+)` (a non-empty rest). -/
theorem claimOpAt_eq_opHere {cs : Chars} {i : Nat} (h1 : 1 ≤ i) (h2 : i ≤ cs.length) :
    claimOpAt cs i = (opHere (cs.drop i)).map Prod.fst := by
  have hne : ¬ (i = 0) := by omega
  have hlen : (cs.drop i).length = cs.length - i := by simp
  set u := cs.drop i with hu
  have hcs : cs.length = i + u.length := by omega
  have key : ∀ (op₀ : CmpOp) (lit : Chars),
      ((matchLit false lit u).isSome = true ∧ i + lit.length < cs.length)
        ↔ (opTry op₀ lit u).isSome = true := by
    intro op₀ lit
    cases hm : matchLit false lit u with
    | none => simp [opTry, hm]
    | some r =>
      have hsp := matchLit_spec hm
      by_cases hr : r.isEmpty
      · have hr0 : r.length = 0 := by simp [List.isEmpty_iff.mp hr]
        have hno : ¬ (i + lit.length < cs.length) := by omega
        simp [opTry, hm, hr, hno]
      · have hr0 : r.length ≠ 0 := by
          simp only [List.isEmpty_iff] at hr
          simpa [List.length_eq_zero] using hr
        have hyes : i + lit.length < cs.length := by omega
        simp [opTry, hm, hr, hyes]
  unfold claimOpAt
  rw [if_neg hne]
  rw [← hu]
  simp only [Bool.and_eq_true, decide_eq_true_eq]
  unfold opHere
  cases hge : opTry CmpOp.ge ['>', '='] u with
  | some p =>
    obtain ⟨op, r⟩ := p
    obtain ⟨hop, _, _⟩ := opTry_some hge
    have hpos := (key .ge ['>', '=']).mpr (by simp [hge])
    rw [if_pos (by simpa using hpos)]
    simp [Option.orElse, hge, hop]
  | none =>
    have hneg1 : ¬ ((matchLit false ['>', '='] u).isSome = true ∧ i + 2 < cs.length) := by
      intro hh
      have := (key .ge ['>', '=']).mp (by simpa using hh)
      simp [hge] at this
    cases hle : opTry CmpOp.le ['<', '='] u with
    | some p =>
      obtain ⟨op, r⟩ := p
      obtain ⟨hop, _, _⟩ := opTry_some hle
      have hpos := (key .le ['<', '=']).mpr (by simp [hle])
      rw [if_neg hneg1, if_pos (by simpa using hpos)]
      simp [Option.orElse, hge, hle, hop]
    | none =>
      have hneg2 : ¬ ((matchLit false ['<', '='] u).isSome = true ∧ i + 2 < cs.length) := by
        intro hh
        have := (key .le ['<', '=']).mp (by simpa using hh)
        simp [hle] at this
      cases hgt : opTry CmpOp.gt ['>'] u with
      | some p =>
        obtain ⟨op, r⟩ := p
        obtain ⟨hop, _, _⟩ := opTry_some hgt
        have hpos := (key .gt ['>']).mpr (by simp [hgt])
        rw [if_neg hneg1, if_neg hneg2, if_pos (by simpa using hpos)]
        simp [Option.orElse, hge, hle, hgt, hop]
      | none =>
        have hneg3 : ¬ ((matchLit false ['>'] u).isSome = true ∧ i + 1 < cs.length) := by
          intro hh
          have := (key .gt ['>']).mp (by simpa using hh)
          simp [hgt] at this
        cases hlt : opTry CmpOp.lt ['<'] u with
        | some p =>
          obtain ⟨op, r⟩ := p
          obtain ⟨hop, _, _⟩ := opTry_some hlt
          have hpos := (key .lt ['<']).mpr (by simp [hlt])
          rw [if_neg hneg1, if_neg hneg2, if_neg hneg3, if_pos (by simpa using hpos)]
          simp [Option.orElse, hge, hle, hgt, hlt, hop]
        | none =>
          have hneg4 : ¬ ((matchLit false ['<'] u).isSome = true ∧ i + 1 < cs.length) := by
            intro hh
            have := (key .lt ['<']).mp (by simpa using hh)
            simp [hlt] at this
          cases heq : opTry CmpOp.eq ['=', '='] u with
          | some p =>
            obtain ⟨op, r⟩ := p
            obtain ⟨hop, _, _⟩ := opTry_some heq
            have hpos := (key .eq ['=', '=']).mpr (by simp [heq])
            rw [if_neg hneg1, if_neg hneg2, if_neg hneg3, if_neg hneg4,
              if_pos (by simpa using hpos)]
            simp [Option.orElse, hge, hle, hgt, hlt, heq, hop]
          | none =>
            have hneg5 : ¬ ((matchLit false ['=', '='] u).isSome = true ∧ i + 2 < cs.length) := by
              intro hh
              have := (key .eq ['=', '=']).mp (by simpa using hh)
              simp [heq] at this
            rw [if_neg hneg1, if_neg hneg2, if_neg hneg3, if_neg hneg4, if_neg hneg5]
            simp [Option.orElse, hge, hle, hgt, hlt, heq]

/-- A successful alternation consumes its operator's spelling. -/
theorem opHere_some_drop {u : Chars} {op : CmpOp} {r : Chars}
    (h : opHere u = some (op, r)) : r = u.drop (opLen op) := by
  unfold opHere at h
  cases hge : opTry CmpOp.ge ['>', '='] u with
  | some p =>
    rw [hge] at h
    simp only [Option.orElse] at h
    cases h
    obtain ⟨hop, hm, _⟩ := opTry_some hge
    obtain ⟨hd, _⟩ := matchLit_spec hm
    simp [hop, hd, opLen]
  | none =>
    rw [hge] at h
    simp only [Option.orElse] at h
    cases hle : opTry CmpOp.le ['<', '='] u with
    | some p =>
      rw [hle] at h
      simp only at h
      cases h
      obtain ⟨hop, hm, _⟩ := opTry_some hle
      obtain ⟨hd, _⟩ := matchLit_spec hm
      simp [hop, hd, opLen]
    | none =>
      rw [hle] at h
      simp only at h
      cases hgt : opTry CmpOp.gt ['>'] u with
      | some p =>
        rw [hgt] at h
        simp only at h
        cases h
        obtain ⟨hop, hm, _⟩ := opTry_some hgt
        obtain ⟨hd, _⟩ := matchLit_spec hm
        simp [hop, hd, opLen]
      | none =>
        rw [hgt] at h
        simp only at h
        cases hlt : opTry CmpOp.lt ['<'] u with
        | some p =>
          rw [hlt] at h
          simp only at h
          cases h
          obtain ⟨hop, hm, _⟩ := opTry_some hlt
          obtain ⟨hd, _⟩ := matchLit_spec hm
          simp [hop, hd, opLen]
        | none =>
          rw [hlt] at h
          simp only at h
          obtain ⟨hop, hm, _⟩ := opTry_some h
          obtain ⟨hd, _⟩ := matchLit_spec hm
          simp [hop, hd, opLen]

/-- The position scan the code-side splitter performs on the tail of
the condition. -/
def tailOpScan : Chars → Nat → Option (CmpOp × Nat)
  | [], _ => none
  | c :: rest, i =>
    match opHere (c :: rest) with
    | some (op, _) => some (op, i)
    | none => tailOpScan rest (i + 1)

/-- The tail scan agrees with the claim-side index scan. -/
theorem tailOpScan_eq_claimScan : ∀ (u : Chars) (cs : Chars) (i : Nat),
    1 ≤ i → cs.drop i = u →
    tailOpScan u i = claimScanIdxs cs (idxFrom i (cs.length - i)) := by
  intro u
  induction u with
  | nil =>
    intro cs i h1 hd
    have : cs.length - i = 0 := by
      have := congrArg List.length hd
      simpa using this
    simp [this, idxFrom, tailOpScan, claimScanIdxs]
  | cons c rest ih =>
    intro cs i h1 hd
    have hlen : cs.length - i = rest.length + 1 := by
      have := congrArg List.length hd
      simp at this
      omega
    have hile : i ≤ cs.length := by
      by_contra hgt
      have : cs.drop i = [] := by
        apply List.drop_eq_nil_of_le
        omega
      rw [hd] at this
      exact absurd this (by simp)
    rw [hlen]
    simp only [idxFrom, claimScanIdxs]
    rw [claimOpAt_eq_opHere h1 hile, hd]
    cases hop : opHere (c :: rest) with
    | some p =>
      obtain ⟨op, r⟩ := p
      simp [tailOpScan, hop]
    | none =>
      simp only [tailOpScan, hop, Option.map_none]
      show tailOpScan rest (i + 1) = claimScanIdxs cs (idxFrom (i + 1) rest.length)
      have h2 : List.length cs - (i + 1) = rest.length := by omega
      rw [← h2]
      apply ih cs (i + 1) (by omega)
      rw [← List.drop_drop, hd]
      rfl

/-- The accumulator form of the no-terminator splitter in terms of
the tail scan. -/
theorem noTermSplitAux_eq : ∀ (rest pre : Chars),
    noTermSplitAux pre rest = (tailOpScan rest pre.length).map
      (fun p => ((pre ++ rest).take p.2, p.1, (pre ++ rest).drop (p.2 + opLen p.1))) := by
  intro rest
  induction rest with
  | nil => intro pre; simp [noTermSplitAux, tailOpScan]
  | cons c rest' ih =>
    intro pre
    cases hop : opHere (c :: rest') with
    | some p =>
      obtain ⟨op, r⟩ := p
      have hr := opHere_some_drop hop
      simp only [noTermSplitAux, tailOpScan, hop, Option.map_some]
      refine congrArg some ?_
      refine Prod.ext ?_ (Prod.ext rfl ?_)
      · exact (take_len_append pre (c :: rest')).symm
      · simp only []
        rw [drop_len_append pre (c :: rest') (opLen op)]
        exact hr
    | none =>
      simp only [noTermSplitAux, tailOpScan, hop]
      rw [ih (pre ++ [c])]
      simp [List.append_assoc]

/-- The no-terminator splitter equals the claim-side first-occurrence
split: on texts where the lazy scan can reach every position, the
leftmost operator occurrence that leaves a non-empty operand on each
side wins, and both report the untrimmed segments around the
operator. -/
theorem noTermSplit_eq_claim (cs : Chars) : noTermSplit cs = claimFirstOpSplit cs := by
  cases cs with
  | nil => rfl
  | cons c rest =>
    unfold noTermSplit claimFirstOpSplit
    show noTermSplitAux [c] rest = _
    rw [noTermSplitAux_eq rest [c]]
    have h0 : claimOpAt (c :: rest) 0 = none := by simp [claimOpAt]
    have hscan : tailOpScan rest 1 = claimScanIdxs (c :: rest) (idxFrom 1 rest.length) := by
      apply tailOpScan_eq_claimScan rest (c :: rest) 1 (by omega)
      rfl
    simp only [List.length_cons, List.length_singleton]
    rw [show idxFrom 0 (rest.length + 1) = 0 :: idxFrom 1 rest.length from rfl]
    simp only [claimScanIdxs, h0]
    rw [← hscan]
    rfl

/-- The claim's falsy set is exactly the complement of JS
`ToBoolean`. -/
theorem claimTruthy_eq_jsToBoolean (v : JsValue) : claimTruthy v = jsToBoolean v := by
  cases v with
  | str s =>
    by_cases hs : s = ""
    · subst hs; rfl
    · have he : s.isEmpty = false := by
        rw [← Bool.not_eq_true, String.isEmpty_iff]; exact hs
      simp [claimTruthy, claimFalsy, jsToBoolean, he, hs]
  | bool b => cases b <;> rfl
  | num q => by_cases hq : q = 0 <;> simp [claimTruthy, claimFalsy, jsToBoolean, hq]
  | undefined => rfl
  | arr xs => rfl
  | obj fs => rfl

/-- Registry lookup on a cons cell. -/
theorem lookupReg_cons (p : String × CssVarEntry) (r : Registry) (n : String) :
    lookupReg (p :: r) n = if p.1 = n then some p.2 else lookupReg r n := by
  by_cases h : p.1 = n
  · simp [lookupReg, List.find?_cons_of_pos, h]
  · simp [lookupReg, List.find?_cons_of_neg, h]

/-- Registry lookup distributes over append. -/
theorem lookupReg_append (r t : Registry) (n : String) :
    lookupReg (r ++ t) n =
      match lookupReg r n with
      | some e => some e
      | none => lookupReg t n := by
  induction r with
  | nil => rfl
  | cons p r ih =>
    rw [List.cons_append, lookupReg_cons, lookupReg_cons]
    by_cases h : p.1 = n
    · rw [if_pos h, if_pos h]
    · rw [if_neg h, if_neg h, ih]

/-- Looking up the updated name returns the new entry (when the name
was present). -/
theorem lookupReg_updateReg_self (r : Registry) (n : String) (e : CssVarEntry) :
    lookupReg (updateReg r n e) n =
      match lookupReg r n with
      | some _ => some e
      | none => none := by
  induction r with
  | nil => rfl
  | cons p r ih =>
    obtain ⟨k, v⟩ := p
    by_cases hk : k = n
    · simp [updateReg, hk, lookupReg_cons]
    · simp [updateReg, hk, lookupReg_cons, ih]

/-- Updating one name leaves every other lookup unchanged. -/
theorem lookupReg_updateReg_other (r : Registry) (n n2 : String) (e : CssVarEntry)
    (h : n2 ≠ n) : lookupReg (updateReg r n e) n2 = lookupReg r n2 := by
  induction r with
  | nil => rfl
  | cons p r ih =>
    obtain ⟨k, v⟩ := p
    by_cases hk : k = n
    · subst hk
      have hk2 : ¬k = n2 := fun hh => h (hh ▸ rfl)
      simp [updateReg, lookupReg_cons, hk2]
    · simp [updateReg, hk, lookupReg_cons, ih]

/-- The entry a base-pass declaration creates for a fresh name. -/
def baseEntryOf (filePath : String) (d : String × String) : CssVarEntry :=
  { value := d.2
    file := baseName filePath
    filePath := filePath
    media := some [] }

/-- A base pass (no media query) over a declaration list only appends:
existing entries are kept verbatim, and a fresh name receives the
value of its first declaration in the list. -/
theorem foldAddVar_base (fp : String) (ds : List (String × String)) (r : Registry) :
    ∃ t, jsFoldM (addVar fp none) ds r = .ok (r ++ t) ∧
      ∀ n, lookupReg (r ++ t) n =
        match lookupReg r n with
        | some e => some e
        | none => (ds.find? (fun d => d.1 = n)).map (baseEntryOf fp) := by
  induction ds generalizing r with
  | nil =>
    refine ⟨[], by simp [jsFoldM], ?_⟩
    intro n
    rw [List.append_nil]
    cases lookupReg r n <;> rfl
  | cons d ds ih =>
    cases hd : lookupReg r d.1 with
    | some e =>
      obtain ⟨t, ht, hl⟩ := ih r
      refine ⟨t, ?_, ?_⟩
      · show (addVar fp none r d).bind (jsFoldM (addVar fp none) ds) = _
        rw [show addVar fp none r d = .ok r by simp [addVar, hd]]
        exact ht
      · intro n
        rw [hl n]
        cases hr : lookupReg r n with
        | some e2 => rfl
        | none =>
          by_cases hn : d.1 = n
          · rw [hn] at hd
            rw [hd] at hr
            cases hr
          · rw [List.find?_cons_of_neg]
            simp [hn]
    | none =>
      obtain ⟨t, ht, hl⟩ := ih (r ++ [(d.1, baseEntryOf fp d)])
      refine ⟨(d.1, baseEntryOf fp d) :: t, ?_, ?_⟩
      · show (addVar fp none r d).bind (jsFoldM (addVar fp none) ds) = _
        rw [show addVar fp none r d = .ok (r ++ [(d.1, baseEntryOf fp d)]) by
          simp [addVar, hd, baseEntryOf]]
        rw [show (JsOut.ok (r ++ [(d.1, baseEntryOf fp d)])).bind
            (jsFoldM (addVar fp none) ds) =
            jsFoldM (addVar fp none) ds (r ++ [(d.1, baseEntryOf fp d)]) from rfl]
        rw [ht, List.append_assoc]
        rfl
      · intro n
        have hx : r ++ (d.1, baseEntryOf fp d) :: t
            = (r ++ [(d.1, baseEntryOf fp d)]) ++ t := by
          rw [List.append_assoc]; rfl
        rw [hx, hl n, lookupReg_append]
        cases hr : lookupReg r n with
        | some e => rfl
        | none =>
          by_cases hn : d.1 = n
          · rw [List.find?_cons_of_pos, lookupReg_cons, if_pos hn]
            rfl
            simp [hn]
          · rw [List.find?_cons_of_neg, lookupReg_cons, if_neg hn]
            rfl
            simp [hn]

/-- C5: within one scan the registry is append-only and first-write-wins
per name: a base pass over a block appends a tail only, a name already
present keeps its stored entry (base value included) untouched by any
later base declaration, and a name first declared in the block ends up
with the value of its first declaration there. -/
theorem parseVariablesInBlock_firstWriteWins (content filePath : String) (r : Registry) :
    ∃ t, parseVariablesInBlock content filePath none r = .ok (r ++ t) ∧
      ∀ n, lookupReg (r ++ t) n =
        match lookupReg r n with
        | some e => some e
        | none =>
          ((scanCssDeclarations content.data).find? (fun d => d.1 = n)).map
            (baseEntryOf filePath) :=
  foldAddVar_base filePath (scanCssDeclarations content.data) r

/-- C6: a media-scoped pass over a block whose declarations are exactly
one redeclaration of a name already in the registry (with its media
array present) leaves the entry's base value and source file unchanged,
appends exactly one query/value variant, and leaves every other entry
untouched. -/
theorem parseVariablesInBlock_mediaVariant (content filePath q n v : String)
    (r : Registry) (e : CssVarEntry) (m : List (String × String))
    (hscan : scanCssDeclarations content.data = [(n, v)])
    (he : lookupReg r n = some e) (hm : e.media = some m) :
    ∃ r2, parseVariablesInBlock content filePath (some q) r = .ok r2 ∧
      lookupReg r2 n = some { value := e.value, file := e.file,
                              filePath := e.filePath, media := some (m ++ [(q, v)]) } ∧
      ∀ n2, n2 ≠ n → lookupReg r2 n2 = lookupReg r n2 := by
  refine ⟨updateReg r n { e with media := some (m ++ [(q, v)]) }, ?_, ?_, ?_⟩
  · show jsFoldM (addVar filePath (some q)) (scanCssDeclarations content.data) r = _
    rw [hscan]
    show (addVar filePath (some q) r (n, v)).bind (jsFoldM (addVar filePath (some q)) []) = _
    rw [show addVar filePath (some q) r (n, v)
        = .ok (updateReg r n { e with media := some (m ++ [(q, v)]) }) by
      simp [addVar, he, hm]]
    rfl
  · have hu := lookupReg_updateReg_self r n { e with media := some (m ++ [(q, v)]) }
    rw [he] at hu
    rw [hu]
  · intro n2 hn2
    exact lookupReg_updateReg_other r n n2 _ hn2

/-- Witness for the C6 theorem at a concrete block, query and registry. -/
theorem parseVariablesInBlock_mediaVariant_wit :
    ∃ r2, parseVariablesInBlock "--x: 2px;" "snippets/a.liquid" (some "(min-width: 768px)")
        [("--x", ⟨"1px", "a.liquid", "snippets/a.liquid", some []⟩)] = .ok r2 ∧
      lookupReg r2 "--x" =
        some ⟨"1px", "a.liquid", "snippets/a.liquid", some [("(min-width: 768px)", "2px")]⟩ ∧
      ∀ n2, n2 ≠ "--x" → lookupReg r2 n2 =
        lookupReg [("--x", ⟨"1px", "a.liquid", "snippets/a.liquid", some []⟩)] n2 :=
  parseVariablesInBlock_mediaVariant "--x: 2px;" "snippets/a.liquid" "(min-width: 768px)"
    "--x" "2px" [("--x", ⟨"1px", "a.liquid", "snippets/a.liquid", some []⟩)]
    ⟨"1px", "a.liquid", "snippets/a.liquid", some []⟩ [] rfl rfl rfl

/-- Equation for `addVar` on a media-scoped redeclaration of a present
name whose media array exists. -/
theorem addVar_media_existing (fp q : String) (r : Registry) (n v : String)
    (e : CssVarEntry) (m : List (String × String))
    (he : lookupReg r n = some e) (hm : e.media = some m) :
    addVar fp (some q) r (n, v)
      = .ok (updateReg r n { e with media := some (m ++ [(q, v)]) }) := by
  simp [addVar, he, hm]

/-- Equation for `addVar` on a fresh name in the base pass. -/
theorem addVar_base_fresh (fp : String) (r : Registry) (n v : String)
    (hn : lookupReg r n = none) :
    addVar fp none r (n, v) = .ok (r ++ [(n, baseEntryOf fp (n, v))]) := by
  simp [addVar, hn, baseEntryOf]

/-- C10: the base-value scan of a root region sees the whole region
text, nested `@media` interiors included: when the only declaration of
a fresh name in the (single) root region lies inside its one `@media`
block, the resulting entry carries that media-scoped value as its base
value, together with the corresponding media variant. -/
theorem parseRootBlocks_mediaOnlyBase (text filePath n v q : String)
    (content body : Chars) (r : Registry)
    (hreg : rootRegionsOf text.data = [content])
    (hdecl : scanCssDeclarations content = [(n, v)])
    (hmedia : mediaBlocksOf content = [(q, body)])
    (hbody : scanCssDeclarations body = [(n, v)])
    (hn : lookupReg r n = none) :
    ∃ r2, parseRootBlocks text filePath r = .ok r2 ∧
      lookupReg r2 n = some { value := v, file := baseName filePath,
                              filePath := filePath, media := some [(q, v)] } := by
  have hl : lookupReg (r ++ [(n, baseEntryOf filePath (n, v))]) n
      = some (baseEntryOf filePath (n, v)) := by
    rw [lookupReg_append, hn, lookupReg_cons]
    simp
  have h1 : parseVariablesInBlock ⟨content⟩ filePath none r
      = .ok (r ++ [(n, baseEntryOf filePath (n, v))]) := by
    show jsFoldM (addVar filePath none) (scanCssDeclarations content) r = _
    rw [hdecl]
    show (addVar filePath none r (n, v)).bind (jsFoldM (addVar filePath none) []) = _
    rw [addVar_base_fresh filePath r n v hn]
    rfl
  have h2 : parseVariablesInBlock ⟨body⟩ filePath (some q)
        (r ++ [(n, baseEntryOf filePath (n, v))])
      = .ok (updateReg (r ++ [(n, baseEntryOf filePath (n, v))]) n
          { baseEntryOf filePath (n, v) with media := some [(q, v)] }) := by
    show jsFoldM (addVar filePath (some q)) (scanCssDeclarations body) _ = _
    rw [hbody]
    show (addVar filePath (some q) _ (n, v)).bind (jsFoldM (addVar filePath (some q)) []) = _
    rw [addVar_media_existing filePath q _ n v _ [] hl rfl]
    rfl
  have h3 : parseMediaBlocks ⟨content⟩ filePath (r ++ [(n, baseEntryOf filePath (n, v))])
      = .ok (updateReg (r ++ [(n, baseEntryOf filePath (n, v))]) n
          { baseEntryOf filePath (n, v) with media := some [(q, v)] }) := by
    show jsFoldM _ (mediaBlocksOf content) _ = _
    rw [hmedia]
    show (parseVariablesInBlock ⟨body⟩ filePath (some q) _).bind _ = _
    rw [h2]
    rfl
  refine ⟨updateReg (r ++ [(n, baseEntryOf filePath (n, v))]) n
      { baseEntryOf filePath (n, v) with media := some [(q, v)] }, ?_, ?_⟩
  · show jsFoldM _ (rootRegionsOf text.data) r = _
    rw [hreg]
    show ((parseVariablesInBlock ⟨content⟩ filePath none r).bind fun r2 =>
        parseMediaBlocks ⟨content⟩ filePath r2).bind _ = _
    rw [h1]
    show (parseMediaBlocks ⟨content⟩ filePath _).bind _ = _
    rw [h3]
    rfl
  · have hu := lookupReg_updateReg_self (r ++ [(n, baseEntryOf filePath (n, v))]) n
      { baseEntryOf filePath (n, v) with media := some [(q, v)] }
    rw [hl] at hu
    rw [hu]
    rfl

/-- Witness for the C10 theorem at a concrete single-region text whose
only declaration sits inside the `@media` block. -/
theorem parseRootBlocks_mediaOnlyBase_wit :
    ∃ r2, parseRootBlocks ":root \x7b @media (min-width: 768px) \x7b --only: 5px; \x7d \x7d"
        "snippets/a.liquid" [] = .ok r2 ∧
      lookupReg r2 "--only" = some { value := "5px", file := baseName "snippets/a.liquid",
                                     filePath := "snippets/a.liquid",
                                     media := some [("(min-width: 768px)", "5px")] } :=
  parseRootBlocks_mediaOnlyBase
    ":root \x7b @media (min-width: 768px) \x7b --only: 5px; \x7d \x7d"
    "snippets/a.liquid" "--only" "5px" "(min-width: 768px)"
    (" @media (min-width: 768px) \x7b --only: 5px; \x7d ").data
    (" --only: 5px; ").data [] rfl rfl rfl rfl rfl

/-- C9: the per-file extraction entry point records nothing for an
empty text, a text shorter than 50 characters, or a text without the
`:root` marker — the registry is returned exactly as it was. -/
theorem parseCssVariables_quickGuard (text filePath : String) (onlyRoot : Bool)
    (ctx : SettingsCtx) (r : Registry)
    (h : text = "" ∨ text.data.length < 50 ∨ containsSub (":root".data) text.data = false) :
    parseCssVariables text filePath onlyRoot ctx r = .ok r := by
  unfold parseCssVariables
  rcases h with h | h | h
  · simp [h]
  · simp [h]
    intro h1 h2 h3
    exact absurd h2 (not_le.mpr h)
  · simp [h]

/-- Witness for the C9 theorem: a short text holding a whole style
block with a valid declaration is still ignored. -/
theorem parseCssVariables_quickGuard_wit :
    (("\x7b% style %\x7d:root\x7b--a: 1px;\x7d\x7b% endstyle %\x7d" : String)).data.length < 50 ∧
    parseCssVariables "\x7b% style %\x7d:root\x7b--a: 1px;\x7d\x7b% endstyle %\x7d"
      "snippets/a.liquid" false emptyCtx [] = .ok [] :=
  ⟨by decide,
   parseCssVariables_quickGuard _ _ _ _ _ (Or.inr (Or.inl (by decide)))⟩

/-- C1: the expression evaluator is not total: the empty expression
leaves the pipe-split list empty, so the `value.startsWith` call
dereferences `undefined` and throws; and a bare `replace` filter
(no argument) throws in `applyLiquidFilter` on `filterArg.match`.
Neither input returns the original text unresolved. -/
theorem evaluateLiquidExpression_throws (fuel : Nat) (ctx : SettingsCtx) (vars : Bindings) :
    evaluateLiquidExpression (fuel + 1) ctx "" vars = .thrown ∧
    evaluateLiquidExpression (fuel + 2) ctx "\x27x\x27 | replace" vars = .thrown :=
  ⟨rfl, rfl⟩

/-- C2 (counterexample): on the claim's own example — a generic
if/else with a non-settings condition — the transform yields the else
branch `B`, not the claimed then branch `A`. -/
theorem liquidToCSS_ifElse_counter :
    liquidToCSS emptyCtx "\x7b% if x > 5 %\x7dA\x7b% else %\x7dB\x7b% endif %\x7d"
      ≠ .ok "A" := by
  have hb : liquidToCSS emptyCtx "\x7b% if x > 5 %\x7dA\x7b% else %\x7dB\x7b% endif %\x7d"
      = .ok "B" := rfl
  rw [hb]
  intro h
  injection h with h2
  exact absurd h2 (by decide)

/-- C2 (amended): the step-5 reducer `stepIfNumBlocks`, taken alone,
does keep the then branch of the example unconditionally; but a
generic if/else pair never survives to step 5 — step 4
(`processConditionalBlocks`) consumes it first and, for a condition
that is no settings comparison, emits the else branch — so the whole
transform yields `B`. -/
theorem liquidToCSS_ifElse_elseWins :
    stepIfNumBlocks "\x7b% if x > 5 %\x7dA\x7b% else %\x7dB\x7b% endif %\x7d" = "A" ∧
    processConditionalBlocks emptyCtx
      "\x7b% if x > 5 %\x7dA\x7b% else %\x7dB\x7b% endif %\x7d" = "B" ∧
    liquidToCSS emptyCtx "\x7b% if x > 5 %\x7dA\x7b% else %\x7dB\x7b% endif %\x7d"
      = .ok "B" :=
  ⟨rfl, rfl, rfl⟩

/-- A module state as a previous scan leaves it: both memoization
caches hold entries, and the hex entry is deliberately different from
what `hexToRgba` computes, so that serving it is observable. -/
def staleState : ScanState :=
  { cssVariables := []
    settingValueCache := [("old", .str "stale")]
    hexToRgbaCache := [(("ff0000", 1), ⟨some 1, some 2, some 3, some (1/2)⟩)]
    cachedConfig := none
    shopifySettings := none
    shopifySettingsSchema := none }

/-- C3 (counterexample): the rescan opening does not clear the
hex-color cache — the stale record survives into the new scan and a
lookup in the new scan serves it, although `hexToRgba` decodes
`ff0000` to a different record. -/
theorem scanStart_servesStaleHex :
    (scanLiquidFilesStart staleState none none).hexToRgbaCache ≠ [] ∧
    (hexToRgbaCached (scanLiquidFilesStart staleState none none) "ff0000" 1).1
      = some ⟨some 1, some 2, some 3, some (1/2)⟩ ∧
    hexToRgba "ff0000" 1 = some ⟨some 255, some 0, some 0, some 1⟩ :=
  ⟨by simp [scanLiquidFilesStart, staleState], rfl, rfl⟩

/-- C3 (amended): the rescan opening clears the registry and the
setting-lookup cache but leaves the hex-color cache untouched; only
`invalidateConfigCache` — run on configuration change, not at scan
start — clears both memoization caches. -/
theorem scanStart_cacheClearing (s : ScanState)
    (ns nss : Option (List (String × JsValue))) :
    (scanLiquidFilesStart s ns nss).cssVariables = [] ∧
    (scanLiquidFilesStart s ns nss).settingValueCache = [] ∧
    (scanLiquidFilesStart s ns nss).hexToRgbaCache = s.hexToRgbaCache ∧
    (invalidateConfigCache s).hexToRgbaCache = [] ∧
    (invalidateConfigCache s).settingValueCache = [] :=
  ⟨rfl, rfl, rfl, rfl, rfl⟩

/-- Claim side (C4): the hex digit characters. -/
def hexDigitList : List Char := "0123456789abcdefABCDEF".data

/-- Claim side (C4): the numeric value of one hex digit. -/
def claimHexVal (c : Char) : Nat :=
  if '0' ≤ c ∧ c ≤ '9' then c.toNat - '0'.toNat
  else if 'a' ≤ c ∧ c ≤ 'f' then c.toNat - 'a'.toNat + 10
  else c.toNat - 'A'.toNat + 10

/-- `parseInt(·, 16)` on two hex digits decodes the byte. -/
theorem parseIntHexJs_pair : ∀ c ∈ hexDigitList, ∀ d ∈ hexDigitList,
    parseIntHexJs [c, d] = some ((claimHexVal c * 16 + claimHexVal d : Nat) : Int) := by
  decide

/-- No hex digit is the hash sign. -/
theorem hexDigit_ne_hash : ∀ c ∈ hexDigitList, c ≠ '#' := by decide

/-- Replacing the first `#` in a hash-free text does nothing. -/
theorem replaceFirstSub_hash_id (cs : Chars) (h : '#' ∉ cs) :
    replaceFirstSub ['#'] [] cs = cs := by
  induction cs with
  | nil => rfl
  | cons c cs ih =>
    have hc : ¬c = '#' := fun he => h (he ▸ List.mem_cons_self c cs)
    show (match matchLit false ['#'] (c :: cs) with
      | some rest => [] ++ rest
      | none => c :: replaceFirstSub ['#'] [] cs) = c :: cs
    rw [show matchLit false ['#'] (c :: cs) = none by
      show (if chEq false '#' c then matchLit false [] cs else none) = none
      rw [if_neg]
      simp [chEq]
      exact fun he => hc he.symm]
    rw [ih (fun hm => h (List.mem_cons_of_mem c hm))]

/-- Six hex digits decode to three byte channels with the alpha
argument as alpha. -/
theorem hexToRgba_six (c1 c2 c3 c4 c5 c6 : Char) (alpha : ℚ)
    (hall : ∀ c ∈ [c1, c2, c3, c4, c5, c6], c ∈ hexDigitList) :
    hexToRgba ⟨[c1, c2, c3, c4, c5, c6]⟩ alpha
      = some ⟨some ((claimHexVal c1 * 16 + claimHexVal c2 : Nat) : Int),
              some ((claimHexVal c3 * 16 + claimHexVal c4 : Nat) : Int),
              some ((claimHexVal c5 * 16 + claimHexVal c6 : Nat) : Int),
              some alpha⟩ := by
  have hh : '#' ∉ [c1, c2, c3, c4, c5, c6] := fun hm =>
    hexDigit_ne_hash '#' (hall '#' hm) rfl
  have hs : hexToRgba.stripFirstHash [c1, c2, c3, c4, c5, c6] = [c1, c2, c3, c4, c5, c6] :=
    replaceFirstSub_hash_id _ hh
  have hne2 : ¬((⟨[c1, c2, c3, c4, c5, c6]⟩ : String) = "") := by
    rw [String.ext_iff]
    exact fun hq => List.noConfusion hq
  have h12 := parseIntHexJs_pair c1 (hall c1 (by simp)) c2 (hall c2 (by simp))
  have h34 := parseIntHexJs_pair c3 (hall c3 (by simp)) c4 (hall c4 (by simp))
  have h56 := parseIntHexJs_pair c5 (hall c5 (by simp)) c6 (hall c6 (by simp))
  simp [hexToRgba, hs, hne2, h12, h34, h56]

/-- Three hex digits are doubled and decode as three channels. -/
theorem hexToRgba_three (c1 c2 c3 : Char) (alpha : ℚ)
    (hall : ∀ c ∈ [c1, c2, c3], c ∈ hexDigitList) :
    hexToRgba ⟨[c1, c2, c3]⟩ alpha
      = some ⟨some ((claimHexVal c1 * 16 + claimHexVal c1 : Nat) : Int),
              some ((claimHexVal c2 * 16 + claimHexVal c2 : Nat) : Int),
              some ((claimHexVal c3 * 16 + claimHexVal c3 : Nat) : Int),
              some alpha⟩ := by
  have hh : '#' ∉ [c1, c2, c3] := fun hm =>
    hexDigit_ne_hash '#' (hall '#' hm) rfl
  have hs : hexToRgba.stripFirstHash [c1, c2, c3] = [c1, c2, c3] :=
    replaceFirstSub_hash_id _ hh
  have hne2 : ¬((⟨[c1, c2, c3]⟩ : String) = "") := by
    rw [String.ext_iff]
    exact fun hq => List.noConfusion hq
  have h11 := parseIntHexJs_pair c1 (hall c1 (by simp)) c1 (hall c1 (by simp))
  have h22 := parseIntHexJs_pair c2 (hall c2 (by simp)) c2 (hall c2 (by simp))
  have h33 := parseIntHexJs_pair c3 (hall c3 (by simp)) c3 (hall c3 (by simp))
  simp [hexToRgba, hs, hne2, h11, h22, h33]

/-- Eight hex digits decode three byte channels plus an alpha byte
divided by 255. -/
theorem hexToRgba_eight (c1 c2 c3 c4 c5 c6 c7 c8 : Char) (alpha : ℚ)
    (hall : ∀ c ∈ [c1, c2, c3, c4, c5, c6, c7, c8], c ∈ hexDigitList) :
    hexToRgba ⟨[c1, c2, c3, c4, c5, c6, c7, c8]⟩ alpha
      = some ⟨some ((claimHexVal c1 * 16 + claimHexVal c2 : Nat) : Int),
              some ((claimHexVal c3 * 16 + claimHexVal c4 : Nat) : Int),
              some ((claimHexVal c5 * 16 + claimHexVal c6 : Nat) : Int),
              some ((((claimHexVal c7 * 16 + claimHexVal c8 : Nat) : Int) : ℚ) / 255)⟩ := by
  have hh : '#' ∉ [c1, c2, c3, c4, c5, c6, c7, c8] := fun hm =>
    hexDigit_ne_hash '#' (hall '#' hm) rfl
  have hs : hexToRgba.stripFirstHash [c1, c2, c3, c4, c5, c6, c7, c8]
      = [c1, c2, c3, c4, c5, c6, c7, c8] :=
    replaceFirstSub_hash_id _ hh
  have hne2 : ¬((⟨[c1, c2, c3, c4, c5, c6, c7, c8]⟩ : String) = "") := by
    rw [String.ext_iff]
    exact fun hq => List.noConfusion hq
  have h12 := parseIntHexJs_pair c1 (hall c1 (by simp)) c2 (hall c2 (by simp))
  have h34 := parseIntHexJs_pair c3 (hall c3 (by simp)) c4 (hall c4 (by simp))
  have h56 := parseIntHexJs_pair c5 (hall c5 (by simp)) c6 (hall c6 (by simp))
  have h78 := parseIntHexJs_pair c7 (hall c7 (by simp)) c8 (hall c8 (by simp))
  simp [hexToRgba, hs, hne2, h12, h34, h56, h78]

/-- A hash-free string of any other length is rejected. -/
theorem hexToRgba_otherLength (cs : Chars) (alpha : ℚ) (hne : cs ≠ [])
    (hh : '#' ∉ cs) (h3 : cs.length ≠ 3) (h6 : cs.length ≠ 6) (h8 : cs.length ≠ 8) :
    hexToRgba ⟨cs⟩ alpha = none := by
  have hs : hexToRgba.stripFirstHash cs = cs := replaceFirstSub_hash_id cs hh
  have hne2 : ¬((⟨cs⟩ : String) = "") := by
    rw [String.ext_iff]
    exact hne
  simp [hexToRgba, hs, hne2, h3, h6, h8]

/-- C4 (amended): the decoder accepts hex-digit strings of length 3
(each digit doubled), 6 (alpha defaulting to the argument) and 8 (the
final byte becoming the alpha channel divided by 255), and rejects
hash-free strings of every other length; but a 3-, 6- or 8-character
string containing non-hex characters is NOT rejected — `parseInt`
prefix-parsing turns failed channels into `NaN` and a record is still
returned (see the counterexample). -/
theorem hexToRgba_decoding :
    (∀ c1 c2 c3 : Char, ∀ alpha : ℚ, (∀ c ∈ [c1, c2, c3], c ∈ hexDigitList) →
      hexToRgba ⟨[c1, c2, c3]⟩ alpha
        = some ⟨some ((claimHexVal c1 * 16 + claimHexVal c1 : Nat) : Int),
                some ((claimHexVal c2 * 16 + claimHexVal c2 : Nat) : Int),
                some ((claimHexVal c3 * 16 + claimHexVal c3 : Nat) : Int),
                some alpha⟩) ∧
    (∀ c1 c2 c3 c4 c5 c6 : Char, ∀ alpha : ℚ,
      (∀ c ∈ [c1, c2, c3, c4, c5, c6], c ∈ hexDigitList) →
      hexToRgba ⟨[c1, c2, c3, c4, c5, c6]⟩ alpha
        = some ⟨some ((claimHexVal c1 * 16 + claimHexVal c2 : Nat) : Int),
                some ((claimHexVal c3 * 16 + claimHexVal c4 : Nat) : Int),
                some ((claimHexVal c5 * 16 + claimHexVal c6 : Nat) : Int),
                some alpha⟩) ∧
    (∀ c1 c2 c3 c4 c5 c6 c7 c8 : Char, ∀ alpha : ℚ,
      (∀ c ∈ [c1, c2, c3, c4, c5, c6, c7, c8], c ∈ hexDigitList) →
      hexToRgba ⟨[c1, c2, c3, c4, c5, c6, c7, c8]⟩ alpha
        = some ⟨some ((claimHexVal c1 * 16 + claimHexVal c2 : Nat) : Int),
                some ((claimHexVal c3 * 16 + claimHexVal c4 : Nat) : Int),
                some ((claimHexVal c5 * 16 + claimHexVal c6 : Nat) : Int),
                some ((((claimHexVal c7 * 16 + claimHexVal c8 : Nat) : Int) : ℚ) / 255)⟩) ∧
    (∀ cs : Chars, ∀ alpha : ℚ, cs ≠ [] → '#' ∉ cs →
      cs.length ≠ 3 → cs.length ≠ 6 → cs.length ≠ 8 →
      hexToRgba ⟨cs⟩ alpha = none) :=
  ⟨fun c1 c2 c3 alpha hall => hexToRgba_three c1 c2 c3 alpha hall,
   fun c1 c2 c3 c4 c5 c6 alpha hall => hexToRgba_six c1 c2 c3 c4 c5 c6 alpha hall,
   fun c1 c2 c3 c4 c5 c6 c7 c8 alpha hall =>
     hexToRgba_eight c1 c2 c3 c4 c5 c6 c7 c8 alpha hall,
   fun cs alpha hne hh h3 h6 h8 => hexToRgba_otherLength cs alpha hne hh h3 h6 h8⟩

/-- Witness for the C4 theorem: a six-digit decode at a concrete
string. -/
theorem hexToRgba_decoding_wit :
    hexToRgba "a1b2c3" 1 = some ⟨some 161, some 178, some 195, some 1⟩ :=
  hexToRgba_decoding.2.1 'a' '1' 'b' '2' 'c' '3' 1 (by decide)

/-- C4 (counterexample): a six-character string with no hex digit at
all still yields a record — its channels are the `NaN` of the failed
`parseInt`, not an absent result. -/
theorem hexToRgba_nonhex_counter :
    hexToRgba "zzzzzz" 1 = some ⟨none, none, none, some 1⟩ ∧
    hexToRgba "zzzzzz" 1 ≠ none := by
  refine ⟨rfl, ?_⟩
  intro h
  rw [show hexToRgba "zzzzzz" 1 = some ⟨none, none, none, some 1⟩ from rfl] at h
  cases h

/-- On a parsed finite value below the `toFixed` fallback bound,
`remToPx` rounds the product to 2 decimals and trims. -/
theorem remToPx_round (s : String) (b q : ℚ)
    (hf : parseFloatJs s.data = .fin q) (h2 : |q * b| < 10 ^ 21) :
    remToPx s b = some (roundFixedTrim (q * b) 2) := by
  show (match parseFloatJs s.data with
    | .nan => none
    | v => some (String.mk (stripFixedZeros (jsToFixed (numVMulQ v b) 2)))) = _
  rw [hf]
  show some (String.mk (stripFixedZeros (jsToFixed (.fin (q * b)) 2))) = _
  unfold jsToFixed roundFixedTrim
  dsimp only
  rw [if_neg (not_le.mpr h2)]

/-- On a parsed finite value and a nonzero base, `pxToRem` rounds the
quotient to 4 decimals and trims. -/
theorem pxToRem_round (s : String) (b q : ℚ)
    (hf : parseFloatJs s.data = .fin q) (hb : b ≠ 0) (h4 : |q / b| < 10 ^ 21) :
    pxToRem s b = some (roundFixedTrim (q / b) 4) := by
  show (match parseFloatJs s.data with
    | .nan => none
    | v => some (String.mk (stripFixedZeros (jsToFixed (numVDivQ v b) 4)))) = _
  rw [hf]
  show some (String.mk (stripFixedZeros (jsToFixed (numVDivQ (.fin q) b) 4))) = _
  rw [show numVDivQ (.fin q) b = .fin (q / b) by
    show (if b = 0 then _ else JsNumV.fin (q / b)) = JsNumV.fin (q / b)
    rw [if_neg hb]]
  unfold jsToFixed roundFixedTrim
  dsimp only
  rw [if_neg (not_le.mpr h4)]

/-- `remToPx` is absent on non-numeric input. -/
theorem remToPx_nan (s : String) (b : ℚ) (h : parseFloatJs s.data = .nan) :
    remToPx s b = none := by
  show (match parseFloatJs s.data with
    | .nan => none
    | v => some (String.mk (stripFixedZeros (jsToFixed (numVMulQ v b) 2)))) = _
  rw [h]

/-- `pxToRem` is absent on non-numeric input. -/
theorem pxToRem_nan (s : String) (b : ℚ) (h : parseFloatJs s.data = .nan) :
    pxToRem s b = none := by
  show (match parseFloatJs s.data with
    | .nan => none
    | v => some (String.mk (stripFixedZeros (jsToFixed (numVDivQ v b) 4)))) = _
  rw [h]

/-- Evaluates `roundFixedTrim` on a nonnegative value whose scaled
floor is known. -/
theorem roundFixedTrim_eq (x : ℚ) (f : Nat) (N : Nat) (hx : ¬x < 0)
    (hN : ⌊|x| * ((10 ^ f : Nat) : ℚ) + 1 / 2⌋ = (N : Int)) :
    roundFixedTrim x f = ⟨stripFixedZeros (fixedDigits N f)⟩ := by
  unfold roundFixedTrim
  dsimp only
  rw [hN, if_neg hx]
  simp

/-- Evaluates `truncFixedTrim` on a nonnegative value whose scaled
floor is known. -/
theorem truncFixedTrim_eq (x : ℚ) (f : Nat) (N : Nat) (hx : ¬x < 0)
    (hN : ⌊|x| * ((10 ^ f : Nat) : ℚ)⌋ = (N : Int)) :
    truncFixedTrim x f = ⟨stripFixedZeros (fixedDigits N f)⟩ := by
  unfold truncFixedTrim
  dsimp only
  rw [hN, if_neg hx]
  simp

/-- C8 (amended): on input parsing to a finite value (below the
`toFixed` fallback bound, with a nonzero base for the division) the
helpers round — half away from zero — to 2 resp. 4 decimals and trim
trailing zeros, rather than truncate; non-numeric input yields absent
for both. -/
theorem remPxConversion (s : String) (b q : ℚ)
    (hf : parseFloatJs s.data = .fin q) (hb : b ≠ 0)
    (h2 : |q * b| < 10 ^ 21) (h4 : |q / b| < 10 ^ 21) :
    remToPx s b = some (roundFixedTrim (q * b) 2) ∧
    pxToRem s b = some (roundFixedTrim (q / b) 4) ∧
    (∀ s2 : String, parseFloatJs s2.data = .nan →
      remToPx s2 b = none ∧ pxToRem s2 b = none) :=
  ⟨remToPx_round s b q hf h2, pxToRem_round s b q hf hb h4,
   fun s2 h => ⟨remToPx_nan s2 b h, pxToRem_nan s2 b h⟩⟩

/-- Witness for the C8 theorem at `"2"` with base 16. -/
theorem remPxConversion_wit :
    remToPx "2" 16 = some (roundFixedTrim ((2 : ℚ) * 16) 2) ∧
    pxToRem "2" 16 = some (roundFixedTrim ((2 : ℚ) / 16) 4) ∧
    remToPx "rem" 16 = none ∧ pxToRem "rem" 16 = none := by
  have hq : ∃ q0, parseFloatJs ("2".data) = JsNumV.fin q0 ∧ q0 = 2 :=
    ⟨_, rfl, by rw [show digitVal '2' = 2 from rfl]; norm_num [pow10Z]⟩
  obtain ⟨q0, hf, hq2⟩ := hq
  rw [hq2] at hf
  have h := remPxConversion "2" 16 2 hf (by norm_num)
    (by rw [abs_of_nonneg] <;> norm_num) (by rw [abs_of_nonneg] <;> norm_num)
  exact ⟨h.1, h.2.1, (h.2.2 "rem" rfl).1, (h.2.2 "rem" rfl).2⟩

/-- C8 (counterexample): `0.066 rem` at base 16 is `1.056 px`; the
helper prints `1.06` (rounding), while truncation to 2 decimals — the
claimed behaviour — prints `1.05`. -/
theorem remToPx_not_truncation :
    remToPx "0.066" 16 = some "1.06" ∧
    truncFixedTrim ((66 / 1000 : ℚ) * 16) 2 = "1.05" ∧
    remToPx "0.066" 16 ≠ some (truncFixedTrim ((66 / 1000 : ℚ) * 16) 2) := by
  have hq : ∃ q0, parseFloatJs ("0.066".data) = JsNumV.fin q0 ∧ q0 = 66 / 1000 :=
    ⟨_, rfl, by
      rw [show digitVal '0' = 0 from rfl, show digitVal '6' = 6 from rfl]
      norm_num [pow10Z]⟩
  obtain ⟨q0, hf, hq2⟩ := hq
  rw [hq2] at hf
  have h1 : remToPx "0.066" 16 = some "1.06" := by
    rw [remToPx_round "0.066" 16 (66 / 1000) hf (by rw [abs_of_nonneg] <;> norm_num)]
    rw [roundFixedTrim_eq ((66 / 1000 : ℚ) * 16) 2 106 (by norm_num)
      (by rw [abs_of_nonneg] <;> norm_num)]
    rfl
  have h2 : truncFixedTrim ((66 / 1000 : ℚ) * 16) 2 = "1.05" := by
    rw [truncFixedTrim_eq ((66 / 1000 : ℚ) * 16) 2 105 (by norm_num)
      (by rw [abs_of_nonneg] <;> norm_num)]
    rfl
  refine ⟨h1, h2, ?_⟩
  rw [h1, h2]
  intro h
  injection h with h3
  exact absurd h3 (by decide)

/-- A list is its maximal leading run plus the rest. -/
theorem takeRun_append_dropRun (p : Char → Bool) (cs : Chars) :
    takeRun p cs ++ dropRun p cs = cs := by
  induction cs with
  | nil => rfl
  | cons c cs ih =>
    by_cases h : p c = true
    · simp [takeRun, dropRun, h, ih]
    · simp [takeRun, dropRun, h]

/-- Members of the leading run satisfy the predicate. -/
theorem mem_takeRun {p : Char → Bool} {c : Char} : ∀ {cs : Chars},
    c ∈ takeRun p cs → p c = true := by
  intro cs
  induction cs with
  | nil => intro h; cases h
  | cons d cs ih =>
    intro h
    by_cases hd : p d = true
    · rw [takeRun, if_pos hd] at h
      rcases List.mem_cons.mp h with rfl | h2
      · exact hd
      · exact ih h2
    · rw [takeRun, if_neg hd] at h
      cases h

/-- Dropping a run keeps a sublist of the members. -/
theorem mem_dropRun {p : Char → Bool} {c : Char} : ∀ {cs : Chars},
    c ∈ dropRun p cs → c ∈ cs := by
  intro cs
  induction cs with
  | nil => intro h; cases h
  | cons d cs ih =>
    intro h
    by_cases hd : p d = true
    · rw [dropRun, if_pos hd] at h
      exact List.mem_cons_of_mem d (ih h)
    · rw [dropRun, if_neg hd] at h
      exact h

/-- A list whose run-drop is empty satisfies the predicate throughout. -/
theorem dropRun_eq_nil_mem {p : Char → Bool} : ∀ {cs : Chars},
    dropRun p cs = [] → ∀ c ∈ cs, p c = true := by
  intro cs
  induction cs with
  | nil => intro _ c hc; cases hc
  | cons d cs ih =>
    intro h c hc
    by_cases hd : p d = true
    · rw [dropRun, if_pos hd] at h
      rcases List.mem_cons.mp hc with rfl | h2
      · exact hd
      · exact ih h c h2
    · rw [dropRun, if_neg hd] at h
      cases h

/-- The run-drop of a list satisfying the predicate throughout is
empty. -/
theorem dropRun_all {p : Char → Bool} : ∀ {cs : Chars},
    (∀ c ∈ cs, p c = true) → dropRun p cs = [] := by
  intro cs
  induction cs with
  | nil => intro _; rfl
  | cons d cs ih =>
    intro h
    rw [dropRun, if_pos (h d (List.mem_cons_self d cs))]
    exact ih (fun c hc => h c (List.mem_cons_of_mem d hc))

/-- Run-drop over an append whose first part drops away completely. -/
theorem dropRun_append_nil {p : Char → Bool} : ∀ {a : Chars} (b : Chars),
    dropRun p a = [] → dropRun p (a ++ b) = dropRun p b := by
  intro a
  induction a with
  | nil => intro b _; rfl
  | cons d a ih =>
    intro b h
    by_cases hd : p d = true
    · rw [dropRun, if_pos hd] at h
      rw [List.cons_append, dropRun, if_pos hd]
      exact ih b h
    · rw [dropRun, if_neg hd] at h
      cases h

/-- Run-drop over an append whose first part keeps a rest. -/
theorem dropRun_append_cons {p : Char → Bool} : ∀ {a : Chars} (b : Chars) {c : Char} {r : Chars},
    dropRun p a = c :: r → dropRun p (a ++ b) = c :: r ++ b := by
  intro a
  induction a with
  | nil => intro b c r h; cases h
  | cons d a ih =>
    intro b c r h
    by_cases hd : p d = true
    · rw [dropRun, if_pos hd] at h
      rw [List.cons_append, dropRun, if_pos hd]
      exact ih b h
    · rw [dropRun, if_neg hd] at h
      rw [List.cons_append, dropRun, if_neg hd]
      rw [← h]
      cases h
      rfl

/-- Trimming ignores a leading all-whitespace chunk. -/
theorem jsTrim_ws_append (w x : Chars) (hw : ∀ c ∈ w, jsWs c = true) :
    jsTrim (w ++ x) = jsTrim x := by
  have hwr : ∀ c ∈ w.reverse, jsWs c = true := fun c hc => hw c (List.mem_reverse.mp hc)
  unfold jsTrim
  rw [List.reverse_append]
  cases h : dropRun jsWs x.reverse with
  | nil =>
    rw [dropRun_append_nil w.reverse h, dropRun_all hwr]
  | cons c r =>
    rw [dropRun_append_cons w.reverse h]
    rw [show (c :: r ++ w.reverse).reverse = w ++ (c :: r).reverse by
      simp [List.reverse_append]]
    rw [dropRun_append_nil ((c :: r).reverse) (dropRun_all hw)]

/-- Trimming ignores a trailing all-whitespace chunk. -/
theorem jsTrim_append_ws (a w : Chars) (hw : ∀ c ∈ w, jsWs c = true) :
    jsTrim (a ++ w) = jsTrim a := by
  have hwr : ∀ c ∈ w.reverse, jsWs c = true := fun c hc => hw c (List.mem_reverse.mp hc)
  unfold jsTrim
  rw [List.reverse_append, dropRun_append_nil a.reverse (dropRun_all hwr)]

/-- Trimming after dropping the leading whitespace run changes
nothing. -/
theorem jsTrim_dropRun_ws (r : Chars) : jsTrim (dropRun jsWs r) = jsTrim r := by
  conv_rhs => rw [← takeRun_append_dropRun jsWs r]
  rw [jsTrim_ws_append _ _ (fun c hc => mem_takeRun hc)]

/-- An all-whitespace text trims to nothing. -/
theorem jsTrim_all_ws (r : Chars) (h : ∀ c ∈ r, jsWs c = true) : jsTrim r = [] := by
  have := jsTrim_ws_append r [] h
  rw [List.append_nil] at this
  rw [this]
  rfl

/-- `takeWhile` keeps a list satisfying the predicate throughout. -/
theorem takeWhile_all {p : Char → Bool} : ∀ {l : Chars},
    (∀ c ∈ l, p c = true) → l.takeWhile p = l := by
  intro l
  induction l with
  | nil => intro _; rfl
  | cons d l ih =>
    intro h
    rw [List.takeWhile_cons, if_pos (h d (List.mem_cons_self d l))]
    rw [ih (fun c hc => h c (List.mem_cons_of_mem d hc))]

/-- `dropWhile` keeps a list failing the predicate throughout. -/
theorem dropWhile_not_all {p : Char → Bool} : ∀ {l : Chars},
    (∀ c ∈ l, p c = false) → l.dropWhile p = l := by
  intro l
  induction l with
  | nil => intro _; rfl
  | cons d l ih =>
    intro h
    rw [List.dropWhile_cons, if_neg (by simp [h d (List.mem_cons_self d l)])]

/-- No operator alternative starts with a whitespace character. -/
theorem opHere_ws_none {c : Char} (hc : jsWs c = true) (x : Chars) :
    opHere (c :: x) = none := by
  have h1 : ¬('>' = c) := fun he => by rw [← he] at hc; exact absurd hc (by decide)
  have h2 : ¬('<' = c) := fun he => by rw [← he] at hc; exact absurd hc (by decide)
  have h3 : ¬('=' = c) := fun he => by rw [← he] at hc; exact absurd hc (by decide)
  simp [opHere, opTry, matchLit, chEq, h1, h2, h3]

/-- Relation between a faithful operator check and the simplified one:
both fail, or both find the same operator with right-hand parts of the
same trimmed text. -/
def relOpR (x y : Option (CmpOp × Chars)) : Prop :=
  (x = none ∧ y = none) ∨
    ∃ op r a, x = some (op, r) ∧ y = some (op, a) ∧ jsTrim r = jsTrim a

/-- The relation is preserved by the alternation's `orElse`. -/
theorem relOpR_orElse {x₁ y₁ x₂ y₂ : Option (CmpOp × Chars)}
    (h1 : relOpR x₁ y₁) (h2 : relOpR x₂ y₂) :
    relOpR (x₁.orElse fun _ => x₂) (y₁.orElse fun _ => y₂) := by
  rcases h1 with ⟨hx, hy⟩ | ⟨op, r, a, hx, hy, ht⟩
  · rw [hx, hy]
    exact h2
  · rw [hx, hy]
    exact Or.inr ⟨op, r, a, rfl, rfl, ht⟩

/-- `\s*(.+)` on a terminator-free text: it fails exactly on the empty
text, and its capture has the text's own trimmed value. -/
theorem rightFrom_spec {r : Chars} (h : ∀ c ∈ r, lineTermC c = false) :
    (r = [] ∧ rightFrom r = none) ∨
      ∃ right, rightFrom r = some right ∧ jsTrim right = jsTrim r := by
  cases hd : dropRun jsWs r with
  | nil =>
    have hall : ∀ c ∈ r, jsWs c = true := dropRun_eq_nil_mem hd
    have hdw : r.reverse.dropWhile (fun c => lineTermC c) = r.reverse :=
      dropWhile_not_all (fun c hc => h c (List.mem_reverse.mp hc))
    cases hr : r.reverse with
    | nil =>
      left
      have hrn : r = [] := by
        have := congrArg List.reverse hr
        simpa using this
      exact ⟨hrn, by rw [rightFrom, hd, hdw, hr]⟩
    | cons c rest =>
      right
      refine ⟨[c], by rw [rightFrom, hd, hdw, hr], ?_⟩
      have hc : c ∈ r := List.mem_reverse.mp (hr ▸ List.mem_cons_self c rest)
      rw [jsTrim_all_ws [c] ?_, jsTrim_all_ws r hall]
      intro d hd2
      rcases List.mem_singleton.mp hd2 with rfl
      exact hall _ hc
  | cons d rest =>
    right
    refine ⟨(d :: rest).takeWhile (fun c => !lineTermC c), by rw [rightFrom, hd], ?_⟩
    have htf : ∀ c ∈ (d :: rest), lineTermC c = false := fun c hc =>
      h c (mem_dropRun (hd ▸ hc))
    rw [takeWhile_all (by intro c hc; simp [htf c hc])]
    rw [← hd, jsTrim_dropRun_ws]

/-- One alternation alternative, faithful versus simplified, on a
terminator-free text. -/
theorem opTryF_rel (op : CmpOp) (lit : Chars) {u : Chars}
    (h : ∀ c ∈ u, lineTermC c = false) :
    relOpR (opTryF op lit u) (opTry op lit u) := by
  unfold opTryF opTry
  cases hm : matchLit false lit u with
  | none => exact Or.inl ⟨rfl, rfl⟩
  | some r =>
    have hrd : r = u.drop lit.length := (matchLit_spec hm).1
    have hrsub : ∀ c ∈ r, lineTermC c = false := by
      intro c hc
      rw [hrd] at hc
      exact h c (List.drop_subset _ u hc)
    dsimp only
    rcases rightFrom_spec hrsub with ⟨hrnil, hnone⟩ | ⟨right, hsome, htrim⟩
    · rw [hnone, hrnil]
      exact Or.inl ⟨rfl, rfl⟩
    · rw [hsome]
      have hrne : r ≠ [] := by
        intro hn
        rw [hn] at hsome
        exact Option.noConfusion ((rfl : rightFrom [] = none) ▸ hsome)
      rw [if_pos (by
        cases r with
        | nil => exact absurd rfl hrne
        | cons a b => rfl)]
      exact Or.inr ⟨op, right, r, rfl, rfl, htrim⟩

/-- The whole alternation, faithful versus simplified, on a
terminator-free text. -/
theorem opHereF_rel {u : Chars} (h : ∀ c ∈ u, lineTermC c = false) :
    relOpR (opHereF u) (opHere u) := by
  unfold opHereF opHere
  exact relOpR_orElse (relOpR_orElse (relOpR_orElse (relOpR_orElse
    (opTryF_rel .ge ['>', '='] h) (opTryF_rel .le ['<', '='] h))
    (opTryF_rel .gt ['>'] h)) (opTryF_rel .lt ['<'] h))
    (opTryF_rel .eq ['=', '='] h)

/-- The left accumulator of the lazy scan only prefixes the left
capture; the scan's success does not depend on it. -/
theorem cmpFromStart_shift : ∀ (u : Chars) (a : Chars),
    cmpFromStart a u = (cmpFromStart [] u).map (fun m => (a ++ m.1, m.2)) := by
  intro u
  induction u with
  | nil => intro a; rfl
  | cons c rest ih =>
    intro a
    show (if lineTermC c then none else
        match cmpTailHere rest with
        | some (op, right) => some (a ++ [c], op, right)
        | none => cmpFromStart (a ++ [c]) rest) =
      ((if lineTermC c then none else
        match cmpTailHere rest with
        | some (op, right) => some (([] : Chars) ++ [c], op, right)
        | none => cmpFromStart (([] : Chars) ++ [c]) rest)).map (fun m => (a ++ m.1, m.2))
    by_cases hc : lineTermC c = true
    · rw [if_pos hc, if_pos hc]
      rfl
    · rw [if_neg hc, if_neg hc]
      cases ht : cmpTailHere rest with
      | some p =>
        obtain ⟨op, right⟩ := p
        simp
      | none =>
        dsimp only
        rw [ih (a ++ [c]), ih (([] : Chars) ++ [c])]
        rw [Option.map_map]
        congr 1
        funext m
        simp [List.append_assoc]

/-- The walk of the no-terminator splitter passes an all-whitespace
chunk without matching (no operator starts with whitespace). -/
theorem noTermSplitAux_ws : ∀ (w : Chars), (∀ c ∈ w, jsWs c = true) → ∀ (L u : Chars),
    noTermSplitAux L (w ++ u) = noTermSplitAux (L ++ w) u := by
  intro w
  induction w with
  | nil => intro _ L u; simp
  | cons d w2 ih =>
    intro hw L u
    have hd : jsWs d = true := hw d (List.mem_cons_self d w2)
    have hstep : noTermSplitAux L (d :: (w2 ++ u)) = noTermSplitAux (L ++ [d]) (w2 ++ u) := by
      show (match opHere (d :: (w2 ++ u)) with
        | some (op, after) => some (L, op, after)
        | none => noTermSplitAux (L ++ [d]) (w2 ++ u)) = _
      rw [opHere_ws_none hd]
    rw [List.cons_append, hstep,
      ih (fun c hc => hw c (List.mem_cons_of_mem d hc)) (L ++ [d]) u]
    simp [List.append_assoc]

/-- Relation between the faithful split and the no-terminator
reference: both fail, or both find the same operator with operand
groups of the same trimmed text. -/
def relSplit (x y : Option (Chars × CmpOp × Chars)) : Prop :=
  (x = none ∧ y = none) ∨
    ∃ l op r l2 r2, x = some (l, op, r) ∧ y = some (l2, op, r2) ∧
      jsTrim l = jsTrim l2 ∧ jsTrim r = jsTrim r2

/-- On a terminator-free text, one start position of the faithful
scan relates to the reference walk from the same position: the
whitespace run before an operator is walked through by the reference
and lands in its left segment, which trimming erases. -/
theorem cmpFromStart_rel : ∀ (s : Chars), (∀ c ∈ s, lineTermC c = false) → ∀ (L : Chars),
    relSplit (cmpFromStart L s)
      (match s with
       | [] => none
       | c :: rest => noTermSplitAux (L ++ [c]) rest) := by
  intro s
  induction s with
  | nil => intro _ L; exact Or.inl ⟨rfl, rfl⟩
  | cons c rest ih =>
    intro h L
    have hc : lineTermC c = false := h c (List.mem_cons_self c rest)
    have hrest : ∀ x ∈ rest, lineTermC x = false := fun x hx => h x (List.mem_cons_of_mem c hx)
    have hu : ∀ x ∈ dropRun jsWs rest, lineTermC x = false := fun x hx => hrest x (mem_dropRun hx)
    show relSplit (if lineTermC c then none else
        match cmpTailHere rest with
        | some (op, right) => some (L ++ [c], op, right)
        | none => cmpFromStart (L ++ [c]) rest)
      (noTermSplitAux (L ++ [c]) rest)
    rw [hc]
    rcases opHereF_rel hu with ⟨hF, hO⟩ | ⟨op, right, after, hF, hO, htrim⟩
    · have hTail : cmpTailHere rest = none := by
        show opHereF (dropRun jsWs rest) = none
        exact hF
      rw [hTail]
      cases rest with
      | nil => exact Or.inl ⟨rfl, rfl⟩
      | cons d rest2 =>
        have hdnone : opHere (d :: rest2) = none := by
          by_cases hdw : jsWs d = true
          · exact opHere_ws_none hdw rest2
          · have hdr : dropRun jsWs (d :: rest2) = d :: rest2 := by
              rw [dropRun, if_neg hdw]
            rw [← hdr]
            exact hO
        have hstep : noTermSplitAux (L ++ [c]) (d :: rest2)
            = noTermSplitAux (L ++ [c] ++ [d]) rest2 := by
          show (match opHere (d :: rest2) with
            | some (op, after) => some (L ++ [c], op, after)
            | none => noTermSplitAux (L ++ [c] ++ [d]) rest2) = _
          rw [hdnone]
        rw [hstep]
        have hih := ih hrest (L ++ [c])
        exact hih
    · have hTail : cmpTailHere rest = some (op, right) := by
        show opHereF (dropRun jsWs rest) = some (op, right)
        exact hF
      rw [hTail]
      have hwm : ∀ x ∈ takeRun jsWs rest, jsWs x = true := fun x hx => mem_takeRun hx
      have hwalk : noTermSplitAux (L ++ [c]) rest
          = noTermSplitAux (L ++ [c] ++ takeRun jsWs rest) (dropRun jsWs rest) := by
        conv_lhs => rw [← takeRun_append_dropRun jsWs rest]
        exact noTermSplitAux_ws (takeRun jsWs rest) hwm (L ++ [c]) (dropRun jsWs rest)
      have hone : opHere ([] : Chars) = none := rfl
      obtain ⟨u0, u2, hu_eq⟩ : ∃ u0 u2, dropRun jsWs rest = u0 :: u2 := by
        cases hdr : dropRun jsWs rest with
        | nil =>
          rw [hdr] at hO
          rw [hone] at hO
          cases hO
        | cons a b => exact ⟨a, b, rfl⟩
      have hsucc : noTermSplitAux (L ++ [c] ++ takeRun jsWs rest) (dropRun jsWs rest)
          = some (L ++ [c] ++ takeRun jsWs rest, op, after) := by
        rw [hu_eq]
        show (match opHere (u0 :: u2) with
          | some (op, after) => some (L ++ [c] ++ takeRun jsWs rest, op, after)
          | none => noTermSplitAux (L ++ [c] ++ takeRun jsWs rest ++ [u0]) u2) = _
        rw [← hu_eq, hO]
      rw [hwalk, hsucc]
      exact Or.inr ⟨L ++ [c], op, right, L ++ [c] ++ takeRun jsWs rest, after, rfl, rfl,
        (jsTrim_append_ws (L ++ [c]) (takeRun jsWs rest) hwm).symm, htrim⟩

/-- On a terminator-free text the faithful comparison split and the
no-terminator reference split agree up to trimming of the operand
groups. -/
theorem comparisonSplit_rel : ∀ (cs : Chars), (∀ c ∈ cs, lineTermC c = false) →
    relSplit (comparisonSplit cs) (noTermSplit cs) := by
  intro cs
  induction cs with
  | nil => intro _; exact Or.inl ⟨rfl, rfl⟩
  | cons c rest ih =>
    intro h
    have hc : lineTermC c = false := h c (List.mem_cons_self c rest)
    have hrest : ∀ x ∈ rest, lineTermC x = false := fun x hx => h x (List.mem_cons_of_mem c hx)
    have hP := cmpFromStart_rel (c :: rest) h []
    show relSplit (match cmpFromStart [] (c :: rest) with
      | some m => some m
      | none => comparisonSplit rest) (noTermSplit (c :: rest))
    rcases hP with ⟨hF, hO⟩ | ⟨l, op, r, l2, r2, hF, hO, ht1, ht2⟩
    · rw [hF]
      have hO2 : noTermSplit (c :: rest) = none := by
        show noTermSplitAux [c] rest = none
        exact hO
      rw [hO2]
      have hF2 : cmpFromStart [] rest = none := by
        have h1 : cmpFromStart [] (c :: rest) =
            (match cmpTailHere rest with
             | some (op, right) => some (([] : Chars) ++ [c], op, right)
             | none => cmpFromStart (([] : Chars) ++ [c]) rest) := by
          show (if lineTermC c then none else _) = _
          rw [hc, if_neg Bool.false_ne_true]
        cases ht : cmpTailHere rest with
        | some p =>
          obtain ⟨o2, r3⟩ := p
          rw [h1, ht] at hF
          cases hF
        | none =>
          rw [h1, ht] at hF
          rw [cmpFromStart_shift rest (([] : Chars) ++ [c])] at hF
          exact Option.map_eq_none.mp hF
      have hnts : noTermSplit rest = none := by
        cases rest with
        | nil => rfl
        | cons d rest2 =>
          rcases cmpFromStart_rel (d :: rest2) hrest [] with ⟨_, hO3⟩ | ⟨l, op, r, l2, r2, hF3, _, _, _⟩
          · show noTermSplitAux [d] rest2 = none
            exact hO3
          · rw [hF3] at hF2
            cases hF2
      have hih := ih hrest
      rw [hnts] at hih
      rcases hih with ⟨hcc, _⟩ | ⟨l, op, r, l2, r2, _, hOc, _, _⟩
      · rw [hcc]
        exact Or.inl ⟨rfl, rfl⟩
      · cases hOc
    · rw [hF]
      have hO2 : noTermSplit (c :: rest) = some (l2, op, r2) := by
        show noTermSplitAux [c] rest = some (l2, op, r2)
        exact hO
      rw [hO2]
      exact Or.inr ⟨l, op, r, l2, r2, rfl, rfl, ht1, ht2⟩

/-- C7 (amended): for every condition string WITHOUT line terminators
and all bindings, the condition evaluator is exactly the claimed
procedure: a ` contains ` split gives a stringified substring test;
otherwise the first occurrence of `>=`, `<=`, `>`, `<` or `==` (with
both operands non-empty, per the regex) splits the condition, ordering
operators comparing after numeric coercion and `==` by loose equality;
otherwise the truthiness of the evaluated expression, with absent, the
empty string, `false` and `0` falsy and everything else truthy.  On a
multi-line condition the regex `.` stops at the terminator and the
operands differ from the claim's first-occurrence split (see the
counterexample). -/
theorem evaluateLiquidCondition_eq_claim_noTerm (fuel : Nat) (ctx : SettingsCtx)
    (condition : String) (vars : Bindings)
    (h : ∀ c ∈ condition.data, lineTermC c = false) :
    evaluateLiquidCondition fuel ctx condition vars =
      claimLiquidCondition fuel ctx condition vars := by
  unfold evaluateLiquidCondition claimLiquidCondition
  by_cases hc : containsSub (" contains ".data) condition.data = true
  · rw [if_pos hc, if_pos hc]
  · rw [if_neg hc, if_neg hc]
    have hrel := comparisonSplit_rel condition.data h
    rw [noTermSplit_eq_claim] at hrel
    rcases hrel with ⟨hF, hO⟩ | ⟨l, op, r, l2, r2, hF, hO, ht1, ht2⟩
    · rw [hF, hO]
      simp [claimTruthy_eq_jsToBoolean]
    · rw [hF, hO]
      dsimp only
      have hl : (⟨jsTrim l⟩ : String) = ⟨jsTrim l2⟩ := congrArg String.mk ht1
      have hr : (⟨jsTrim r⟩ : String) = ⟨jsTrim r2⟩ := congrArg String.mk ht2
      rw [hl, hr]
      cases op <;> rfl

/-- Witness for the C7 theorem at a terminator-free condition. -/
theorem evaluateLiquidCondition_eq_claim_noTerm_wit :
    evaluateLiquidCondition 5 emptyCtx "x > 5" [] =
      claimLiquidCondition 5 emptyCtx "x > 5" [] :=
  evaluateLiquidCondition_eq_claim_noTerm 5 emptyCtx "x > 5" [] (by decide)

/-- C7 (counterexample): on a condition holding a line terminator the
regex `.` cannot cross it — the engine's left operand is `x`, the last
line's identifier, and the condition evaluates true; the claim's
first-occurrence split takes everything before the operator, operand
`a\nx`, and evaluates false. -/
theorem evaluateLiquidCondition_multiline_counter :
    evaluateLiquidCondition 5 emptyCtx "a\nx == x" [] = .ok true ∧
    claimLiquidCondition 5 emptyCtx "a\nx == x" [] = .ok false ∧
    evaluateLiquidCondition 5 emptyCtx "a\nx == x" [] ≠
      claimLiquidCondition 5 emptyCtx "a\nx == x" [] := by
  refine ⟨rfl, rfl, ?_⟩
  intro hEq
  rw [show evaluateLiquidCondition 5 emptyCtx "a\nx == x" [] = .ok true from rfl,
    show claimLiquidCondition 5 emptyCtx "a\nx == x" [] = .ok false from rfl] at hEq
  simp at hEq
